import Mathlib

/-!
# A shallow embedding of the Dee relational engine (Dee.py / DeeDatabase.py)

This file translates the parts of the Dee source that the verified claims
depend on into Lean definitions, and proves the claims about them.

Modelling conventions, fixed once here:

* Python attribute names are `String`s (`Attr`).
* Attribute values in the sample databases and claims are integers and
  strings, so a `Value` is `Value.int` or `Value.str`.  Python's dynamic
  type check `isinstance(x, type(y))` becomes a check on the `Value`
  constructor tag (`Value.tag`).
* A Python `Tuple` (Dee.py line 193) is a `dict` whose equality and hash are
  order-independent.  We model it as an association list `Tup` and use the
  key-sorted canonical form `Tup.canon` wherever the source relies on
  dict equality; lookups (`t[attr]`) are `Tup.get?` / `lookupE`.
* Fallible Python code (raising exceptions) returns `Except Err _`;
  in-place mutation that must survive an exception (Relation._addToBody /
  _removeFromBody) is modelled in state-passing style, returning the final
  state together with the raised error, if any.
* The per-attribute inverted index `Relation._headingInvert` (a dict from
  attribute to a dict from value to a set of row positions) is a function
  `Idx = Attr → Value → List ℕ`; a Python `set` of positions becomes a
  duplicate-free list whose order stands in for the set's arbitrary
  iteration order.
-/

set_option maxRecDepth 200000

/-- Attribute names (Python `str`). -/
abbrev Attr := String

/-- The attribute values occurring in the embedded programs: Python ints and
strings (the domains used by the sample databases and by every claim). -/
inductive Value where
  | int (n : Int)
  | str (s : String)
deriving DecidableEq

/-- The constructor tag of a value; models Python `type(v)` as far as
`isinstance(x, type(y))` checks in `_addToBody`/`_removeFromBody` go. -/
def Value.tag : Value → Bool
  | .int _ => true
  | .str _ => false

/-- A relational tuple: an association list from attribute names to values
(Python `Tuple`, a `dict` subclass, Dee.py line 193). -/
abbrev Tup := List (Attr × Value)

/-- A stored row: the values of one body entry, ordered by the relation's
heading (Dee.py stores `tuple(d[attr] for attr in heading)`). -/
abbrev Row := List Value

/-- The errors ("exceptions") the embedded code can raise. -/
inductive Err where
  | relEx (msg : String)        -- RelationException
  | constraintEx (cname : String)  -- RelationConstraintException
  | invalidOp (msg : String)    -- RelationInvalidOperationException
  | typeEx                      -- Python TypeError (e.g. `raise "Invalid type"`)
  | keyEx                       -- Python KeyError
  | idxEx                       -- Python IndexError
  | assertEx                    -- Python AssertionError
  | nameEx                      -- Python NameError (unresolved reference)
  | attrEx                      -- Python AttributeError
deriving DecidableEq

/-- Computable equality of `Except` results, used to state and decide
concrete evaluations. -/
instance exceptDecEq {α : Type} [DecidableEq α] : DecidableEq (Except Err α) := fun a b =>
  match a, b with
  | .ok x, .ok y =>
    match decEq x y with
    | isTrue h => isTrue (by rw [h])
    | isFalse h => isFalse (fun hc => h (by cases hc; rfl))
  | .error e, .error f =>
    match decEq e f with
    | isTrue h => isTrue (by rw [h])
    | isFalse h => isFalse (fun hc => h (by cases hc; rfl))
  | .ok _, .error _ => isFalse (fun hc => by cases hc)
  | .error _, .ok _ => isFalse (fun hc => by cases hc)

/-- Kernel-computable lexicographic comparison of attribute names
(Python string `<`).  Mathlib's `String` order instances go through
`String.ltb`, a well-founded recursion the kernel cannot evaluate, so
tuple canonicalization uses this structurally recursive equivalent on the
character lists. -/
def charListLtB : List Char → List Char → Bool
  | _, [] => false
  | [], _ :: _ => true
  | a :: as, b :: bs =>
    if a < b then true
    else if b < a then false
    else charListLtB as bs

/-- Strict lexicographic order on attribute names. -/
def strLtP (a b : Attr) : Prop := charListLtB a.data b.data = true

instance : DecidableRel strLtP := fun a b =>
  inferInstanceAs (Decidable (charListLtB a.data b.data = true))

theorem charListLtB_irrefl (l : List Char) : charListLtB l l = false := by
  induction l with
  | nil => rfl
  | cons a as ih => simp [charListLtB, ih]

theorem charListLtB_trans {l1 l2 l3 : List Char}
    (h1 : charListLtB l1 l2 = true) (h2 : charListLtB l2 l3 = true) :
    charListLtB l1 l3 = true := by
  induction l1 generalizing l2 l3 with
  | nil =>
    cases l3 with
    | nil =>
      cases l2 with
      | nil => cases h1
      | cons b bs => cases h2
    | cons c cs => rfl
  | cons a as ih =>
    cases l2 with
    | nil => cases h1
    | cons b bs =>
      cases l3 with
      | nil => cases h2
      | cons c cs =>
        simp only [charListLtB] at h1 h2 ⊢
        by_cases hab : a < b
        · by_cases hbc : b < c
          · rw [if_pos (lt_trans hab hbc)]
          · rw [if_neg hbc] at h2
            by_cases hcb : c < b
            · rw [if_pos hcb] at h2; cases h2
            · have hbc2 : b = c := le_antisymm (not_lt.mp hcb) (not_lt.mp hbc)
              subst hbc2
              rw [if_pos hab]
        · rw [if_neg hab] at h1
          by_cases hba : b < a
          · rw [if_pos hba] at h1; cases h1
          · rw [if_neg hba] at h1
            have hab2 : a = b := le_antisymm (not_lt.mp hba) (not_lt.mp hab)
            subst hab2
            by_cases hac : a < c
            · rw [if_pos hac]
            · rw [if_neg hac] at h2
              by_cases hca : c < a
              · rw [if_pos hca] at h2; cases h2
              · rw [if_neg hca] at h2
                rw [if_neg hac, if_neg hca]
                exact ih h1 h2

theorem charListLtB_conn {l1 l2 : List Char}
    (h1 : charListLtB l1 l2 = false) (h2 : charListLtB l2 l1 = false) :
    l1 = l2 := by
  induction l1 generalizing l2 with
  | nil =>
    cases l2 with
    | nil => rfl
    | cons b bs => simp [charListLtB] at h1
  | cons a as ih =>
    cases l2 with
    | nil => simp [charListLtB] at h2
    | cons b bs =>
      simp only [charListLtB] at h1 h2
      by_cases hab : a < b
      · rw [if_pos hab] at h1; cases h1
      · by_cases hba : b < a
        · rw [if_pos hba] at h2; cases h2
        · rw [if_neg hab, if_neg hba] at h1
          rw [if_neg hba, if_neg hab] at h2
          have hab2 : a = b := le_antisymm (not_lt.mp hba) (not_lt.mp hab)
          rw [hab2, ih h1 h2]

theorem strLt_irrefl (a : Attr) : ¬ strLtP a a := by
  rw [strLtP, charListLtB_irrefl]
  simp

theorem strLt_trans {a b c : Attr} (h1 : strLtP a b) (h2 : strLtP b c) :
    strLtP a c := charListLtB_trans h1 h2

theorem strLt_asymm {a b : Attr} (h : strLtP a b) : ¬ strLtP b a := by
  intro h2
  exact strLt_irrefl a (strLt_trans h h2)

theorem strLt_conn {a b : Attr} (h1 : ¬ strLtP a b) (h2 : ¬ strLtP b a) :
    a = b := by
  cases a with
  | mk la =>
    cases b with
    | mk lb =>
      have e : la = lb :=
        charListLtB_conn (Bool.not_eq_true _ ▸ h1) (Bool.not_eq_true _ ▸ h2)
      rw [e]

theorem strLt_or_of_ne {a b : Attr} (h : a ≠ b) : strLtP a b ∨ strLtP b a := by
  by_cases h1 : strLtP a b
  · exact Or.inl h1
  · by_cases h2 : strLtP b a
    · exact Or.inr h2
    · exact absurd (strLt_conn h1 h2) h

theorem strLt_ne {a b : Attr} (h : strLtP a b) : a ≠ b := by
  intro he
  subst he
  exact strLt_irrefl a h

namespace Tup

/-- Key comparison used to canonicalize tuples. -/
def keyLe (p q : Attr × Value) : Prop := ¬ strLtP q.1 p.1

/-- Strict key comparison: canonical tuples are `Pairwise keyLt`. -/
def keyLt (p q : Attr × Value) : Prop := strLtP p.1 q.1

instance : DecidableRel keyLe := fun p q =>
  inferInstanceAs (Decidable (¬ strLtP q.1 p.1))

instance : DecidableRel keyLt := fun p q =>
  inferInstanceAs (Decidable (strLtP p.1 q.1))

instance : IsTotal (Attr × Value) keyLe := by
  constructor
  intro p q
  by_cases h : strLtP q.1 p.1
  · exact Or.inr (strLt_asymm h)
  · exact Or.inl h

instance : IsTrans (Attr × Value) keyLe := by
  constructor
  intro p q r h1 h2
  rw [keyLe] at h1 h2 ⊢
  intro hc
  by_cases hpq : strLtP p.1 q.1
  · exact h2 (strLt_trans hc hpq)
  · have he : p.1 = q.1 := strLt_conn hpq h1
    exact h2 (he ▸ hc)

theorem keyLt_of_keyLe_of_ne {p q : Attr × Value} (h1 : keyLe p q)
    (h2 : p.1 ≠ q.1) : keyLt p q := by
  rcases strLt_or_of_ne h2 with h | h
  · exact h
  · exact absurd h h1

/-- The keys of a tuple. -/
def keys (t : Tup) : List Attr := t.map Prod.fst

/-- Dict lookup `t[a]`, as an `Option`. -/
def get? : Tup → Attr → Option Value
  | [], _ => none
  | p :: ts, a => if p.1 = a then some p.2 else get? ts a

/-- A tuple is well-keyed when its attribute names are distinct
(the invariant of a Python dict). -/
def WK (t : Tup) : Prop := t.keys.Nodup

instance (t : Tup) : Decidable (WK t) := inferInstanceAs (Decidable (List.Nodup _))

/-- Canonical (key-sorted) form of a tuple.  Python dict equality is
order-independent; two well-keyed tuples are dict-equal iff their canonical
forms are syntactically equal. -/
def canon (t : Tup) : Tup := List.insertionSort keyLe t

/-- A tuple in canonical form: strictly sorted by key. -/
def IsCanon (t : Tup) : Prop := t.Pairwise keyLt

theorem canon_perm (t : Tup) : List.Perm (canon t) t := List.perm_insertionSort keyLe t

theorem keys_nodup_of_perm {t u : Tup} (h : List.Perm t u) (hu : WK u) : WK t :=
  ((h.map Prod.fst).nodup_iff).mpr hu

theorem WK.canon {t : Tup} (h : WK t) : WK (Tup.canon t) :=
  keys_nodup_of_perm (canon_perm t) h

theorem isCanon_canon {t : Tup} (h : WK t) : IsCanon (canon t) := by
  have hs : (canon t).Pairwise keyLe := List.sorted_insertionSort keyLe t
  have hn : WK (canon t) := h.canon
  have hne : (canon t).Pairwise (fun p q => p.1 ≠ q.1) :=
    (List.pairwise_map).mp hn
  exact (hs.and hne).imp (fun h => keyLt_of_keyLe_of_ne h.1 h.2)

theorem IsCanon.wk {t : Tup} (h : IsCanon t) : WK t := by
  induction t with
  | nil => simp [WK, keys]
  | cons p ts ih =>
    rcases List.pairwise_cons.mp h with ⟨h1, h2⟩
    refine List.nodup_cons.mpr ⟨?_, ih h2⟩
    intro hc
    rcases List.mem_map.mp hc with ⟨q, hq, hqe⟩
    have := h1 q hq
    rw [keyLt, hqe] at this
    exact strLt_irrefl _ this

theorem get?_eq_some_of_mem {t : Tup} (h : WK t) {a : Attr} {v : Value}
    (hm : (a, v) ∈ t) : get? t a = some v := by
  induction t with
  | nil => cases hm
  | cons p ts ih =>
    rcases List.mem_cons.mp hm with he | hm2
    · subst he; simp [get?]
    · have hk : p.1 ≠ a := by
        intro hc
        have : a ∈ ts.map Prod.fst := List.mem_map.mpr ⟨(a, v), hm2, rfl⟩
        exact (List.nodup_cons.mp h).1 (hc ▸ this)
      have ht : WK ts := (List.nodup_cons.mp h).2
      simpa [get?, hk] using ih ht hm2

theorem mem_of_get?_eq_some {t : Tup} {a : Attr} {v : Value}
    (h : get? t a = some v) : (a, v) ∈ t := by
  induction t with
  | nil => simp [get?] at h
  | cons p ts ih =>
    by_cases hc : p.1 = a
    · rw [get?, if_pos hc] at h
      cases h
      exact List.mem_cons.mpr (Or.inl (by rw [← hc]))
    · rw [get?, if_neg hc] at h
      exact List.mem_cons.mpr (Or.inr (ih h))

theorem get?_eq_none_iff {t : Tup} {a : Attr} :
    get? t a = none ↔ a ∉ t.keys := by
  induction t with
  | nil => simp [get?, keys]
  | cons p ts ih =>
    simp only [keys, List.map_cons, List.mem_cons]
    by_cases hc : p.1 = a
    · rw [get?, if_pos hc]
      simp [hc]
    · rw [get?, if_neg hc]
      rw [ih]
      constructor
      · intro h hh
        rcases hh with hh | hh
        · exact hc hh.symm
        · exact h hh
      · intro h hh
        exact h (Or.inr hh)

theorem get?_isSome_iff {t : Tup} {a : Attr} :
    (get? t a).isSome ↔ a ∈ t.keys := by
  rcases h : get? t a with _ | v
  · simpa [h] using (get?_eq_none_iff).mp h
  · simp only [h, Option.isSome_some, true_iff]
    exact List.mem_map.mpr ⟨(a, v), mem_of_get?_eq_some h, rfl⟩

theorem get?_eq_of_perm {t u : Tup} (h : List.Perm t u) (hu : WK u) (a : Attr) :
    get? t a = get? u a := by
  have ht : WK t := keys_nodup_of_perm h hu
  rcases hv : get? t a with _ | v
  · rcases hw : get? u a with _ | w
    · rfl
    · exfalso
      have hm := mem_of_get?_eq_some hw
      have hm2 : (a, w) ∈ t := (h.mem_iff).mpr hm
      rw [get?_eq_some_of_mem ht hm2] at hv; cases hv
  · have hm := mem_of_get?_eq_some hv
    have hm2 : (a, v) ∈ u := (h.mem_iff).mp hm
    rw [get?_eq_some_of_mem hu hm2]

theorem get?_canon {t : Tup} (h : WK t) (a : Attr) :
    get? (canon t) a = get? t a :=
  get?_eq_of_perm (canon_perm t) h a

/-- Extensionality for canonical tuples: equal lookups mean equal tuples. -/
theorem canon_ext {t u : Tup} (ht : IsCanon t) (hu : IsCanon u)
    (h : ∀ a, get? t a = get? u a) : t = u := by
  induction t generalizing u with
  | nil =>
    cases u with
    | nil => rfl
    | cons q us =>
      have h1 : get? (q :: us) q.1 = some q.2 :=
        get?_eq_some_of_mem hu.wk (List.mem_cons_self _ _)
      rw [← h q.1] at h1
      simp [get?] at h1
  | cons p ts ih =>
    cases u with
    | nil =>
      have h1 : get? (p :: ts) p.1 = some p.2 :=
        get?_eq_some_of_mem ht.wk (List.mem_cons_self _ _)
      rw [h p.1] at h1
      simp [get?] at h1
    | cons q us =>
      rcases List.pairwise_cons.mp ht with ⟨hpt, hts⟩
      rcases List.pairwise_cons.mp hu with ⟨hqu, hus⟩
      have hkeys : p.1 = q.1 := by
        by_contra hne
        rcases strLt_or_of_ne hne with hlt | hgt
        · have h1 : get? (p :: ts) p.1 = some p.2 :=
            get?_eq_some_of_mem ht.wk (List.mem_cons_self _ _)
          have h2 : get? (q :: us) p.1 = none := by
            apply get?_eq_none_iff.mpr
            intro hc
            simp only [keys, List.map_cons, List.mem_cons] at hc
            rcases hc with hc | hc
            · exact strLt_ne hlt hc
            · rcases List.mem_map.mp hc with ⟨r, hr, hre⟩
              have hq := hqu r hr
              rw [keyLt, hre] at hq
              exact strLt_irrefl _ (strLt_trans hlt hq)
          rw [h p.1, h2] at h1; cases h1
        · have h1 : get? (q :: us) q.1 = some q.2 :=
            get?_eq_some_of_mem hu.wk (List.mem_cons_self _ _)
          have h2 : get? (p :: ts) q.1 = none := by
            apply get?_eq_none_iff.mpr
            intro hc
            simp only [keys, List.map_cons, List.mem_cons] at hc
            rcases hc with hc | hc
            · exact strLt_ne hgt hc
            · rcases List.mem_map.mp hc with ⟨r, hr, hre⟩
              have hq := hpt r hr
              rw [keyLt, hre] at hq
              exact strLt_irrefl _ (strLt_trans hgt hq)
          rw [← h q.1, h2] at h1; cases h1
      have hvals : p.2 = q.2 := by
        have h1 : get? (p :: ts) p.1 = some p.2 :=
          get?_eq_some_of_mem ht.wk (List.mem_cons_self _ _)
        have h2 : get? (q :: us) q.1 = some q.2 :=
          get?_eq_some_of_mem hu.wk (List.mem_cons_self _ _)
        rw [h p.1] at h1
        rw [hkeys] at h1
        rw [h2] at h1
        exact (Option.some_inj.mp h1).symm
      have hpq : p = q := Prod.ext hkeys hvals
      subst hpq
      congr 1
      apply ih hts hus
      intro a
      by_cases hc : p.1 = a
      · subst hc
        have h2 : get? ts p.1 = none := by
          apply get?_eq_none_iff.mpr
          intro hx
          rcases List.mem_map.mp hx with ⟨r, hr, hre⟩
          have hq := hpt r hr
          rw [keyLt, hre] at hq
          exact strLt_irrefl _ hq
        have h3 : get? us p.1 = none := by
          apply get?_eq_none_iff.mpr
          intro hx
          rcases List.mem_map.mp hx with ⟨r, hr, hre⟩
          have hq := hqu r hr
          rw [keyLt, hre] at hq
          exact strLt_irrefl _ hq
        rw [h2, h3]
      · have := h a
        rw [get?, if_neg hc, get?, if_neg hc] at this
        exact this

theorem canon_of_isCanon {t : Tup} (h : IsCanon t) : canon t = t :=
  canon_ext (isCanon_canon h.wk) h (fun a => get?_canon h.wk a)

/-- Canonical forms of well-keyed tuples agree iff all lookups agree. -/
theorem canon_eq_of_get? {t u : Tup} (ht : WK t) (hu : WK u)
    (h : ∀ a, get? t a = get? u a) : canon t = canon u :=
  canon_ext (isCanon_canon ht) (isCanon_canon hu)
    (fun a => by rw [get?_canon ht, get?_canon hu]; exact h a)

/-- `dict.update`: the right-hand tuple's bindings win on key collisions
(Dee.py `tr1.update(tr2)` in `AND`). -/
def update (t1 t2 : Tup) : Tup :=
  canon (t2 ++ t1.filter (fun p => ¬ (keys t2).contains p.1))

theorem get?_append {t u : Tup} (a : Attr) :
    get? (t ++ u) a = (get? t a).or (get? u a) := by
  induction t with
  | nil => simp [get?]
  | cons p ts ih =>
    by_cases hc : p.1 = a
    · rw [List.cons_append, get?, if_pos hc, get?, if_pos hc]
      rfl
    · rw [List.cons_append, get?, if_neg hc, get?, if_neg hc]
      exact ih

theorem get?_filter_not_mem {t : Tup} {a : Attr} {ks : List Attr}
    (h : a ∉ ks) :
    get? (t.filter (fun p => ¬ ks.contains p.1)) a = get? t a := by
  induction t with
  | nil => simp [get?]
  | cons p ts ih =>
    by_cases hm : p.1 ∈ ks
    · rw [List.filter_cons_of_neg (by simpa using hm)]
      rw [ih]
      have hne : p.1 ≠ a := fun hc => h (hc ▸ hm)
      rw [get?, if_neg hne]
    · rw [List.filter_cons_of_pos (by simpa using hm)]
      by_cases hc : p.1 = a
      · rw [get?, if_pos hc, get?, if_pos hc]
      · rw [get?, if_neg hc, get?, if_neg hc]
        exact ih

theorem get?_filter_mem {t : Tup} {a : Attr} {ks : List Attr}
    (h : a ∈ ks) :
    get? (t.filter (fun p => ¬ ks.contains p.1)) a = none := by
  apply get?_eq_none_iff.mpr
  intro hc
  rcases List.mem_map.mp hc with ⟨r, hr, hre⟩
  have hf := List.of_mem_filter hr
  rw [hre] at hf
  simp only [decide_not, Bool.not_eq_true', decide_eq_false_iff_not] at hf
  exact hf (by simpa using h)

theorem wk_update_core {t1 t2 : Tup} (h1 : WK t1) (h2 : WK t2) :
    WK (t2 ++ t1.filter (fun p => ¬ (keys t2).contains p.1)) := by
  simp only [WK, keys, List.map_append]
  apply List.Nodup.append
  · exact h2
  · exact List.Nodup.sublist ((List.filter_sublist _).map Prod.fst) h1
  · intro a ha hb
    rcases List.mem_map.mp hb with ⟨r, hr, hre⟩
    have hf := List.of_mem_filter hr
    rw [hre] at hf
    simp only [decide_not, Bool.not_eq_true', decide_eq_false_iff_not] at hf
    exact hf (by simpa [keys] using ha)

theorem WK.update {t1 t2 : Tup} (h1 : WK t1) (h2 : WK t2) :
    WK (Tup.update t1 t2) :=
  keys_nodup_of_perm (canon_perm _) (wk_update_core h1 h2)

theorem isCanon_update {t1 t2 : Tup} (h1 : WK t1) (h2 : WK t2) :
    IsCanon (update t1 t2) :=
  isCanon_canon (wk_update_core h1 h2)

/-- Lookup in an updated tuple: right side wins. -/
theorem get?_update {t1 t2 : Tup} (h1 : WK t1) (h2 : WK t2) (a : Attr) :
    get? (update t1 t2) a = (get? t2 a).or (get? t1 a) := by
  rw [update, get?_canon (wk_update_core h1 h2), get?_append]
  by_cases hm : a ∈ keys t2
  · rcases Option.isSome_iff_exists.mp (get?_isSome_iff.mpr hm) with ⟨v, hv⟩
    rw [hv, get?_filter_mem hm]
    rfl
  · rw [get?_eq_none_iff.mpr hm, get?_filter_not_mem hm]

end Tup

/-! ## Materialized bodies: rows plus the per-attribute inverted index

Dee.py keeps, for a materialized relation, `self._body` (a list of value
tuples ordered by the heading) and `self._headingInvert` (for each heading
attribute, a dict from value to the set of row positions holding it).
`_addToBody` / `_removeFromBody` (lines 399-529) mutate both. -/

/-- `Tuple(list(zip(heading, row)))` (Dee.py line 606), in canonical form. -/
def tupOfRow (H : List Attr) (row : Row) : Tup := Tup.canon (H.zip row)

/-- Dict lookup that raises `KeyError` when the attribute is absent. -/
def lookupE (t : Tup) (a : Attr) : Except Err Value :=
  match t.get? a with
  | some v => .ok v
  | none => .error .keyEx

/-- `dictToTuple` (Dee.py line 70): order the dict's values by the heading,
raising `KeyError` on a missing attribute. -/
def dictToTupleE (H : List Attr) (t : Tup) : Except Err Row :=
  match H with
  | [] => .ok []
  | a :: as => do
    let v ← lookupE t a
    let vs ← dictToTupleE as t
    pure (v :: vs)

/-- The inverted index: attribute → value → positions (`_headingInvert`). -/
abbrev Idx := Attr → Value → List ℕ

/-- The freshly initialised index (Dee.py line 393: one empty dict per
heading attribute; every lookup yields the empty set). -/
def emptyIdx : Idx := fun _ _ => []

/-- A materialized body: the stored rows and their inverted index. -/
structure MatB where
  rows : List Row
  idx : Idx

/-- Record position `ri` under `(a, v)` (Dee.py lines 443-447). -/
def idxInsert (ix : Idx) (a : Attr) (v : Value) (ri : ℕ) : Idx :=
  fun a1 v1 => if a1 = a ∧ v1 = v then ix a1 v1 ++ [ri] else ix a1 v1

/-- Index a whole row at position `ri`: one insertion per heading column. -/
def idxAddRow (H : List Attr) (row : Row) (ri : ℕ) (ix : Idx) : Idx :=
  (H.zip row).foldl (fun ix p => idxInsert ix p.1 p.2 ri) ix

/-- Dee.py lines 516-518: keep pointers below `ri`, discard `ri`, shift
pointers above `ri` down by one. -/
def shiftDown (ri : ℕ) (l : List ℕ) : List ℕ :=
  l.filter (fun x => x < ri) ++ (l.filter (fun x => ri < x)).map (fun x => x - 1)

/-- Apply the shift to every entry of every heading attribute
(Dee.py lines 510-518; entries of non-heading attributes do not exist). -/
def idxRemoveAt (H : List Attr) (ri : ℕ) (ix : Idx) : Idx :=
  fun a v => if H.contains a then shiftDown ri (ix a v) else ix a v

/-- `Relation._hashfind` (Dee.py lines 552-582), list/tuple branch: intersect
the index entries of every heading column; an empty heading matches the
(at most one) empty row. -/
def hashfind (H : List Attr) (m : MatB) (row : Row) : List ℕ :=
  if H.length = 0 ∧ row.length = 0 then
    if m.rows.length = 1 then [0] else []
  else
    ((H.zip row).foldl
      (fun acc p =>
        match acc with
        | none => some (m.idx p.1 p.2)
        | some l => some (l.filter (fun i => (m.idx p.1 p.2).contains i)))
      none).getD []

/-- The type check of `_addToBody`/`_removeFromBody` (Dee.py lines 409-419,
466-476): compare each column of `row` against the first stored row;
a tag mismatch is the `raise "Invalid type"` (a `TypeError` in Python 3),
a missing column is an `IndexError`. -/
def typeCheckRow (first row : Row) : Option Err :=
  (List.range first.length).findSome? fun ci =>
    match row.get? ci, first.get? ci with
    | some v, some w => if v.tag = w.tag then none else some Err.typeEx
    | _, _ => some Err.idxEx

/-- One insertion step of `_addToBody` (lines 425-447), after the type check:
skip the row when `_hashfind` finds a duplicate, else append and index it. -/
def addRowRaw (H : List Attr) (m : MatB) (row : Row) : MatB :=
  if (hashfind H m row).length > 0 then m
  else { rows := m.rows ++ [row], idx := idxAddRow H row m.rows.length m.idx }

/-- One full iteration of the `_addToBody` loop for one row. -/
def add1 (H : List Attr) (m : MatB) (row : Row) : MatB × Option Err :=
  match m.rows.head? with
  | some first =>
    match typeCheckRow first row with
    | some e => (m, some e)
    | none => (addRowRaw H m row, none)
  | none => (addRowRaw H m row, none)

/-- The `_addToBody` batch loop (state-passing: an error aborts the loop but
the rows already added stay, as in the Python original). -/
def addLoopS (H : List Attr) (m : MatB) (batch : List Row) : MatB × Option Err :=
  batch.foldl
    (fun acc row =>
      match acc.2 with
      | some _ => acc
      | none => add1 H acc.1 row)
    (m, none)

/-- One removal step of `_removeFromBody` (lines 487-518), after the type
check: delete the first position `_hashfind` yields (if any) and shift the
index. -/
def remRowRaw (H : List Attr) (m : MatB) (row : Row) : MatB :=
  match (hashfind H m row).head? with
  | none => m
  | some ri => { rows := m.rows.eraseIdx ri, idx := idxRemoveAt H ri m.idx }

/-- One full iteration of the `_removeFromBody` loop for one row. -/
def rem1 (H : List Attr) (m : MatB) (row : Row) : MatB × Option Err :=
  match m.rows.head? with
  | some first =>
    match typeCheckRow first row with
    | some e => (m, some e)
    | none => (remRowRaw H m row, none)
  | none => (remRowRaw H m row, none)

/-- The `_removeFromBody` batch loop. -/
def removeLoopS (H : List Attr) (m : MatB) (batch : List Row) : MatB × Option Err :=
  batch.foldl
    (fun acc row =>
      match acc.2 with
      | some _ => acc
      | none => rem1 H acc.1 row)
    (m, none)

/-- The value stored in `row` under attribute `a` of heading `H`. -/
def colAt (H : List Attr) (row : Row) (a : Attr) : Option Value :=
  Tup.get? (H.zip row) a

/-- Column tags of a row (the Python types of its values). -/
def rowTags (row : Row) : List Bool := row.map Value.tag

/-- A set of rows is column-typed when all rows share the same column tag
pattern; Dee's per-row `isinstance` checks pass exactly then. -/
def TypedRows (rows : List Row) : Prop :=
  ∀ r1 ∈ rows, ∀ r2 ∈ rows, rowTags r1 = rowTags r2

/-- Well-formedness of a materialized body: the invariant `_addToBody` and
`_removeFromBody` maintain.  The index clause is exactly claim C10's
"index consistent with the body". -/
structure WFm (H : List Attr) (m : MatB) : Prop where
  hnd : H.Nodup
  rlen : ∀ row ∈ m.rows, row.length = H.length
  rnd : m.rows.Nodup
  hidx : ∀ a ∈ H, ∀ v i,
    i ∈ m.idx a v ↔ ∃ h : i < m.rows.length, colAt H (m.rows.get ⟨i, h⟩) a = some v
  hout : ∀ a, a ∉ H → ∀ v, m.idx a v = []

/-! ### Lemmas about rows, columns and the index -/

theorem keys_zip {H : List Attr} {row : Row} (h : row.length = H.length) :
    Tup.keys (H.zip row) = H := by
  simpa [Tup.keys] using List.map_fst_zip H row (le_of_eq h.symm)

theorem wk_zip {H : List Attr} {row : Row} (hnd : H.Nodup)
    (h : row.length = H.length) : Tup.WK (H.zip row) := by
  rw [Tup.WK, keys_zip h]; exact hnd

theorem length_zip_eq {H : List Attr} {row : Row} (h : row.length = H.length) :
    (H.zip row).length = H.length := by
  simp [List.length_zip, h]

theorem mem_zip_get {H : List Attr} {row : Row} (h : row.length = H.length)
    (j : ℕ) (hj : j < H.length) :
    (H.get ⟨j, hj⟩, row.get ⟨j, h ▸ hj⟩) ∈ H.zip row := by
  have hj2 : j < (H.zip row).length := by rw [length_zip_eq h]; exact hj
  have := @List.get_zip _ _ H row ⟨j, hj2⟩
  rw [List.mem_iff_get]
  exact ⟨⟨j, hj2⟩, by rw [this]⟩

theorem colAt_get {H : List Attr} {row : Row} (hnd : H.Nodup)
    (h : row.length = H.length) (j : ℕ) (hj : j < H.length) :
    colAt H row (H.get ⟨j, hj⟩) = some (row.get ⟨j, h ▸ hj⟩) :=
  Tup.get?_eq_some_of_mem (wk_zip hnd h) (mem_zip_get h j hj)

theorem colAt_of_mem_zip {H : List Attr} {row : Row} (hnd : H.Nodup)
    (h : row.length = H.length) {p : Attr × Value} (hp : p ∈ H.zip row) :
    colAt H row p.1 = some p.2 :=
  Tup.get?_eq_some_of_mem (wk_zip hnd h) hp

theorem rows_eq_of_colAt {H : List Attr} {r1 r2 : Row} (hnd : H.Nodup)
    (h1 : r1.length = H.length) (h2 : r2.length = H.length)
    (h : ∀ p ∈ H.zip r2, colAt H r1 p.1 = some p.2) : r1 = r2 := by
  apply List.ext_get (by rw [h1, h2])
  intro j hj1 hj2
  have hjH : j < H.length := by rw [← h1]; exact hj1
  have hc1 := colAt_get hnd h1 j hjH
  have hc2 := h _ (mem_zip_get h2 j hjH)
  rw [hc1] at hc2
  exact Option.some_inj.mp hc2

/-! ### `_hashfind` returns exactly the matching positions -/

theorem foldl_inter_some (f : Attr × Value → List ℕ)
    (ps : List (Attr × Value)) :
    ∀ (l : List ℕ) (i : ℕ),
      i ∈ ((ps.foldl
        (fun acc p =>
          match acc with
          | none => some (f p)
          | some l => some (l.filter (fun i => (f p).contains i)))
        (some l)).getD []) ↔ i ∈ l ∧ ∀ p ∈ ps, i ∈ f p := by
  induction ps with
  | nil => intro l i; simp
  | cons p rest ih =>
    intro l i
    have step :
        (List.foldl
          (fun acc q =>
            match acc with
            | none => some (f q)
            | some l => some (l.filter (fun i => (f q).contains i)))
          (some l) (p :: rest)) =
        (List.foldl
          (fun acc q =>
            match acc with
            | none => some (f q)
            | some l => some (l.filter (fun i => (f q).contains i)))
          (some (l.filter (fun i => (f p).contains i))) rest) := rfl
    rw [step, ih]
    simp only [List.mem_filter, List.mem_cons]
    constructor
    · rintro ⟨⟨hi, hf⟩, hall⟩
      refine ⟨hi, ?_⟩
      intro q hq
      rcases hq with hq | hq
      · subst hq; simpa using hf
      · exact hall q hq
    · rintro ⟨hi, hall⟩
      refine ⟨⟨hi, ?_⟩, fun q hq => hall q (Or.inr hq)⟩
      simpa using hall p (Or.inl rfl)

theorem foldl_inter_none (f : Attr × Value → List ℕ)
    {ps : List (Attr × Value)} (hne : ps ≠ []) (i : ℕ) :
    i ∈ ((ps.foldl
      (fun acc p =>
        match acc with
        | none => some (f p)
        | some l => some (l.filter (fun i => (f p).contains i)))
      none).getD []) ↔ ∀ p ∈ ps, i ∈ f p := by
  cases ps with
  | nil => exact absurd rfl hne
  | cons p rest =>
    have step :
        (List.foldl
          (fun acc q =>
            match acc with
            | none => some (f q)
            | some l => some (l.filter (fun i => (f q).contains i)))
          none (p :: rest)) =
        (List.foldl
          (fun acc q =>
            match acc with
            | none => some (f q)
            | some l => some (l.filter (fun i => (f q).contains i)))
          (some (f p)) rest) := rfl
    rw [step, foldl_inter_some]
    constructor
    · rintro ⟨hi, hall⟩ q hq
      rcases List.mem_cons.mp hq with hq | hq
      · subst hq; exact hi
      · exact hall q hq
    · intro hall
      exact ⟨hall p (List.mem_cons_self _ _), fun q hq => hall q (List.mem_cons.mpr (Or.inr hq))⟩

/-- `_hashfind` correctness: under the index invariant it returns exactly the
positions whose stored row equals the probe row. -/
theorem hashfind_spec {H : List Attr} {m : MatB} (hw : WFm H m) {row : Row}
    (hl : row.length = H.length) (i : ℕ) :
    i ∈ hashfind H m row ↔ ∃ h : i < m.rows.length, m.rows.get ⟨i, h⟩ = row := by
  by_cases hz : H.length = 0 ∧ row.length = 0
  · rw [hashfind, if_pos hz]
    have hH : H = [] := List.length_eq_zero.mp hz.1
    have hrow : row = [] := List.length_eq_zero.mp hz.2
    subst hH; subst hrow
    have hall0 : ∀ (r : Row), r ∈ m.rows → r = [] := by
      intro r hr
      exact List.length_eq_zero.mp (by simpa using hw.rlen r hr)
    by_cases h1 : m.rows.length = 1
    · rw [if_pos h1]
      constructor
      · intro hi
        have hi0 : i = 0 := by simpa using hi
        subst hi0
        refine ⟨by omega, ?_⟩
        exact hall0 _ (List.get_mem _ _ _)
      · rintro ⟨h, _⟩
        have : i = 0 := by omega
        simp [this]
    · rw [if_neg h1]
      constructor
      · intro hi; cases hi
      · rintro ⟨h, _⟩
        exfalso
        -- with an empty heading every row is []; nodup forces at most one row
        have h2 : 2 ≤ m.rows.length := by omega
        have e0 : m.rows.get ⟨0, by omega⟩ = [] := hall0 _ (List.get_mem _ _ _)
        have e1 : m.rows.get ⟨1, by omega⟩ = [] := hall0 _ (List.get_mem _ _ _)
        have hinj := List.Nodup.get_inj_iff hw.rnd
          (i := ⟨0, by omega⟩) (j := ⟨1, by omega⟩)
        rw [e0, e1] at hinj
        have := hinj.mp rfl
        simp at this
  · rw [hashfind, if_neg hz]
    have hHpos : 0 < H.length := by
      rcases Nat.eq_zero_or_pos H.length with h0 | hp
      · exact absurd ⟨h0, by rw [hl, h0]⟩ hz
      · exact hp
    have hne : H.zip row ≠ [] := by
      intro hc
      have hlz := length_zip_eq hl
      rw [hc] at hlz
      simp at hlz
      omega
    rw [foldl_inter_none (fun p => m.idx p.1 p.2) hne i]
    constructor
    · intro hall
      have hp0 : ∃ p, p ∈ H.zip row :=
        List.exists_mem_of_length_pos (by rw [length_zip_eq hl]; exact hHpos)
      rcases hp0 with ⟨p0, hp0⟩
      have hmem0 := hall p0 hp0
      have ha0 : p0.1 ∈ H := (List.of_mem_zip hp0).1
      rcases (hw.hidx p0.1 ha0 p0.2 i).mp hmem0 with ⟨hb, _⟩
      refine ⟨hb, ?_⟩
      apply rows_eq_of_colAt hw.hnd (hw.rlen _ (List.get_mem _ _ _)) hl
      intro p hp
      have ha : p.1 ∈ H := (List.of_mem_zip hp).1
      rcases (hw.hidx p.1 ha p.2 i).mp (hall p hp) with ⟨hb2, hcol⟩
      exact hcol
    · rintro ⟨hb, hrow⟩
      intro p hp
      have ha : p.1 ∈ H := (List.of_mem_zip hp).1
      apply (hw.hidx p.1 ha p.2 i).mpr
      refine ⟨hb, ?_⟩
      rw [hrow]
      exact colAt_of_mem_zip hw.hnd hl hp

/-- Membership form: the row is found iff it is stored. -/
theorem hashfind_nonempty_iff {H : List Attr} {m : MatB} (hw : WFm H m)
    {row : Row} (hl : row.length = H.length) :
    0 < (hashfind H m row).length ↔ row ∈ m.rows := by
  rw [List.length_pos_iff_exists_mem]
  constructor
  · rintro ⟨i, hi⟩
    rcases (hashfind_spec hw hl i).mp hi with ⟨h, he⟩
    exact he ▸ List.get_mem _ _ _
  · intro hm
    rcases List.mem_iff_get.mp hm with ⟨n, hn⟩
    exact ⟨n.1, (hashfind_spec hw hl n.1).mpr ⟨n.2, hn⟩⟩

/-! ### Index updates preserve the invariant -/

theorem mem_of_head? {l : List ℕ} {a : ℕ} (h : l.head? = some a) : a ∈ l := by
  cases l with
  | nil => cases h
  | cons x xs =>
    cases h
    exact List.mem_cons_self _ _

theorem foldl_idxInsert_mem (ri : ℕ) (ps : List (Attr × Value)) :
    ∀ (ix : Idx) (a : Attr) (v : Value) (i : ℕ),
      i ∈ (ps.foldl (fun ix p => idxInsert ix p.1 p.2 ri) ix) a v ↔
        i ∈ ix a v ∨ (i = ri ∧ (a, v) ∈ ps) := by
  induction ps with
  | nil => intro ix a v i; simp
  | cons p rest ih =>
    intro ix a v i
    have step :
        ((p :: rest).foldl (fun ix p => idxInsert ix p.1 p.2 ri) ix) =
        (rest.foldl (fun ix p => idxInsert ix p.1 p.2 ri) (idxInsert ix p.1 p.2 ri)) := rfl
    rw [step, ih]
    rw [idxInsert]
    by_cases hc : a = p.1 ∧ v = p.2
    · rw [if_pos hc]
      have hpav : (a, v) = p := Prod.ext hc.1 hc.2
      simp only [List.mem_append, List.mem_cons, List.not_mem_nil, or_false,
        ← hpav]
      tauto
    · rw [if_neg hc]
      simp only [List.mem_cons]
      constructor
      · rintro (hi | hi)
        · exact Or.inl hi
        · exact Or.inr ⟨hi.1, Or.inr hi.2⟩
      · rintro (hi | ⟨hi, hm | hm⟩)
        · exact Or.inl hi
        · exact absurd ⟨congrArg Prod.fst hm, congrArg Prod.snd hm⟩ hc
        · exact Or.inr ⟨hi, hm⟩

theorem idxAddRow_mem (H : List Attr) (row : Row) (ri : ℕ) (ix : Idx)
    (a : Attr) (v : Value) (i : ℕ) :
    i ∈ idxAddRow H row ri ix a v ↔
      i ∈ ix a v ∨ (i = ri ∧ (a, v) ∈ H.zip row) :=
  foldl_idxInsert_mem ri (H.zip row) ix a v i

theorem foldl_idxInsert_eq_of_not (ri : ℕ) (ps : List (Attr × Value))
    {a : Attr} (ha : ∀ p ∈ ps, p.1 ≠ a) :
    ∀ (ix : Idx) (v : Value),
      (ps.foldl (fun ix p => idxInsert ix p.1 p.2 ri) ix) a v = ix a v := by
  induction ps with
  | nil => intro ix v; rfl
  | cons p rest ih =>
    intro ix v
    have step :
        ((p :: rest).foldl (fun ix p => idxInsert ix p.1 p.2 ri) ix) =
        (rest.foldl (fun ix p => idxInsert ix p.1 p.2 ri) (idxInsert ix p.1 p.2 ri)) := rfl
    rw [step, ih (fun q hq => ha q (List.mem_cons.mpr (Or.inr hq)))]
    rw [idxInsert, if_neg]
    intro hc
    exact ha p (List.mem_cons_self _ _) hc.1.symm

theorem idxAddRow_not_mem {H : List Attr} {row : Row} {ri : ℕ} {ix : Idx}
    {a : Attr} (ha : a ∉ H) (v : Value) :
    idxAddRow H row ri ix a v = ix a v := by
  apply foldl_idxInsert_eq_of_not
  intro p hp hc
  exact ha (hc ▸ (List.of_mem_zip hp).1)

/-- Membership in an index entry after a shift. -/
theorem shiftDown_mem (ri : ℕ) (l : List ℕ) (i : ℕ) :
    i ∈ shiftDown ri l ↔ (i < ri ∧ i ∈ l) ∨ (ri ≤ i ∧ i + 1 ∈ l) := by
  simp only [shiftDown, List.mem_append, List.mem_filter, List.mem_map,
    decide_eq_true_eq]
  constructor
  · rintro (⟨hm, hlt⟩ | ⟨j, ⟨hj, hgt⟩, he⟩)
    · exact Or.inl ⟨hlt, hm⟩
    · right
      have hj1 : j = i + 1 := by omega
      subst hj1
      exact ⟨by omega, hj⟩
  · rintro (⟨hlt, hm⟩ | ⟨hge, hm⟩)
    · exact Or.inl ⟨hm, hlt⟩
    · exact Or.inr ⟨i + 1, ⟨hm, by omega⟩, by omega⟩

/-- `_addToBody`'s per-row insertion preserves the invariant. -/
theorem wf_addRowRaw {H : List Attr} {m : MatB} (hw : WFm H m) {row : Row}
    (hl : row.length = H.length) : WFm H (addRowRaw H m row) := by
  rw [addRowRaw]
  by_cases hf : 0 < (hashfind H m row).length
  · rw [if_pos hf]; exact hw
  · rw [if_neg hf]
    have hnotmem : row ∉ m.rows := fun hm => hf ((hashfind_nonempty_iff hw hl).mpr hm)
    refine ⟨hw.hnd, ?_, ?_, ?_, ?_⟩
    · intro r hr
      rcases List.mem_append.mp hr with hr | hr
      · exact hw.rlen r hr
      · rw [List.mem_singleton.mp hr]; exact hl
    · simp only [List.nodup_append, List.nodup_singleton, true_and]
      exact ⟨hw.rnd, by simpa [List.disjoint_singleton] using hnotmem⟩
    · intro a ha v i
      rw [idxAddRow_mem]
      rw [hw.hidx a ha v i]
      constructor
      · rintro (⟨hb, hcol⟩ | ⟨he, hmz⟩)
        · refine ⟨by simp [List.length_append]; omega, ?_⟩
          rw [List.get_eq_getElem, List.getElem_append_left hb]
          rw [List.get_eq_getElem] at hcol
          exact hcol
        · subst he
          refine ⟨by simp [List.length_append], ?_⟩
          rw [List.get_eq_getElem, List.getElem_append_right (le_refl _)]
          simpa using Tup.get?_eq_some_of_mem (wk_zip hw.hnd hl) hmz
      · rintro ⟨hb, hcol⟩
        have hb2 : i < m.rows.length + 1 := by simpa [List.length_append] using hb
        rcases Nat.lt_or_ge i m.rows.length with hi | hi
        · left
          refine ⟨hi, ?_⟩
          rw [List.get_eq_getElem] at hcol ⊢
          rw [List.getElem_append_left hi] at hcol
          exact hcol
        · right
          have he : i = m.rows.length := by omega
          subst he
          refine ⟨rfl, ?_⟩
          rw [List.get_eq_getElem, List.getElem_append_right (le_refl _)] at hcol
          simp only [Nat.sub_self, List.getElem_singleton] at hcol
          exact Tup.mem_of_get?_eq_some hcol
    · intro a ha v
      show idxAddRow H row m.rows.length m.idx a v = []
      rw [idxAddRow_not_mem ha, hw.hout a ha]

/-- `_removeFromBody`'s per-row removal preserves the invariant. -/
theorem wf_remRowRaw {H : List Attr} {m : MatB} (hw : WFm H m) {row : Row}
    (hl : row.length = H.length) : WFm H (remRowRaw H m row) := by
  rw [remRowRaw]
  rcases hh : (hashfind H m row).head? with _ | ri
  · exact hw
  · have hrim := mem_of_head? hh
    rcases (hashfind_spec hw hl ri).mp hrim with ⟨hrb, hre⟩
    have hlen : (m.rows.eraseIdx ri).length = m.rows.length - 1 := by
      rw [List.length_eraseIdx, if_pos hrb]
    refine ⟨hw.hnd, ?_, ?_, ?_, ?_⟩
    · intro r hr
      exact hw.rlen r ((List.eraseIdx_sublist m.rows ri).mem hr)
    · exact hw.rnd.sublist (List.eraseIdx_sublist m.rows ri)
    · intro a ha v i
      show i ∈ idxRemoveAt H ri m.idx a v ↔ _
      rw [idxRemoveAt]
      rw [if_pos (by simpa using ha), shiftDown_mem]
      constructor
      · rintro (⟨hlt, hm⟩ | ⟨hge, hm⟩)
        · rcases (hw.hidx a ha v i).mp hm with ⟨hb, hcol⟩
          have hb2 : i < (m.rows.eraseIdx ri).length := by omega
          refine ⟨hb2, ?_⟩
          rw [List.get_eq_getElem, List.getElem_eraseIdx _ _ _ hb2, dif_pos hlt]
          rw [List.get_eq_getElem] at hcol
          exact hcol
        · rcases (hw.hidx a ha v (i + 1)).mp hm with ⟨hb, hcol⟩
          have hb2 : i < (m.rows.eraseIdx ri).length := by omega
          refine ⟨hb2, ?_⟩
          rw [List.get_eq_getElem, List.getElem_eraseIdx _ _ _ hb2,
            dif_neg (by omega)]
          rw [List.get_eq_getElem] at hcol
          exact hcol
      · rintro ⟨hb, hcol⟩
        rw [List.get_eq_getElem, List.getElem_eraseIdx _ _ _ hb] at hcol
        rcases Nat.lt_or_ge i ri with hi | hi
        · rw [dif_pos hi] at hcol
          left
          refine ⟨hi, (hw.hidx a ha v i).mpr ⟨by omega, ?_⟩⟩
          rw [List.get_eq_getElem]
          exact hcol
        · rw [dif_neg (by omega)] at hcol
          right
          have hb3 : i + 1 < m.rows.length := by
            rw [hlen] at hb; omega
          refine ⟨hi, (hw.hidx a ha v (i + 1)).mpr ⟨hb3, ?_⟩⟩
          rw [List.get_eq_getElem]
          exact hcol
    · intro a ha v
      show idxRemoveAt H ri m.idx a v = []
      rw [idxRemoveAt]
      rw [if_neg (by simpa using ha), hw.hout a ha]

/-! ### The batch loops: typed batches never hit the type check -/

theorem typedRows_mono {l1 l2 : List Row} (h : ∀ x ∈ l1, x ∈ l2)
    (ht : TypedRows l2) : TypedRows l1 :=
  fun r1 h1 r2 h2 => ht r1 (h r1 h1) r2 (h r2 h2)

theorem typeCheckRow_none {first row : Row} (h : rowTags first = rowTags row) :
    typeCheckRow first row = none := by
  rw [typeCheckRow, List.findSome?_eq_none_iff]
  intro ci hci
  have hcir : ci < first.length := List.mem_range.mp hci
  have hlen : row.length = first.length := by
    have := congrArg List.length h
    simpa [rowTags] using this.symm
  have hf : first.get? ci = some (first.get ⟨ci, hcir⟩) := List.get?_eq_get hcir
  have hr : row.get? ci = some (row.get ⟨ci, by omega⟩) := List.get?_eq_get (by omega)
  have htag : (row.get ⟨ci, by omega⟩).tag = (first.get ⟨ci, hcir⟩).tag := by
    have h1 := congrArg (fun l => l[ci]?) h
    simp only [rowTags, List.getElem?_map] at h1
    rw [← List.get?_eq_getElem?, ← List.get?_eq_getElem?, hf, hr] at h1
    simpa using h1.symm
  simp only [hf, hr]
  rw [if_pos htag]

theorem mem_of_rows_head? {m : MatB} {first : Row}
    (hh : m.rows.head? = some first) : first ∈ m.rows := by
  cases hrows : m.rows with
  | nil => rw [hrows] at hh; cases hh
  | cons x xs =>
    rw [hrows] at hh
    cases hh
    exact List.mem_cons_self _ _

theorem add1_ok {H : List Attr} {m : MatB} {row : Row}
    (ht : ∀ r0 ∈ m.rows, rowTags r0 = rowTags row) :
    add1 H m row = (addRowRaw H m row, none) := by
  rw [add1]
  rcases hh : m.rows.head? with _ | first
  · rfl
  · show (match typeCheckRow first row with
      | some e => (m, some e)
      | none => (addRowRaw H m row, none)) = (addRowRaw H m row, none)
    rw [typeCheckRow_none (ht first (mem_of_rows_head? hh))]

theorem rem1_ok {H : List Attr} {m : MatB} {row : Row}
    (ht : ∀ r0 ∈ m.rows, rowTags r0 = rowTags row) :
    rem1 H m row = (remRowRaw H m row, none) := by
  rw [rem1]
  rcases hh : m.rows.head? with _ | first
  · rfl
  · show (match typeCheckRow first row with
      | some e => (m, some e)
      | none => (remRowRaw H m row, none)) = (remRowRaw H m row, none)
    rw [typeCheckRow_none (ht first (mem_of_rows_head? hh))]

theorem addLoopS_cons {H : List Attr} {m : MatB} {b : Row} {bs : List Row}
    (h : add1 H m b = (addRowRaw H m b, none)) :
    addLoopS H m (b :: bs) = addLoopS H (addRowRaw H m b) bs := by
  rw [addLoopS, List.foldl_cons, h]
  rfl

theorem removeLoopS_cons {H : List Attr} {m : MatB} {b : Row} {bs : List Row}
    (h : rem1 H m b = (remRowRaw H m b, none)) :
    removeLoopS H m (b :: bs) = removeLoopS H (remRowRaw H m b) bs := by
  rw [removeLoopS, List.foldl_cons, h]
  rfl

theorem addRowRaw_rows {H : List Attr} {m : MatB} {row : Row}
    (hw : WFm H m) (hl : row.length = H.length) :
    (addRowRaw H m row).rows =
      if row ∈ m.rows then m.rows else m.rows ++ [row] := by
  rw [addRowRaw]
  by_cases hmem : row ∈ m.rows
  · rw [if_pos ((hashfind_nonempty_iff hw hl).mpr hmem), if_pos hmem]
  · rw [if_neg (fun hc => hmem ((hashfind_nonempty_iff hw hl).mp hc)), if_neg hmem]

/-- Bundled correctness of the `_addToBody` loop on a typed batch:
no error, the invariant is preserved, the new rows are exactly the batch
rows that were absent (appended at the end). -/
theorem addLoopS_ok {H : List Attr} (batch : List Row) :
    ∀ (m : MatB), WFm H m →
    (∀ b ∈ batch, b.length = H.length) →
    TypedRows (m.rows ++ batch) →
    (addLoopS H m batch).2 = none ∧
    WFm H (addLoopS H m batch).1 ∧
    (∃ extra : List Row,
      (addLoopS H m batch).1.rows = m.rows ++ extra ∧
      ∀ x ∈ extra, x ∈ batch ∧ x ∉ m.rows) ∧
    (∀ x, x ∈ (addLoopS H m batch).1.rows ↔ x ∈ m.rows ∨ x ∈ batch) := by
  induction batch with
  | nil =>
    intro m hw _ _
    refine ⟨rfl, hw, ⟨[], by simp [addLoopS], by simp⟩, by simp [addLoopS]⟩
  | cons b bs ih =>
    intro m hw hlen htyp
    have htb : ∀ r0 ∈ m.rows, rowTags r0 = rowTags b := fun r0 h0 =>
      htyp r0 (List.mem_append.mpr (Or.inl h0)) b
        (List.mem_append.mpr (Or.inr (List.mem_cons_self _ _)))
    rw [addLoopS_cons (add1_ok htb)]
    have hlb : b.length = H.length := hlen b (List.mem_cons_self _ _)
    have hw1 : WFm H (addRowRaw H m b) := wf_addRowRaw hw hlb
    have hrows1 := addRowRaw_rows hw hlb
    have hsub : ∀ x ∈ (addRowRaw H m b).rows ++ bs, x ∈ m.rows ++ b :: bs := by
      intro x hx
      rcases List.mem_append.mp hx with hx | hx
      · rw [hrows1] at hx
        by_cases hmem : b ∈ m.rows
        · rw [if_pos hmem] at hx
          exact List.mem_append.mpr (Or.inl hx)
        · rw [if_neg hmem] at hx
          rcases List.mem_append.mp hx with hx | hx
          · exact List.mem_append.mpr (Or.inl hx)
          · rw [List.mem_singleton.mp hx]
            exact List.mem_append.mpr (Or.inr (List.mem_cons_self _ _))
      · exact List.mem_append.mpr (Or.inr (List.mem_cons.mpr (Or.inr hx)))
    rcases ih (addRowRaw H m b) hw1
        (fun r hr => hlen r (List.mem_cons.mpr (Or.inr hr)))
        (typedRows_mono hsub htyp) with ⟨he, hwf, ⟨extra, hex, hexm⟩, hmem⟩
    refine ⟨he, hwf, ?_, ?_⟩
    · by_cases hmemb : b ∈ m.rows
      · refine ⟨extra, ?_, ?_⟩
        · rw [hex, hrows1, if_pos hmemb]
        · intro x hx
          have := hexm x hx
          rw [hrows1, if_pos hmemb] at this
          exact ⟨List.mem_cons.mpr (Or.inr this.1), this.2⟩
      · refine ⟨b :: extra, ?_, ?_⟩
        · rw [hex, hrows1, if_neg hmemb]
          simp
        · intro x hx
          rcases List.mem_cons.mp hx with hx | hx
          · subst hx
            exact ⟨List.mem_cons_self _ _, hmemb⟩
          · have := hexm x hx
            rw [hrows1, if_neg hmemb] at this
            refine ⟨List.mem_cons.mpr (Or.inr this.1), fun hc => this.2 ?_⟩
            exact List.mem_append.mpr (Or.inl hc)
    · intro x
      rw [hmem x, hrows1]
      by_cases hmemb : b ∈ m.rows
      · rw [if_pos hmemb]
        constructor
        · rintro (hx | hx)
          · exact Or.inl hx
          · exact Or.inr (List.mem_cons.mpr (Or.inr hx))
        · rintro (hx | hx)
          · exact Or.inl hx
          · rcases List.mem_cons.mp hx with hx | hx
            · exact Or.inl (hx ▸ hmemb)
            · exact Or.inr hx
      · rw [if_neg hmemb]
        constructor
        · rintro (hx | hx)
          · rcases List.mem_append.mp hx with hx | hx
            · exact Or.inl hx
            · exact Or.inr (List.mem_cons.mpr (Or.inl (List.mem_singleton.mp hx)))
          · exact Or.inr (List.mem_cons.mpr (Or.inr hx))
        · rintro (hx | hx)
          · exact Or.inl (List.mem_append.mpr (Or.inl hx))
          · rcases List.mem_cons.mp hx with hx | hx
            · exact Or.inl (List.mem_append.mpr (Or.inr (List.mem_singleton.mpr hx)))
            · exact Or.inr hx

theorem mem_eraseIdx_of_get {α : Type} [DecidableEq α] {l : List α}
    (hnd : l.Nodup) {ri : ℕ} (hb : ri < l.length) (x : α) :
    x ∈ l.eraseIdx ri ↔ x ∈ l ∧ x ≠ l.get ⟨ri, hb⟩ := by
  have hdecomp : l = l.take ri ++ l.get ⟨ri, hb⟩ :: l.drop (ri + 1) := by
    conv_lhs => rw [← List.take_append_drop ri l]
    rw [List.drop_eq_getElem_cons hb, List.get_eq_getElem]
  have hnd2 := hnd
  rw [hdecomp] at hnd2
  rcases List.nodup_append.mp hnd2 with ⟨hnt, hnm, hdisj⟩
  have hmid_take : l.get ⟨ri, hb⟩ ∉ l.take ri := by
    intro hc
    exact hdisj hc (List.mem_cons_self _ _)
  have hmid_drop : l.get ⟨ri, hb⟩ ∉ l.drop (ri + 1) :=
    (List.nodup_cons.mp hnm).1
  rw [List.eraseIdx_eq_take_drop_succ]
  constructor
  · intro hx
    rcases List.mem_append.mp hx with hx | hx
    · refine ⟨by rw [hdecomp]; exact List.mem_append.mpr (Or.inl hx), ?_⟩
      intro he
      exact hmid_take (he ▸ hx)
    · refine ⟨by
        rw [hdecomp]
        exact List.mem_append.mpr (Or.inr (List.mem_cons.mpr (Or.inr hx))), ?_⟩
      intro he
      exact hmid_drop (he ▸ hx)
  · rintro ⟨hx, hne⟩
    rw [hdecomp] at hx
    rcases List.mem_append.mp hx with hx | hx
    · exact List.mem_append.mpr (Or.inl hx)
    · rcases List.mem_cons.mp hx with hx | hx
      · exact absurd hx hne
      · exact List.mem_append.mpr (Or.inr hx)

theorem remRowRaw_of_not_mem {H : List Attr} {m : MatB} {row : Row}
    (hw : WFm H m) (hl : row.length = H.length) (hnm : row ∉ m.rows) :
    remRowRaw H m row = m := by
  have h0 : (hashfind H m row).length = 0 := by
    by_contra hc
    exact hnm ((hashfind_nonempty_iff hw hl).mp (Nat.pos_of_ne_zero hc))
  have hnil : hashfind H m row = [] := List.length_eq_zero.mp h0
  rw [remRowRaw, hnil]
  rfl

/-- Bundled correctness of the `_removeFromBody` loop on a typed batch. -/
theorem removeLoopS_ok {H : List Attr} (batch : List Row) :
    ∀ (m : MatB), WFm H m →
    (∀ b ∈ batch, b.length = H.length) →
    TypedRows (m.rows ++ batch) →
    (removeLoopS H m batch).2 = none ∧
    WFm H (removeLoopS H m batch).1 ∧
    (∀ x, x ∈ (removeLoopS H m batch).1.rows ↔ x ∈ m.rows ∧ x ∉ batch) := by
  induction batch with
  | nil =>
    intro m hw _ _
    exact ⟨rfl, hw, by simp [removeLoopS]⟩
  | cons b bs ih =>
    intro m hw hlen htyp
    have htb : ∀ r0 ∈ m.rows, rowTags r0 = rowTags b := fun r0 h0 =>
      htyp r0 (List.mem_append.mpr (Or.inl h0)) b
        (List.mem_append.mpr (Or.inr (List.mem_cons_self _ _)))
    rw [removeLoopS_cons (rem1_ok htb)]
    have hlb : b.length = H.length := hlen b (List.mem_cons_self _ _)
    have hw1 : WFm H (remRowRaw H m b) := wf_remRowRaw hw hlb
    have hsub1 : ∀ x ∈ (remRowRaw H m b).rows, x ∈ m.rows := by
      intro x hx
      rw [remRowRaw] at hx
      rcases hh : (hashfind H m b).head? with _ | ri
      · rw [hh] at hx; exact hx
      · rw [hh] at hx
        exact (List.eraseIdx_sublist m.rows ri).mem hx
    have hmem1 : ∀ x, x ∈ (remRowRaw H m b).rows ↔ x ∈ m.rows ∧ x ≠ b := by
      intro x
      by_cases hbm : b ∈ m.rows
      · rw [remRowRaw]
        rcases hh : (hashfind H m b).head? with _ | ri
        · exfalso
          rcases List.mem_iff_get.mp hbm with ⟨n, hn⟩
          have : n.1 ∈ hashfind H m b := (hashfind_spec hw hlb n.1).mpr ⟨n.2, hn⟩
          cases hfl : hashfind H m b with
          | nil => rw [hfl] at this; cases this
          | cons y ys => rw [hfl] at hh; cases hh
        · have hrm := mem_of_head? hh
          rcases (hashfind_spec hw hlb ri).mp hrm with ⟨hrb, hre⟩
          show x ∈ m.rows.eraseIdx ri ↔ _
          rw [mem_eraseIdx_of_get hw.rnd hrb x, hre]
      · rw [remRowRaw_of_not_mem hw hlb hbm]
        constructor
        · intro hx
          exact ⟨hx, fun hc => hbm (hc ▸ hx)⟩
        · exact fun hx => hx.1
    rcases ih (remRowRaw H m b) hw1
        (fun r hr => hlen r (List.mem_cons.mpr (Or.inr hr)))
        (typedRows_mono
          (fun x hx => by
            rcases List.mem_append.mp hx with hx | hx
            · exact List.mem_append.mpr (Or.inl (hsub1 x hx))
            · exact List.mem_append.mpr (Or.inr (List.mem_cons.mpr (Or.inr hx))))
          htyp) with ⟨he, hwf, hmem⟩
    refine ⟨he, hwf, ?_⟩
    intro x
    rw [hmem x, hmem1 x]
    constructor
    · rintro ⟨⟨hx, hne⟩, hnb⟩
      refine ⟨hx, ?_⟩
      intro hc
      rcases List.mem_cons.mp hc with hc | hc
      · exact hne hc
      · exact hnb hc
    · rintro ⟨hx, hnb⟩
      exact ⟨⟨hx, fun hc => hnb (List.mem_cons.mpr (Or.inl hc))⟩,
        fun hc => hnb (List.mem_cons.mpr (Or.inr hc))⟩

/-- Compensating removal restores the body exactly: removing a batch from a
state whose rows are `base ++ extra`, where no batch row is in `base` and
every `extra` row came from the batch, peels `extra` off the end and leaves
`base` untouched (this is the `_addToBody` failure path followed by
`_removeFromBody(body, nocheck=True)`). -/
theorem removeLoop_restores {H : List Attr} (batch : List Row) :
    ∀ (m : MatB) (base extra : List Row),
      WFm H m → m.rows = base ++ extra →
      (∀ b ∈ batch, b.length = H.length) →
      TypedRows (m.rows ++ batch) →
      (∀ b ∈ batch, b ∉ base) →
      (∀ x ∈ extra, x ∈ batch) →
      (removeLoopS H m batch).2 = none ∧
      WFm H (removeLoopS H m batch).1 ∧
      (removeLoopS H m batch).1.rows =
        base ++ extra.filter (fun x => decide (x ∉ batch)) := by
  induction batch with
  | nil =>
    intro m base extra hw hrows _ _ _ _
    refine ⟨rfl, hw, ?_⟩
    show m.rows = _
    rw [hrows]
    congr 1
    exact (List.filter_eq_self.mpr (fun x _ => by simp)).symm
  | cons b bs ih =>
    intro m base extra hw hrows hlen htyp hnb hxb
    have htb : ∀ r0 ∈ m.rows, rowTags r0 = rowTags b := fun r0 h0 =>
      htyp r0 (List.mem_append.mpr (Or.inl h0)) b
        (List.mem_append.mpr (Or.inr (List.mem_cons_self _ _)))
    rw [removeLoopS_cons (rem1_ok htb)]
    have hlb : b.length = H.length := hlen b (List.mem_cons_self _ _)
    have hextnd : extra.Nodup := by
      have := hw.rnd
      rw [hrows] at this
      exact (List.nodup_append.mp this).2.1
    by_cases hbm : b ∈ m.rows
    · -- b is one of the freshly added rows: it is removed from `extra`
      have hbe : b ∈ extra := by
        rw [hrows] at hbm
        rcases List.mem_append.mp hbm with hc | hc
        · exact absurd hc (hnb b (List.mem_cons_self _ _))
        · exact hc
      rcases hh : (hashfind H m b).head? with _ | ri
      · exfalso
        rcases List.mem_iff_get.mp hbm with ⟨n, hn⟩
        have hmem : n.1 ∈ hashfind H m b := (hashfind_spec hw hlb n.1).mpr ⟨n.2, hn⟩
        cases hfl : hashfind H m b with
        | nil => rw [hfl] at hmem; cases hmem
        | cons y ys => rw [hfl] at hh; cases hh
      · have hrm := mem_of_head? hh
        rcases (hashfind_spec hw hlb ri).mp hrm with ⟨hrb, hre⟩
        have hq : m.rows[ri]? = some b := by
          rw [List.getElem?_eq_getElem hrb]
          exact congrArg some hre
        have hri_ge : base.length ≤ ri := by
          by_contra hc
          push_neg at hc
          have hq2 := hq
          rw [hrows, List.getElem?_append, if_pos hc] at hq2
          exact hnb b (List.mem_cons_self _ _) (List.getElem?_mem hq2)
        have hrows2 : m.rows.eraseIdx ri = base ++ extra.eraseIdx (ri - base.length) := by
          rw [hrows]
          exact List.eraseIdx_append_of_length_le hri_ge extra
        have hjlt : ri - base.length < extra.length := by
          rw [hrows] at hrb
          simp only [List.length_append] at hrb
          omega
        have hjget : extra.get ⟨ri - base.length, hjlt⟩ = b := by
          have hq2 := hq
          rw [hrows, List.getElem?_append_right hri_ge,
            List.getElem?_eq_getElem hjlt] at hq2
          rw [List.get_eq_getElem]
          exact Option.some_inj.mp hq2
        set j := ri - base.length with hj
        have hxdec : extra = extra.take j ++ b :: extra.drop (j + 1) := by
          have h1 : extra[j] = b := hjget
          conv_lhs => rw [← List.take_append_drop j extra]
          rw [List.drop_eq_getElem_cons hjlt, h1]
        have herase : extra.eraseIdx j = extra.take j ++ extra.drop (j + 1) :=
          List.eraseIdx_eq_take_drop_succ extra j
        -- `b` occurs nowhere in take/drop parts (extra is duplicate-free)
        have hbnot : b ∉ extra.take j ∧ b ∉ extra.drop (j + 1) := by
          have hnd2 := hextnd
          rw [hxdec] at hnd2
          rcases List.nodup_append.mp hnd2 with ⟨_, hnm, hdisj⟩
          exact ⟨fun hc => hdisj hc (List.mem_cons_self _ _),
            (List.nodup_cons.mp hnm).1⟩
        have hm1 : WFm H (remRowRaw H m b) := wf_remRowRaw hw hlb
        have hm1rows : (remRowRaw H m b).rows = base ++ extra.eraseIdx j := by
          rw [remRowRaw, hh]
          exact hrows2
        rcases ih (remRowRaw H m b) base (extra.eraseIdx j) hm1 hm1rows
            (fun r hr => hlen r (List.mem_cons.mpr (Or.inr hr)))
            (typedRows_mono (fun x hx => by
              rcases List.mem_append.mp hx with hx | hx
              · rw [hm1rows] at hx
                rcases List.mem_append.mp hx with hx | hx
                · exact List.mem_append.mpr (Or.inl (by rw [hrows]; exact List.mem_append.mpr (Or.inl hx)))
                · have : x ∈ extra := (List.eraseIdx_sublist extra j).mem hx
                  exact List.mem_append.mpr (Or.inl (by rw [hrows]; exact List.mem_append.mpr (Or.inr this)))
              · exact List.mem_append.mpr (Or.inr (List.mem_cons.mpr (Or.inr hx)))) htyp)
            (fun r hr => hnb r (List.mem_cons.mpr (Or.inr hr)))
            (fun x hx => by
              rw [herase] at hx
              have hxe : x ∈ extra := by
                rw [hxdec]
                rcases List.mem_append.mp hx with hx | hx
                · exact List.mem_append.mpr (Or.inl hx)
                · exact List.mem_append.mpr (Or.inr (List.mem_cons.mpr (Or.inr hx)))
              have hxne : x ≠ b := by
                intro he
                subst he
                rcases List.mem_append.mp hx with hx | hx
                · exact hbnot.1 hx
                · exact hbnot.2 hx
              rcases List.mem_cons.mp (hxb x hxe) with hc | hc
              · exact absurd hc hxne
              · exact hc) with ⟨he2, hwf2, hrows3⟩
        refine ⟨he2, hwf2, ?_⟩
        rw [hrows3]
        congr 1
        -- (extra minus b) filtered by ∉ bs  =  extra filtered by ∉ b :: bs
        rw [herase]
        conv_rhs => rw [hxdec]
        rw [List.filter_append, List.filter_append,
          List.filter_cons_of_neg (by simp)]
        congr 1
        · apply List.filter_congr
          intro x hx
          have hxne : x ≠ b := fun he => hbnot.1 (he ▸ hx)
          rw [decide_eq_decide]
          simp [List.mem_cons, hxne]
        · apply List.filter_congr
          intro x hx
          have hxne : x ≠ b := fun he => hbnot.2 (he ▸ hx)
          rw [decide_eq_decide]
          simp [List.mem_cons, hxne]
    · -- b was never added: the removal step is a no-op
      have hbe : b ∉ extra := fun hc =>
        hbm (by rw [hrows]; exact List.mem_append.mpr (Or.inr hc))
      rw [remRowRaw_of_not_mem hw hlb hbm]
      rcases ih m base extra hw hrows
          (fun r hr => hlen r (List.mem_cons.mpr (Or.inr hr)))
          (typedRows_mono (fun x hx => by
            rcases List.mem_append.mp hx with hx | hx
            · exact List.mem_append.mpr (Or.inl hx)
            · exact List.mem_append.mpr (Or.inr (List.mem_cons.mpr (Or.inr hx)))) htyp)
          (fun r hr => hnb r (List.mem_cons.mpr (Or.inr hr)))
          (fun x hx => by
            rcases List.mem_cons.mp (hxb x hx) with hc | hc
            · exact absurd (hc ▸ hx) hbe
            · exact hc) with ⟨he2, hwf2, hrows3⟩
      refine ⟨he2, hwf2, ?_⟩
      rw [hrows3]
      congr 1
      apply List.filter_congr
      intro x hx
      have hxne : x ≠ b := fun he => hbe (he ▸ hx)
      rw [decide_eq_decide]
      simp [List.mem_cons, hxne]

/-- Two well-formed bodies with the same rows have the same index entries
(both satisfy the same membership specification). -/
theorem get_congr_list {α : Type} {l1 l2 : List α} (h : l1 = l2) {i : ℕ}
    (h1 : i < l1.length) (h2 : i < l2.length) :
    l1.get ⟨i, h1⟩ = l2.get ⟨i, h2⟩ := by
  subst h; rfl

theorem idx_mem_eq_of_same_rows {H : List Attr} {m1 m2 : MatB}
    (hw1 : WFm H m1) (hw2 : WFm H m2) (h : m1.rows = m2.rows) :
    ∀ a v i, (i ∈ m1.idx a v ↔ i ∈ m2.idx a v) := by
  intro a v i
  by_cases ha : a ∈ H
  · rw [hw1.hidx a ha v i, hw2.hidx a ha v i]
    constructor
    · rintro ⟨hb, hc⟩
      have hb2 : i < m2.rows.length := by rw [← h]; exact hb
      refine ⟨hb2, ?_⟩
      rw [← get_congr_list h hb hb2]
      exact hc
    · rintro ⟨hb, hc⟩
      have hb2 : i < m1.rows.length := by rw [h]; exact hb
      refine ⟨hb2, ?_⟩
      rw [get_congr_list h hb2 hb]
      exact hc
  · rw [hw1.hout a ha, hw2.hout a ha]

/-! ## Relations

`Relation` (Dee.py line 294): a heading, a body (materialized or computed),
the constraint definitions (`constraint_definitions`), and
`_mapToOriginalHeading` for renamed computed bodies.  The source inspects a
computed body's arity; following the spec's design note this becomes a
tagged variant. -/

/-- A constraint definition `(kind, parameter)`.  Arbitrary lambda
constraints do not occur in the embedded programs. -/
inductive CDef where
  | key (p : Option (List Attr))
  | fk (ref : String) (fmap : List (Attr × Attr))

/-- A relation body: materialized rows with their index, or a computed
("functional") body taking zero or one argument. -/
inductive RBody where
  | mat (m : MatB)
  | comp0 (f : Unit → Except Err (List Tup))
  | comp1 (f : Tup → Except Err (List Tup))

structure Relation where
  heading : List Attr
  body : RBody
  cdefs : List (String × CDef)
  mapToOrig : List (Attr × Attr)

/-- The default constraint dictionary of the `Relation` constructor
(Dee.py line 303). -/
def defaultCdefs : List (String × CDef) := [("PK", CDef.key none)]

/-- `validateHeading` (Dee.py line 75): attribute names must be unique
(they are strings by typing here). -/
def validateHeadingE (H : List Attr) : Except Err Unit :=
  if H.Nodup then .ok ()
  else .error (.relEx "Heading attributes must be unique")

/-- `Relation(heading, rows)` for a materialized body with the default
constraints: validate the heading, then `_addToBody` with silent
deduplication and index maintenance.  The constructor ends with
`_checkConstraints`, but the default `PK = (Key, None)` constraint is the
`Hk is None` short-circuit (Dee.py lines 96-99) which is identically true,
so no check appears here.  This is exactly how every operator
(`AND`, `OR`, `MINUS`, `REMOVE`, ...) builds its result relation. -/
def mkRelNC (H : List Attr) (rows : List Row) : Except Err Relation := do
  validateHeadingE H
  let st := addLoopS H { rows := [], idx := emptyIdx } rows
  match st.2 with
  | some e => .error e
  | none => pure { heading := H, body := .mat st.1, cdefs := defaultCdefs, mapToOrig := [] }

def Relation.matRows (r : Relation) : List Row :=
  match r.body with
  | .mat m => m.rows
  | _ => []

def Relation.matB (r : Relation) : MatB :=
  match r.body with
  | .mat m => m
  | _ => { rows := [], idx := emptyIdx }

def Relation.isCallable (r : Relation) : Bool :=
  match r.body with
  | .mat _ => false
  | _ => true

/-- Python set equality of two headings (`r1.heading() != r2.heading()`). -/
def headEqB (H1 H2 : List Attr) : Bool :=
  H1.all (fun a => H2.contains a) && H2.all (fun a => H1.contains a)

/-- Deterministic stand-in for `tuple(set(H1).union(H2))`: keep `H1`'s
order, then the new attributes of `H2`.  All heading comparisons in the
source are set-based, so only the set matters. -/
def unionH (H1 H2 : List Attr) : List Attr :=
  H1 ++ H2.filter (fun a => !(H1.contains a))

/-- `self.common(rel)` (Dee.py line 534), as a sublist of `r`'s heading. -/
def commonH (r rel : Relation) : List Attr :=
  r.heading.filter (fun a => rel.heading.contains a)

/-- Full scan, `_scan()` with `rel=None` (Dee.py lines 586-606). -/
def scanAll (r : Relation) : Except Err (List Tup) :=
  match r.body with
  | .mat m => .ok (m.rows.map (tupOfRow r.heading))
  | .comp0 f => f ()
  | .comp1 _ => .error (.invalidOp "Scanning a functional relation not supported (a)")

/-- The probe-remap into a renamed computed relation (Dee.py lines 652-663):
drop original-name values, then move each aliased value to its original
name. -/
def remapIn (mp : List (Attr × Attr)) (t : Tup) : Tup :=
  let t1 := mp.foldl (fun t p => t.filter (fun q => decide (q.1 ≠ p.2))) t
  mp.foldl
    (fun t p =>
      match Tup.get? t p.1 with
      | some v => Tup.canon ((t.filter (fun q => decide (q.1 ≠ p.1))) ++ [(p.2, v)])
      | none => t)
    t1

/-- The inverse remap of result tuples (Dee.py lines 665-669). -/
def remapOut (mp : List (Attr × Attr)) (t : Tup) : Tup :=
  mp.foldl
    (fun t p =>
      match Tup.get? t p.2 with
      | some v => Tup.canon ((t.filter (fun q => decide (q.1 ≠ p.2))) ++ [(p.1, v)])
      | none => t)
    t

/-- The manual join filter applied to a zero-argument view under a probe
(Dee.py lines 645-650): keep a tuple iff it agrees with the probe on every
common attribute; a missing attribute raises `KeyError`. -/
def joinFilter (com : List Attr) (pt : Tup) (tup : Tup) : Except Err Bool :=
  com.allM fun attr => do
    let v1 ← lookupE pt attr
    let v2 ← lookupE tup attr
    pure (decide (v1 = v2))

/-- Monadic filter (the generator loop collecting matching tuples). -/
def filterME (p : Tup → Except Err Bool) : List Tup → Except Err (List Tup)
  | [] => .ok []
  | t :: ts => do
    let b ← p t
    let rest ← filterME p ts
    if b then pure (t :: rest) else pure rest

/-- The per-attribute index intersection of the probe scan (Dee.py lines
627-641), i.e. `_hashfind` driven by the probe tuple's values. -/
def comFold (m : MatB) (reltupl : Tup) (com : List Attr) :
    Except Err (Option (List ℕ)) :=
  com.foldlM
    (fun (acc : Option (List ℕ)) a => do
      let v ← lookupE reltupl a
      pure (some (match acc with
        | none => m.idx a v
        | some l => l.filter (fun i => (m.idx a v).contains i))))
    none

/-- Monadic map (a list comprehension that may raise). -/
def mapME {A B : Type} (f : A → Except Err B) : List A → Except Err (List B)
  | [] => .ok []
  | x :: xs => do
    let y ← f x
    let ys ← mapME f xs
    pure (y :: ys)

/-- Indexed/join scan, `_scan(rel)` with a one-tuple probe relation
(Dee.py lines 607-682). -/
def scanWith (r rel : Relation) : Except Err (List Tup) :=
  let com := commonH r rel
  if com.isEmpty then
    match r.body with
    | .mat m => .ok (m.rows.map (tupOfRow r.heading))
    | .comp0 f => f ()
    | .comp1 f => f []          -- self._body(Tuple()), line 622
  else
    match rel.body with
    | .mat pm =>
      if h1 : 0 < pm.rows.length then
        if pm.rows.length = 1 then
          let reltupl := tupOfRow rel.heading (pm.rows.get ⟨0, h1⟩)
          match r.body with
          | .comp0 f => do
              let ts ← f ()
              filterME (joinFilter com reltupl) ts
          | .comp1 f => do
              let ts ← f (remapIn r.mapToOrig reltupl)
              .ok (ts.map (remapOut r.mapToOrig))
          | .mat m => do
              let rowsOpt ← comFold m reltupl com
              let rows := rowsOpt.getD []
              mapME (fun i =>
                match m.rows.get? i with
                | some row => .ok (tupOfRow r.heading row)
                | none => .error .idxEx) rows
        else .error .assertEx    -- assert len(rel._body) == 1
      else .error .assertEx
    | _ => .error .assertEx      -- len() of a function raises

/-! ## The primitive operators (Dee.py lines 1240-1425) -/

/-- `relType = Relation(r1._heading, []); relType.setBody([tr1])`
(Dee.py lines 1279-1281): build the one-tuple probe relation.  In the dict
branch of `_addToBody`, `_hashfind` iterates the dict's keys, so a key
outside the heading raises `KeyError`, and `_dictToTuple` raises `KeyError`
on a missing heading attribute. -/
def relTypeOf (H : List Attr) (t : Tup) : Except Err Relation := do
  if t.any (fun p => !(H.contains p.1)) then .error .keyEx
  else do
    let row ← dictToTupleE H t
    mkRelNC H [row]

/-- The drive/probe loop of `AND` (Dee.py lines 1277-1297).  The inner loop
replays the in-place `tr1.update(tr2)`: the accumulating tuple carries
earlier merges within one outer iteration, as in the source. -/
def andLoop (r1 r2 : Relation) : Except Err Relation := do
  let Hs := unionH r1.heading r2.heading
  let ts1 ← scanAll r1
  let Bs ← ts1.foldlM
    (fun (acc : List Row) t1 => do
      let relType ← relTypeOf r1.heading t1
      let ts2 ← scanWith r2 relType
      let st ← ts2.foldlM
        (fun (st : Tup × List Row) t2 => do
          let cur := Tup.update st.1 t2
          let row ← dictToTupleE Hs cur
          pure (cur, st.2 ++ [row]))
        (t1, acc)
      pure st.2)
    []
  mkRelNC Hs Bs

/-- `AND(r1, r2)` — natural join (Dee.py lines 1240-1297).  The source's
self-recursive operand flips (prefer a materialized or zero-argument driver,
then the smaller materialized driver) are finitely unfolded into a case
split; each arm ends in the drive/probe loop or the two-functional error. -/
def AND (r1 r2 : Relation) : Except Err Relation :=
  match r1.body, r2.body with
  | .comp0 _, .mat _ => andLoop r2 r1          -- line 1249: AND(r2, r1)
  | .comp1 _, .mat _ => andLoop r2 r1          -- line 1249
  | .comp1 _, .comp0 _ => andLoop r2 r1        -- line 1265 then drive r2
  | .comp1 _, .comp1 _ =>
      .error (.invalidOp "Cannot AND two functional relations")  -- line 1268
  | .mat m1, .mat m2 =>
      if m1.rows.length > m2.rows.length then andLoop r2 r1      -- line 1274
      else andLoop r1 r2
  | _, _ => andLoop r1 r2

/-- The union loop of `OR` (Dee.py lines 1336-1345). -/
def orLoop (r1 r2 : Relation) : Except Err Relation := do
  let Hs := unionH r1.heading r2.heading        -- == r1._heading
  let ts1 ← scanAll r1
  let rows1 ← mapME (dictToTupleE Hs) ts1
  let ts2 ← scanAll r2
  let rows2 ← mapME (dictToTupleE Hs) ts2
  mkRelNC Hs (rows1 ++ rows2)

/-- `OR(r1, r2)` — union (Dee.py lines 1300-1345): identical headings
required, then the same operand flips as `AND`. -/
def OR (r1 r2 : Relation) : Except Err Relation :=
  if !headEqB r1.heading r2.heading then
    .error (.invalidOp "OR can only handle same reltypes so far")  -- line 1305
  else
    match r1.body, r2.body with
    | .comp0 _, .mat _ => orLoop r2 r1
    | .comp1 _, .mat _ => orLoop r2 r1
    | .comp1 _, .comp0 _ => orLoop r2 r1
    | .comp1 _, .comp1 _ =>
        .error (.invalidOp "Cannot OR two functional relations")   -- line 1331
    | _, _ => orLoop r1 r2

/-- The anti-join loop of `MINUS` (Dee.py lines 1385-1397): keep a driving
tuple iff the indexed probe of the other side yields nothing. -/
def minusLoop (r1 r2 : Relation) : Except Err Relation := do
  let Hs := r1.heading
  let ts1 ← scanAll r1
  let Bs ← ts1.foldlM
    (fun (acc : List Row) t1 => do
      let relType ← relTypeOf r1.heading t1
      let ts2 ← scanWith r2 relType
      if ts2.isEmpty then do
        let row ← dictToTupleE Hs t1
        pure (acc ++ [row])
      else pure acc)
    []
  mkRelNC Hs Bs

/-- `MINUS(r1, r2)` — difference (Dee.py lines 1348-1397): identical
headings required; the source then applies the same operand flips as `AND`
(faithfully transcribed, although flipping a difference changes its
meaning — the claims only exercise materialized operands). -/
def MINUS (r1 r2 : Relation) : Except Err Relation :=
  if !headEqB r1.heading r2.heading then
    .error (.invalidOp "NOT can only handle same reltypes so far")  -- line 1353
  else
    match r1.body, r2.body with
    | .comp0 _, .mat _ => minusLoop r2 r1
    | .comp1 _, .mat _ => minusLoop r2 r1
    | .comp1 _, .comp0 _ => minusLoop r2 r1
    | .comp1 _, .comp1 _ =>
        .error (.invalidOp "Cannot MINUS two functional relations") -- line 1381
    | _, _ => minusLoop r1 r2

/-- `REMOVE(r, Hr)` — projection complement (Dee.py lines 1400-1425):
project every scanned tuple onto the remaining attributes, deduplicate by
construction, and keep the candidate-key definitions whose attributes
survive (`None` = all attributes always survives). -/
def REMOVE (r : Relation) (Hr : List Attr) : Except Err Relation := do
  let Hs := r.heading.filter (fun a => !(Hr.contains a))
  let ts ← scanAll r
  let Bs ← mapME (dictToTupleE Hs) ts
  let res ← mkRelNC Hs Bs
  let kept := r.cdefs.filter
    (fun c =>
      match c.2 with
      | .key none => true
      | .key (some p) => p.all (fun a => Hs.contains a)
      | _ => false)
  if kept.isEmpty then pure res          -- "else use default (None -> all)"
  else pure { res with cdefs := kept }

/-- `Relation.project` (Dee.py lines 979-992): validate, check the
attributes exist, then `REMOVE` the complement. -/
def Relation.project (r : Relation) (head : List Attr) : Except Err Relation := do
  validateHeadingE head
  if head.any (fun a => !(r.heading.contains a)) then
    .error (.invalidOp "Unknown attribute")
  else
    REMOVE r (r.heading.filter (fun a => !(head.contains a)))

/-- `COUNT(r)` (Dee.py lines 1717-1723), without the unused second
argument. -/
def COUNT (r : Relation) : Except Err ℕ := do
  let ts ← scanAll r
  pure ts.length

/-- `IS_EMPTY(r)` (Dee.py line 1833). -/
def IS_EMPTY (r : Relation) : Except Err Bool := do
  let c ← COUNT r
  pure (decide (c = 0))

/-- `Relation.__eq__` (Dee.py lines 1110-1120): equal heading sets, empty
difference, and equal cardinalities (the `DEE == DUM` guard). -/
def relEq (r s : Relation) : Except Err Bool :=
  if headEqB r.heading s.heading then do
    let m ← MINUS r s
    let e ← IS_EMPTY m
    if e then do
      let c1 ← COUNT r
      let c2 ← COUNT s
      pure (decide (c1 = c2))
    else pure false
  else pure false

/-- Relation equality holds (and no exception escapes `__eq__`). -/
def REq (r s : Relation) : Prop := relEq r s = .ok true

/-- `Relation.__le__` — subset or equal (Dee.py lines 1136-1141). -/
def leRel (r s : Relation) : Except Err Bool :=
  if headEqB r.heading s.heading then do
    let a ← AND r s
    let m ← MINUS r a
    IS_EMPTY m
  else pure false

/-- `Relation.__ge__` — superset or equal (Dee.py lines 1143-1145). -/
def geRel (r s : Relation) : Except Err Bool := leRel s r

/-! ## rename, constraints, derived macros -/

/-- Assoc-list lookup for attribute renamings (`newnames.get(c, c)`). -/
def sLookup : List (Attr × Attr) → Attr → Option Attr
  | [], _ => none
  | p :: ps, a => if p.1 = a then some p.2 else sLookup ps a

/-- Dict assignment on an attribute/attribute assoc list. -/
def assocSetA (l : List (Attr × Attr)) (k v : Attr) : List (Attr × Attr) :=
  if l.any (fun p => p.1 == k) then
    l.map (fun p => if p.1 = k then (k, v) else p)
  else l ++ [(k, v)]

/-- The `_mapToOriginalHeading` update of `rename` on a computed body
(Dee.py lines 1029-1032). -/
def mapToOrigUpdate (mp newnames : List (Attr × Attr)) : List (Attr × Attr) :=
  newnames.foldl
    (fun mp p =>
      let old := (sLookup mp p.1).getD p.1
      let mp1 := assocSetA mp p.2 old
      mp1.filter (fun q => decide (q.1 ≠ p.1)))
    mp

/-- The candidate-key check, `constraintFromCandidateKey` (Dee.py lines
96-100): `None` means all attributes and is identically satisfied;
otherwise `COUNT(r) == COUNT(r(Hk))`. -/
def checkKeyCDef (r : Relation) : Option (List Attr) → Except Err Bool
  | none => pure true
  | some Hk => do
      let c1 ← COUNT r
      let pr ← r.project Hk
      let c2 ← COUNT pr
      pure (decide (c1 = c2))

/-- The constructor for a materialized relation whose constraint dictionary
contains only candidate keys (this is every relation `rename` builds:
rename keeps only Key constraints, Dee.py lines 1018-1025).  After the body
is set, `_addToBody` runs `_checkConstraints`, which evaluates exactly
these key checks. -/
def relationNewKeysOnly (H : List Attr) (rows : List Row)
    (cdefs : List (String × CDef)) : Except Err Relation := do
  let r0 ← mkRelNC H rows
  let r1 : Relation := { r0 with cdefs := cdefs }
  let _ ← r1.cdefs.foldlM
    (fun _ c => do
      match c.2 with
      | .key p => do
          let b ← checkKeyCDef r1 p
          if b then pure () else .error (.constraintEx c.1)
      | _ => pure ())
    ()
  pure r1

/-- `Relation.rename` (Dee.py lines 1003-1035). -/
def Relation.rename (r : Relation) (newnames : List (Attr × Attr)) :
    Except Err Relation := do
  if newnames.any (fun p => !(r.heading.contains p.1)) then
    .error (.invalidOp "Unknown attribute")
  else do
    let heading := r.heading.map (fun c => (sLookup newnames c).getD c)
    validateHeadingE heading
    let cdefs := r.cdefs.filterMap
      (fun c =>
        match c.2 with
        | .key none => some (c.1, CDef.key none)
        | .key (some p) =>
            some (c.1, CDef.key (some (p.map (fun c => (sLookup newnames c).getD c))))
        | _ => none)   -- line 1024: non-Key constraints are dropped
    match r.body with
    | .mat m => relationNewKeysOnly heading m.rows cdefs
    | b =>
        pure { heading := heading, body := b, cdefs := cdefs,
               mapToOrig := mapToOrigUpdate r.mapToOrig newnames }

/-- Scope lookup (`eval(r2, globals(), scope)`). -/
def sLookupRel : List (String × Relation) → String → Option Relation
  | [], _ => none
  | p :: ps, a => if p.1 = a then some p.2 else sLookupRel ps a

/-- `constraintFromForeignKey` (Dee.py lines 124-127): resolve the
referenced relvar in the scope, then
`r2(map.values()) >= r1(map.keys()).rename(map)(map.values())`. -/
def checkFkCDef (scope : List (String × Relation)) (r1 : Relation)
    (ref : String) (fmap : List (Attr × Attr)) : Except Err Bool := do
  match sLookupRel scope ref with
  | none => .error .nameEx
  | some r2 => do
      let lhs ← r2.project (fmap.map (fun p => p.2))
      let t1 ← r1.project (fmap.map (fun p => p.1))
      let t2 ← t1.rename fmap
      let rhs ← t2.project (fmap.map (fun p => p.2))
      geRel lhs rhs

/-- One constraint evaluation, dispatching on the definition kind. -/
def checkCDef (scope : List (String × Relation)) (r : Relation) :
    CDef → Except Err Bool
  | .key p => checkKeyCDef r p
  | .fk ref fmap => checkFkCDef scope r ref fmap

/-- `Relation._checkConstraints` (Dee.py lines 371-375): evaluate each
constraint in order; raise `RelationConstraintException` with the
constraint's name at the first falsy result. -/
def checkConstraintsE (scope : List (String × Relation)) (r : Relation) :
    Except Err Unit :=
  r.cdefs.foldlM
    (fun _ c => do
      let b ← checkCDef scope r c.2
      if b then pure () else .error (.constraintEx c.1))
    ()

/-- The full `Relation` constructor for a materialized body with arbitrary
constraint definitions and an enclosing scope (the non-database path of
`setConstraints`, evaluated immediately): validate, build the body, then
check all constraints, raising on the first failure. -/
def relationNew (scope : List (String × Relation)) (H : List Attr)
    (rows : List Row) (cdefs : List (String × CDef)) : Except Err Relation := do
  let r0 ← mkRelNC H rows
  let r1 : Relation := { r0 with cdefs := cdefs }
  checkConstraintsE scope r1
  pure r1

/-! ## Derived macros and aggregates -/

/-- A computed relation with the default constraints (the pseudo relations
`RESTRICT` and `EXTEND` build; their construction sets no body rows and
checks nothing). -/
def compBodyRel (H : List Attr) (b : RBody) : Relation :=
  { heading := H, body := b, cdefs := defaultCdefs, mapToOrig := [] }

/-- `COMPOSE(r1, r2)` (Dee.py lines 1429-1433). -/
def COMPOSE (r1 r2 : Relation) : Except Err Relation := do
  let A := r1.heading.filter (fun a => r2.heading.contains a)
  let j ← AND r1 r2
  REMOVE j A

/-- `relationFromCondition` (Dee.py lines 1218-1225): wrap a predicate as a
one-argument computed body yielding `[Tuple()]` or `[]`. -/
def relationFromCondition (f : Tup → Except Err Bool) : RBody :=
  .comp1 (fun trx => do
    let b ← f trx
    if b then pure [([] : Tup)] else pure [])

/-- `RESTRICT(r, restriction)` (Dee.py lines 1436-1451): join with the
condition's pseudo relation over `r`'s own heading. -/
def RESTRICT (r : Relation) (restriction : Tup → Except Err Bool) :
    Except Err Relation :=
  AND r (compBodyRel r.heading (relationFromCondition restriction))

/-- `relationFromExtension` (Dee.py lines 1228-1232). -/
def relationFromExtension (f : Tup → Except Err Tup) : RBody :=
  .comp1 (fun trx => do
    let t ← f trx
    pure [t])

/-- `EXTEND(r, Hextension, extension)` (Dee.py lines 1454-1486). -/
def EXTEND (r : Relation) (Hextension : List Attr)
    (extension : Tup → Except Err Tup) : Except Err Relation := do
  validateHeadingE Hextension
  if !(r.heading.filter (fun a => Hextension.contains a)).isEmpty then
    .error (.invalidOp "EXTEND heading attributes conflict with relation being extended")
  else
    AND r (compBodyRel (unionH r.heading Hextension) (relationFromExtension extension))

/-- `TCLOSE(r)` (Dee.py lines 1659-1675), with explicit fuel standing in
for the convergence-bounded recursion (`.ok none` = fuel exhausted, the
accepted nontermination risk of the source).  The two heading attributes
are taken in heading order (the source unpacks the Python set
`r.heading()`, whose order is unspecified). -/
def TCLOSE : ℕ → Relation → Except Err (Option Relation)
  | 0, _ => .ok none
  | n + 1, r =>
    match r.heading with
    | [x, y] => do
        let r2 ← r.rename [(y, "_Z"), (x, y)]
        let c ← COMPOSE r r2
        let c2 ← c.rename [("_Z", y)]
        let TTT ← OR r c2
        let b ← relEq TTT r
        if b then pure (some TTT) else TCLOSE n TTT
    | _ => .error (.invalidOp "TCLOSE expects a binary relation")

/-- Python's `list == int` comparison: always `False` (no exception).
The ported `QUOTA` compares `[u[...] for ...] == [t[...] for ...] == res`,
a chained comparison whose second leg is exactly this. -/
def pyEqListInt (_ : List Value) (_ : Int) : Bool := false

/-- `QUOTA(r, limit, Hr, asc)` (Dee.py lines 1678-1713), transcribed with
its chained comparison as written. -/
def QUOTA (r : Relation) (limit : Int) (Hr : List Attr) (asc : Bool) :
    Except Err Relation := do
  if Hr.isEmpty then
    .error (.invalidOp "QUOTA attribute(s) should be a non-empty list")
  else do
    let res : Int := if asc then -1 else 1
    let e ← EXTEND r ["_higher"]
      (fun t => do
        let rn ← r.rename (Hr.map (fun x => (x, "_" ++ x)))
        let flt ← RESTRICT rn
          (fun u => do
            let us ← mapME (lookupE u) (Hr.map (fun x => "_" ++ x))
            let ts ← mapME (lookupE t) Hr
            pure (decide (us = ts) && pyEqListInt ts res))
        let c ← COUNT flt
        pure [("_higher", Value.int (Int.ofNat c))])
    let w ← RESTRICT e
      (fun t => do
        let v ← lookupE t "_higher"
        match v with
        | .int n => pure (decide (n < limit))
        | _ => .error .typeEx)
    REMOVE w ["_higher"]

/-- `AVG(r, expression)` (Dee.py lines 1737-1752).  `none` for the
expression models the default `lambda trx: None` (detected in the source by
inspecting `co_consts`): with a one-attribute heading it becomes that
attribute's value, otherwise applying it to any row is `0 + None`, a
`TypeError`.  The result is a `Rat`: the `-99999` sentinel or the mean. -/
def AVG (r : Relation) (expression : Option (Tup → Except Err Value)) :
    Except Err Rat := do
  let f : Tup → Except Err (Option Value) :=
    match expression with
    | some g => fun t => do
        let v ← g t
        pure (some v)
    | none =>
        if h : r.heading.length = 1 then
          fun t => do
            let v ← lookupE t (r.heading.get ⟨0, by omega⟩)
            pure (some v)
        else fun _ => pure none
  let ts ← scanAll r
  let nv ← ts.foldlM
    (fun (nv : ℕ × Rat) tr => do
      let v ← f tr
      match v with
      | some (.int k) => pure (nv.1 + 1, nv.2 + (k : Rat))
      | _ => .error .typeEx)   -- int + None or int + str: TypeError
    (0, 0)
  if nv.1 = 0 then pure (-99999)
  else pure (nv.2 / (nv.1 : Rat))

/-! ## Mutation entry points (insert / delete with constraint revert) -/

/-- `_addToBody(body)` with the final constraint check (Dee.py lines
450-457): on any exception from checking, compensate with
`_removeFromBody(body, nocheck=True)` and re-raise.  State-passing: the
final relation state is returned even when an error is raised. -/
def addToBodyS (scope : List (String × Relation)) (r : Relation)
    (rows : List Row) : Relation × Option Err :=
  match r.body with
  | .mat m =>
    let st := addLoopS r.heading m rows
    let r1 : Relation := { r with body := .mat st.1 }
    match st.2 with
    | some e => (r1, some e)
    | none =>
      match checkConstraintsE scope r1 with
      | .ok _ => (r1, none)
      | .error e =>
        let st2 := removeLoopS r.heading st.1 rows
        let r2 : Relation := { r with body := .mat st2.1 }
        match st2.2 with
        | some e2 => (r2, some e2)   -- an exception inside the handler wins
        | none => (r2, some e)
  | _ => (r, some .typeEx)

/-- `_removeFromBody(body)` with the final constraint check (Dee.py lines
521-529): on failure compensate with `_addToBody(body, nocheck=True)` and
re-raise. -/
def removeFromBodyS (scope : List (String × Relation)) (r : Relation)
    (rows : List Row) : Relation × Option Err :=
  match r.body with
  | .mat m =>
    let st := removeLoopS r.heading m rows
    let r1 : Relation := { r with body := .mat st.1 }
    match st.2 with
    | some e => (r1, some e)
    | none =>
      match checkConstraintsE scope r1 with
      | .ok _ => (r1, none)
      | .error e =>
        let st2 := addLoopS r.heading st.1 rows
        let r2 : Relation := { r with body := .mat st2.1 }
        match st2.2 with
        | some e2 => (r2, some e2)
        | none => (r2, some e)
  | _ => (r, some .typeEx)

/-- `Relation.insert` / `__ior__` (Dee.py lines 1066-1175): reject
functional relations and heading mismatches, convert the other relation's
scan to ordered rows, then `_addToBody`. -/
def insertS (scope : List (String × Relation)) (r other : Relation) :
    Relation × Option Err :=
  if r.isCallable then
    (r, some (.invalidOp "Cannot assign to a functional relation"))
  else if !headEqB r.heading other.heading then
    (r, some (.invalidOp "OR can only handle same reltypes so far"))
  else
    match (do
        let ts ← scanAll other
        mapME (dictToTupleE r.heading) ts : Except Err (List Row)) with
    | .error e => (r, some e)
    | .ok Bs => addToBodyS scope r Bs

/-- `Relation.delete` / `__isub__` (Dee.py lines 1070-1203). -/
def deleteS (scope : List (String × Relation)) (r other : Relation) :
    Relation × Option Err :=
  if r.isCallable then
    (r, some (.invalidOp "Cannot assign to a functional relation"))
  else if !headEqB r.heading other.heading then
    (r, some (.invalidOp "MINUS can only handle same reltypes so far"))
  else
    match (do
        let ts ← scanAll other
        mapME (dictToTupleE r.heading) ts : Except Err (List Row)) with
    | .error e => (r, some e)
    | .ok Bs => removeFromBodyS scope r Bs

/-! ## The Database / transaction manager (DeeDatabase.py)

`Database.transactions` is a dict of namespaces; `begin` requires
`transactionId == 0` (no nesting), so at most two frames ever exist: the
committed frame 0 and an optional active frame 1.  `_preDump` strips
relvars with a callable body before any pickling (clone or persist); the
catalog views re-registered by `_vinit` are computed relvars and are
likewise stripped by `_preDump`, so the model tracks the relvar namespace
proper. -/

/-- A transaction frame: the relvar namespace. -/
abbrev Frame := List (String × Relation)

structure DB where
  committed : Frame           -- transactions[0]
  top : Option Frame          -- transactions[1], present while in a transaction
  stored : Option Frame       -- the last persisted committed namespace (_dump)

/-- `_preDump` (DeeDatabase.py lines 122-132): drop relvars whose body is
callable. -/
def preDump (f : Frame) : Frame :=
  f.filter (fun p => !(p.2.isCallable))

/-- Dict assignment into a frame. -/
def frameSet (f : Frame) (n : String) (v : Relation) : Frame :=
  if f.any (fun p => p.1 == n) then
    f.map (fun p => if p.1 = n then (n, v) else p)
  else f ++ [(n, v)]

/-- Frame lookup. -/
def frameGet : Frame → String → Option Relation
  | [], _ => none
  | p :: ps, n => if p.1 = n then some p.2 else frameGet ps n

/-- The read-only catalog relvar names (DeeDatabase.py lines 65-70). -/
def readonlyNames : List String :=
  ["relations", "attributes", "constraints", "constraint_attributes"]

/-- `Database.begin` (DeeDatabase.py lines 146-161): assert no transaction
is active, push a pickled deep copy of the committed frame's
non-callable relvars (pickling immutable values is the identity here). -/
def DB.begin (db : DB) : Except Err DB :=
  match db.top with
  | some _ => .error .assertEx      -- "No nesting allowed yet"
  | none => .ok { db with top := some (preDump db.committed) }

/-- `Database.commit` (DeeDatabase.py lines 163-184): clone the active
frame (minus callable relvars), make it the committed frame, drop the
active frame, then `_dump` persists the committed state (which `__getstate__`
again strips of callable relvars). -/
def DB.commit (db : DB) : Except Err DB :=
  match db.top with
  | none => .error .assertEx        -- "Not in a transaction"
  | some f =>
      let clone := preDump f
      .ok { committed := clone, top := none, stored := some (preDump clone) }

/-- `Database.rollback` (DeeDatabase.py lines 186-200): discard the active
frame. -/
def DB.rollback (db : DB) : Except Err DB :=
  match db.top with
  | none => .error .assertEx
  | some _ => .ok { db with top := none }

/-- `Database.__setattr__` for a Relation value (DeeDatabase.py lines
100-109): reject the read-only catalog names, else write into the topmost
frame. -/
def DB.setRelvar (db : DB) (n : String) (v : Relation) : Except Err DB :=
  if readonlyNames.contains n then .error .attrEx
  else
    match db.top with
    | some f => .ok { db with top := some (frameSet f n v) }
    | none => .ok { db with committed := frameSet db.committed n v }

/-- `Database.__getattribute__` for a relvar (DeeDatabase.py lines 80-98):
read from the topmost frame. -/
def DB.getRelvar (db : DB) (n : String) : Option Relation :=
  match db.top with
  | some f => frameGet f n
  | none => frameGet db.committed n

/-! ## The Date suppliers-and-parts database (date_Database_script.py) -/

/-- Shorthand for string values. -/
def vStr (s : String) : Value := .str s

/-- Shorthand for integer values. -/
def vInt (n : Int) : Value := .int n

/-- Relvar `S` (date_Database_script.py lines 1-3). -/
def dateS : Except Err Relation :=
  relationNew [] ["S#", "SNAME", "STATUS", "CITY"]
    [[vStr "S1", vStr "Smith", vInt 20, vStr "London"],
     [vStr "S2", vStr "Jones", vInt 10, vStr "Paris"],
     [vStr "S3", vStr "Blake", vInt 30, vStr "Paris"],
     [vStr "S4", vStr "Clark", vInt 20, vStr "London"],
     [vStr "S5", vStr "Adams", vInt 30, vStr "Athens"]]
    [("pk", CDef.key (some ["S#"]))]

/-- Relvar `P` (date_Database_script.py lines 5-7). -/
def dateP : Except Err Relation :=
  relationNew [] ["P#", "PNAME", "COLOR", "WEIGHT", "CITY"]
    [[vStr "P1", vStr "Nut", vStr "Red", vInt 12, vStr "London"],
     [vStr "P2", vStr "Bolt", vStr "Green", vInt 17, vStr "Paris"],
     [vStr "P3", vStr "Screw", vStr "Blue", vInt 17, vStr "Rome"],
     [vStr "P4", vStr "Screw", vStr "Red", vInt 14, vStr "London"],
     [vStr "P5", vStr "Cam", vStr "Blue", vInt 12, vStr "Paris"],
     [vStr "P6", vStr "Cog", vStr "Red", vInt 19, vStr "London"]]
    [("pk", CDef.key (some ["P#"]))]

/-- Relvar `SP` with its key and the two foreign keys
(date_Database_script.py lines 9-13), constructed in a scope holding `S`
and `P`. -/
def dateSP : Except Err Relation := do
  let S ← dateS
  let P ← dateP
  relationNew [("S", S), ("P", P)] ["S#", "P#", "QTY"]
    [[vStr "S1", vStr "P1", vInt 300], [vStr "S1", vStr "P2", vInt 200],
     [vStr "S1", vStr "P3", vInt 400], [vStr "S1", vStr "P4", vInt 200],
     [vStr "S1", vStr "P5", vInt 100], [vStr "S1", vStr "P6", vInt 100],
     [vStr "S2", vStr "P1", vInt 300], [vStr "S2", vStr "P2", vInt 400],
     [vStr "S3", vStr "P2", vInt 200], [vStr "S4", vStr "P2", vInt 200],
     [vStr "S4", vStr "P4", vInt 300], [vStr "S4", vStr "P5", vInt 400]]
    [("pk", CDef.key (some ["S#", "P#"])),
     ("fkS", CDef.fk "S" [("S#", "S#")]),
     ("fkP", CDef.fk "P" [("P#", "P#")])]

/-- `lambda t: t.QTY > 300` over the embedded values. -/
def qtyGT300 : Tup → Except Err Bool := fun t => do
  let v ← lookupE t "QTY"
  match v with
  | .int q => pure (decide (300 < q))
  | _ => .error .typeEx

/-- `COUNT(RESTRICT(SP, lambda t: t.QTY > 300))` over the literal SP rows. -/
def spQtyCount : Except Err ℕ := do
  let SP ← dateSP
  let r ← RESTRICT SP qtyGT300
  COUNT r

/-- C5, counterexample: the claimed value 2 is wrong — the SP sample data has
three rows with QTY > 300 (S1/P3/400, S2/P2/400, S4/P5/400), so
`COUNT(RESTRICT(SP, lambda t: t.QTY > 300))` is not 2. -/
theorem C5_counterexample : ¬ (spQtyCount = Except.ok 2) := by decide

/-- C5, amended: over the literal SP rows of date_Database_script.py,
`COUNT(RESTRICT(SP, lambda t: t.QTY > 300))` equals exactly 3. -/
theorem C5_count_is_three : spQtyCount = Except.ok 3 := by decide

/-- The one-row relation `{S#: S1, ...}` used to delete supplier S1. -/
def s1Rel : Except Err Relation :=
  mkRelNC ["S#", "SNAME", "STATUS", "CITY"]
    [[vStr "S1", vStr "Smith", vInt 20, vStr "London"]]

/-- `S.delete(s1)` in the database scope: the raised error (if any) and the
rows of `S` afterwards. -/
def c2delete : Except Err (Option Err × List Row) := do
  let S ← dateS
  let P ← dateP
  let SP ← dateSP
  let s1 ← s1Rel
  let res := deleteS [("S", S), ("P", P), ("SP", SP)] S s1
  pure (res.2, res.1.matRows)

/-- SP's foreign-key constraint `fkS` evaluated against the post-delete
value of `S`. -/
def c2fkAfter : Except Err Bool := do
  let S ← dateS
  let P ← dateP
  let SP ← dateSP
  let s1 ← s1Rel
  let res := deleteS [("S", S), ("P", P), ("SP", SP)] S s1
  checkFkCDef [("S", res.1), ("P", P)] SP "S" [("S#", "S#")]

/-- C2, counterexample: deleting the S1 row from `S` raises no error at all
(`none`), and `S` is left holding only the four remaining suppliers — the
claimed ConstraintViolation does not happen and `S` does change.
`S.delete` checks only `S`'s own constraint (its key), never `SP`'s
foreign key, which is attached to `SP`. -/
theorem C2_counterexample :
    c2delete = Except.ok (none,
      [[vStr "S2", vStr "Jones", vInt 10, vStr "Paris"],
       [vStr "S3", vStr "Blake", vInt 30, vStr "Paris"],
       [vStr "S4", vStr "Clark", vInt 20, vStr "London"],
       [vStr "S5", vStr "Adams", vInt 30, vStr "Athens"]]) := by decide

/-- C2, amended: the delete succeeds silently (no error, S1 gone from `S`),
`SP` is untouched (`delete` only mutates its receiver), and `SP`'s
foreign-key predicate evaluated against the new `S` is now false — the
database is left with a dangling reference. -/
theorem C2_delete_leaves_dangling_fk :
    (c2delete = Except.ok (none,
      [[vStr "S2", vStr "Jones", vInt 10, vStr "Paris"],
       [vStr "S3", vStr "Blake", vInt 30, vStr "Paris"],
       [vStr "S4", vStr "Clark", vInt 20, vStr "London"],
       [vStr "S5", vStr "Adams", vInt 30, vStr "Athens"]])) ∧
    c2fkAfter = Except.ok false := by
  exact ⟨by decide, by decide⟩

/-- `QUOTA` on the relation `{x: 1, 2, 3}` with limit 1, ascending: the
rows that come back. -/
def c6quotaRows : Except Err (List Row) := do
  let r ← mkRelNC ["x"] [[vInt 1], [vInt 2], [vInt 3]]
  let q ← QUOTA r 1 ["x"] true
  pure q.matRows

/-- C6: `QUOTA(r, 1, [x], asc)` on a three-row relation returns all three
rows, not just the minimum: the ported chained comparison
`[u[..] for ..] == [t[..] for ..] == res` compares a list with the int
`res`, which in Python 3 is always `False`, so every row's
"more extreme peers" count is 0 < limit and no row is ever filtered out. -/
theorem C6_quota_returns_all_rows :
    c6quotaRows = Except.ok [[vInt 1], [vInt 2], [vInt 3]] := by decide

/-- C9: for any relation whose scan yields zero tuples and any expression
argument (including the default), `AVG` returns the sentinel `-99999`
without raising and without dividing by zero. -/
theorem C9_avg_empty_sentinel (r : Relation)
    (e : Option (Tup → Except Err Value)) (h : scanAll r = .ok []) :
    AVG r e = .ok (-99999) := by
  simp only [AVG, h]
  rfl

/-- An empty materialized relation with heading `[x]`. -/
def emptyXRel : Relation :=
  { heading := ["x"], body := .mat { rows := [], idx := emptyIdx },
    cdefs := defaultCdefs, mapToOrig := [] }

/-- C9 witness: the sentinel on a concrete empty relation with the default
expression. -/
theorem C9_witness : AVG emptyXRel none = .ok (-99999) :=
  C9_avg_empty_sentinel emptyXRel none (by decide)

/-! ## C1: constraint failure and the compensating revert -/

/-- The empty body is well-formed over any duplicate-free heading. -/
theorem wfm_empty {H : List Attr} (hnd : H.Nodup) :
    WFm H { rows := [], idx := emptyIdx } where
  hnd := hnd
  rlen := by intro row h; cases h
  rnd := List.nodup_nil
  hidx := by
    intro a _ v i
    simp [emptyIdx]
  hout := by intro a _ v; rfl

/-- A pair whose second component is known is that pair. -/
theorem prodEqOfSnd {α β : Type} {p : α × β} {b : β} (h : p.2 = b) :
    p = (p.1, b) := by
  rw [← h]

/-- A key-constrained one-row relation `{k: 1, v: 10}` with key `[k]`. -/
def c1base : Except Err Relation :=
  relationNew [] ["k", "v"] [[vInt 1, vInt 10]] [("pk", CDef.key (some ["k"]))]

/-- Inserting `[{k:1,v:10}, {k:1,v:20}]` into `c1base`: the first batch row
is already present (silently deduplicated), the second breaks the key. -/
def c1insert : Except Err (Option Err × List Row) := do
  let r ← c1base
  let res := addToBodyS [] r [[vInt 1, vInt 10], [vInt 1, vInt 20]]
  pure (res.2, res.1.matRows)

/-- C1, counterexample: the constraint violation is raised, but the relation
is NOT left as it was — the compensating `_removeFromBody` removes the
batch row `{k:1,v:10}` that was already present before the call (the insert
deduplicated it, the revert does not know that), leaving the body empty
instead of `[[1, 10]]`. -/
theorem C1_counterexample :
    c1insert = Except.ok (some (Err.constraintEx "pk"), []) := by decide

/-- C1, amended: over a well-formed materialized body and a column-typed
batch, if `_addToBody` of a batch of genuinely new rows raises (the
constraint check failed), the compensating removal restores the body and
the index exactly; if `_removeFromBody` of a batch of present rows raises,
the compensating insert restores the body up to row order (removal
positions are not remembered, so reverted rows are re-appended at the end)
and the body stays well-formed.  The claim's full "left exactly as it was"
is false when batch rows were already present (see the counterexample). -/
theorem C1_revert (scope : List (String × Relation)) (r : Relation)
    (m : MatB) (batch : List Row) (hbody : r.body = RBody.mat m)
    (hwf : WFm r.heading m) (htyp : TypedRows (m.rows ++ batch))
    (hlen : ∀ b ∈ batch, b.length = r.heading.length) :
    ((∀ b ∈ batch, b ∉ m.rows) →
      ∀ r1 e, addToBodyS scope r batch = (r1, some e) →
        r1.matRows = m.rows ∧
        (∀ a v i, i ∈ r1.matB.idx a v ↔ i ∈ m.idx a v)) ∧
    ((∀ b ∈ batch, b ∈ m.rows) →
      ∀ r1 e, removeFromBodyS scope r batch = (r1, some e) →
        List.Perm r1.matRows m.rows ∧ WFm r.heading r1.matB) := by
  obtain ⟨hn, hwf1, ⟨extra, hex, hexm⟩, hmem⟩ := addLoopS_ok batch m hwf hlen htyp
  obtain ⟨hrn, hrwf1, hrmem⟩ := removeLoopS_ok batch m hwf hlen htyp
  constructor
  · -- insert path
    intro hfresh r1 e heq
    rcases hchk : checkConstraintsE scope
        { r with body := RBody.mat (addLoopS r.heading m batch).1 } with e0 | u
    · -- the check failed with e0; the compensating removal runs
      have htyp2 : TypedRows ((addLoopS r.heading m batch).1.rows ++ batch) := by
        apply typedRows_mono ?_ htyp
        intro x hx
        rcases List.mem_append.mp hx with hx | hx
        · rw [hex] at hx
          rcases List.mem_append.mp hx with hx | hx
          · exact List.mem_append.mpr (Or.inl hx)
          · exact List.mem_append.mpr (Or.inr (hexm x hx).1)
        · exact List.mem_append.mpr (Or.inr hx)
      obtain ⟨hn2, hwf2, hrows2⟩ :=
        removeLoop_restores batch (addLoopS r.heading m batch).1 m.rows extra
          hwf1 hex hlen htyp2 hfresh (fun x hx => (hexm x hx).1)
      have hfilter : extra.filter (fun x => decide (x ∉ batch)) = [] := by
        rw [List.filter_eq_nil]
        intro x hx
        simp [(hexm x hx).1]
      rw [hfilter, List.append_nil] at hrows2
      simp only [addToBodyS, hbody, hn, hchk, hn2] at heq
      have h1 := (congrArg Prod.fst heq).symm
      subst h1
      refine ⟨hrows2, ?_⟩
      exact idx_mem_eq_of_same_rows hwf2 hwf hrows2
    · -- the check passed: no error can have been raised
      simp only [addToBodyS, hbody, hn, hchk] at heq
      exact absurd (congrArg Prod.snd heq) (by simp)
  · -- delete path
    intro hall r1 e heq
    rcases hchk : checkConstraintsE scope
        { r with body := RBody.mat (removeLoopS r.heading m batch).1 } with e0 | u
    · have htyp2 : TypedRows ((removeLoopS r.heading m batch).1.rows ++ batch) := by
        apply typedRows_mono ?_ htyp
        intro x hx
        rcases List.mem_append.mp hx with hx | hx
        · exact List.mem_append.mpr (Or.inl ((hrmem x).mp hx).1)
        · exact List.mem_append.mpr (Or.inr hx)
      obtain ⟨hn2, hwf2, ⟨extra2, hex2, hexm2⟩, hmem2⟩ :=
        addLoopS_ok batch (removeLoopS r.heading m batch).1 hrwf1 hlen htyp2
      simp only [removeFromBodyS, hbody, hrn, hchk, hn2] at heq
      have h1 := (congrArg Prod.fst heq).symm
      subst h1
      constructor
      · show List.Perm
          (addLoopS r.heading (removeLoopS r.heading m batch).1 batch).1.rows m.rows
        rw [List.perm_ext_iff_of_nodup hwf2.rnd hwf.rnd]
        intro x
        rw [hmem2 x, hrmem x]
        constructor
        · rintro (⟨hx, _⟩ | hx)
          · exact hx
          · exact hall x hx
        · intro hx
          by_cases hb : x ∈ batch
          · exact Or.inr hb
          · exact Or.inl ⟨hx, hb⟩
      · exact hwf2
    · simp only [removeFromBodyS, hbody, hrn, hchk] at heq
      exact absurd (congrArg Prod.snd heq) (by simp)

/-- The one-row body `[[1, 10]]` over heading `[k, v]`. -/
def c1m : MatB :=
  (addLoopS ["k", "v"] { rows := [], idx := emptyIdx } [[vInt 1, vInt 10]]).1

/-- The key-constrained relation wrapping `c1m`. -/
def c1wr : Relation :=
  { heading := ["k", "v"], body := .mat c1m,
    cdefs := [("pk", CDef.key (some ["k"]))], mapToOrig := [] }

/-- A fresh batch that breaks the key `[k]` (two new rows with the same k). -/
def c1batchW : List Row := [[vInt 2, vInt 20], [vInt 2, vInt 30]]

theorem c1m_wf : WFm ["k", "v"] c1m :=
  (addLoopS_ok [[vInt 1, vInt 10]] { rows := [], idx := emptyIdx }
    (wfm_empty (by decide)) (by decide) (by unfold TypedRows; decide)).2.1

/-- C1 witness: inserting the fresh key-breaking batch into `c1wr` raises
the constraint violation and leaves the rows exactly as they were. -/
theorem C1_witness :
    (addToBodyS [] c1wr c1batchW).2 = some (Err.constraintEx "pk") ∧
    (addToBodyS [] c1wr c1batchW).1.matRows = c1m.rows := by
  have h := (C1_revert [] c1wr c1m c1batchW rfl c1m_wf
      (by unfold TypedRows; decide) (by decide)).1
    (by decide) (addToBodyS [] c1wr c1batchW).1 (Err.constraintEx "pk")
    (prodEqOfSnd (by decide))
  exact ⟨by decide, h.1⟩

/-! ## C10: the index invariant across arbitrary mutation sequences -/

/-- One `_addToBody` step preserves the invariant whatever the type check
says (on a type error the state is untouched). -/
theorem wf_add1 {H : List Attr} {m : MatB} {row : Row} (hw : WFm H m)
    (hl : row.length = H.length) : WFm H (add1 H m row).1 := by
  rw [add1]
  rcases hh : m.rows.head? with _ | first
  · exact wf_addRowRaw hw hl
  · rcases ht : typeCheckRow first row with _ | e
    · simp only [ht]
      exact wf_addRowRaw hw hl
    · simp only [ht]
      exact hw

theorem wf_rem1 {H : List Attr} {m : MatB} {row : Row} (hw : WFm H m)
    (hl : row.length = H.length) : WFm H (rem1 H m row).1 := by
  rw [rem1]
  rcases hh : m.rows.head? with _ | first
  · exact wf_remRowRaw hw hl
  · rcases ht : typeCheckRow first row with _ | e
    · simp only [ht]
      exact wf_remRowRaw hw hl
    · simp only [ht]
      exact hw

/-- Once the loop has recorded an error, the remaining rows are skipped. -/
theorem addLoop_frozen {H : List Attr} (batch : List Row) (m : MatB) (e : Err) :
    batch.foldl
      (fun (acc : MatB × Option Err) row =>
        match acc.2 with
        | some _ => acc
        | none => add1 H acc.1 row)
      (m, some e) = (m, some e) := by
  induction batch with
  | nil => rfl
  | cons b bs ih => rw [List.foldl_cons]; exact ih

theorem removeLoop_frozen {H : List Attr} (batch : List Row) (m : MatB) (e : Err) :
    batch.foldl
      (fun (acc : MatB × Option Err) row =>
        match acc.2 with
        | some _ => acc
        | none => rem1 H acc.1 row)
      (m, some e) = (m, some e) := by
  induction batch with
  | nil => rfl
  | cons b bs ih => rw [List.foldl_cons]; exact ih

/-- Unconditional unfolding of one `_addToBody` loop iteration. -/
theorem addLoopS_cons_all {H : List Attr} {m : MatB} {b : Row} {bs : List Row} :
    addLoopS H m (b :: bs) =
      match (add1 H m b).2 with
      | some e => ((add1 H m b).1, some e)
      | none => addLoopS H (add1 H m b).1 bs := by
  rw [addLoopS, List.foldl_cons]
  show bs.foldl _ (add1 H m b) = _
  rcases hsplit : add1 H m b with ⟨m1, e1⟩
  rcases e1 with _ | e
  · rfl
  · exact addLoop_frozen bs m1 e

theorem removeLoopS_cons_all {H : List Attr} {m : MatB} {b : Row} {bs : List Row} :
    removeLoopS H m (b :: bs) =
      match (rem1 H m b).2 with
      | some e => ((rem1 H m b).1, some e)
      | none => removeLoopS H (rem1 H m b).1 bs := by
  rw [removeLoopS, List.foldl_cons]
  show bs.foldl _ (rem1 H m b) = _
  rcases hsplit : rem1 H m b with ⟨m1, e1⟩
  rcases e1 with _ | e
  · rfl
  · exact removeLoop_frozen bs m1 e

/-- The `_addToBody` loop preserves the invariant on any batch of
right-length rows, error or not (an error aborts the loop mid-batch, but
every completed step preserved the invariant). -/
theorem wf_addLoopS {H : List Attr} (batch : List Row) :
    ∀ (m : MatB), WFm H m → (∀ b ∈ batch, b.length = H.length) →
    WFm H (addLoopS H m batch).1 := by
  induction batch with
  | nil => intro m hw _; exact hw
  | cons b bs ih =>
    intro m hw hlen
    have hlb : b.length = H.length := hlen b (List.mem_cons_self _ _)
    rw [addLoopS_cons_all]
    rcases he : (add1 H m b).2 with _ | e
    · simp only
      exact ih (add1 H m b).1 (wf_add1 hw hlb)
        (fun x hx => hlen x (List.mem_cons.mpr (Or.inr hx)))
    · simp only
      exact wf_add1 hw hlb

theorem wf_removeLoopS {H : List Attr} (batch : List Row) :
    ∀ (m : MatB), WFm H m → (∀ b ∈ batch, b.length = H.length) →
    WFm H (removeLoopS H m batch).1 := by
  induction batch with
  | nil => intro m hw _; exact hw
  | cons b bs ih =>
    intro m hw hlen
    have hlb : b.length = H.length := hlen b (List.mem_cons_self _ _)
    rw [removeLoopS_cons_all]
    rcases he : (rem1 H m b).2 with _ | e
    · simp only
      exact ih (rem1 H m b).1 (wf_rem1 hw hlb)
        (fun x hx => hlen x (List.mem_cons.mpr (Or.inr hx)))
    · simp only
      exact wf_rem1 hw hlb

/-- The relation-level invariant: a materialized relation over heading `H`
whose body satisfies the index invariant. -/
def WFrel (H : List Attr) (r : Relation) : Prop :=
  r.heading = H ∧ ∃ m, r.body = RBody.mat m ∧ WFm H m

/-- `_addToBody` (with its constraint check and possible revert) preserves
the invariant on every path. -/
theorem wf_addToBodyS {H : List Attr} {scope : List (String × Relation)}
    {r : Relation} {rows : List Row} (hw : WFrel H r)
    (hlen : ∀ b ∈ rows, b.length = H.length) :
    WFrel H (addToBodyS scope r rows).1 := by
  obtain ⟨hh, m, hbody, hwm⟩ := hw
  subst hh
  simp only [addToBodyS, hbody]
  rcases hl1 : (addLoopS r.heading m rows).2 with _ | e
  · rcases hchk : checkConstraintsE scope
        { r with body := RBody.mat (addLoopS r.heading m rows).1 } with e0 | u
    · rcases hl2 : (removeLoopS r.heading (addLoopS r.heading m rows).1 rows).2
          with _ | e2
      · exact ⟨rfl, _, rfl, wf_removeLoopS rows _ (wf_addLoopS rows m hwm hlen) hlen⟩
      · exact ⟨rfl, _, rfl, wf_removeLoopS rows _ (wf_addLoopS rows m hwm hlen) hlen⟩
    · exact ⟨rfl, _, rfl, wf_addLoopS rows m hwm hlen⟩
  · exact ⟨rfl, _, rfl, wf_addLoopS rows m hwm hlen⟩

theorem wf_removeFromBodyS {H : List Attr} {scope : List (String × Relation)}
    {r : Relation} {rows : List Row} (hw : WFrel H r)
    (hlen : ∀ b ∈ rows, b.length = H.length) :
    WFrel H (removeFromBodyS scope r rows).1 := by
  obtain ⟨hh, m, hbody, hwm⟩ := hw
  subst hh
  simp only [removeFromBodyS, hbody]
  rcases hl1 : (removeLoopS r.heading m rows).2 with _ | e
  · rcases hchk : checkConstraintsE scope
        { r with body := RBody.mat (removeLoopS r.heading m rows).1 } with e0 | u
    · rcases hl2 : (addLoopS r.heading (removeLoopS r.heading m rows).1 rows).2
          with _ | e2
      · exact ⟨rfl, _, rfl, wf_addLoopS rows _ (wf_removeLoopS rows m hwm hlen) hlen⟩
      · exact ⟨rfl, _, rfl, wf_addLoopS rows _ (wf_removeLoopS rows m hwm hlen) hlen⟩
    · exact ⟨rfl, _, rfl, wf_removeLoopS rows m hwm hlen⟩
  · exact ⟨rfl, _, rfl, wf_removeLoopS rows m hwm hlen⟩

/-- A mutation request against a relvar: an insert batch or a delete batch
(`Relation.insert` / `Relation.delete` after row conversion). -/
inductive DOp where
  | ins (rows : List Row)
  | del (rows : List Row)

/-- The batch a mutation carries. -/
def DOp.batch : DOp → List Row
  | .ins rs => rs
  | .del rs => rs

/-- Apply one mutation, keeping the final state whether or not a constraint
error was raised (the Python object survives the raise). -/
def applyDOp (scope : List (String × Relation)) (r : Relation) : DOp → Relation
  | .ins rs => (addToBodyS scope r rs).1
  | .del rs => (removeFromBodyS scope r rs).1

/-- Apply a whole history of insert/delete batches. -/
def applyDOps (scope : List (String × Relation)) (r : Relation)
    (ops : List DOp) : Relation :=
  ops.foldl (applyDOp scope) r

theorem wf_applyDOps {H : List Attr} {scope : List (String × Relation)}
    (ops : List DOp) :
    ∀ (r : Relation), WFrel H r →
    (∀ op ∈ ops, ∀ b ∈ op.batch, b.length = H.length) →
    WFrel H (applyDOps scope r ops) := by
  induction ops with
  | nil => intro r hw _; exact hw
  | cons op ops ih =>
    intro r hw hlen
    rw [applyDOps, List.foldl_cons]
    have hstep : WFrel H (applyDOp scope r op) := by
      rcases op with rs | rs
      · exact wf_addToBodyS hw (hlen (.ins rs) (List.mem_cons_self _ _))
      · exact wf_removeFromBodyS hw (hlen (.del rs) (List.mem_cons_self _ _))
    exact ih (applyDOp scope r op) hstep
      (fun o ho => hlen o (List.mem_cons.mpr (Or.inr ho)))

/-- Elimination for a successful `Relation` construction. -/
theorem mkRelNC_ok_elim {H : List Attr} {rows : List Row} {r : Relation}
    (h : mkRelNC H rows = .ok r) :
    H.Nodup ∧
    r = { heading := H,
          body := RBody.mat (addLoopS H { rows := [], idx := emptyIdx } rows).1,
          cdefs := defaultCdefs, mapToOrig := [] } := by
  by_cases hnd : H.Nodup
  · rcases hst : (addLoopS H { rows := [], idx := emptyIdx } rows).2 with _ | e
    · have hcomp : mkRelNC H rows = Except.ok
          { heading := H,
            body := RBody.mat (addLoopS H { rows := [], idx := emptyIdx } rows).1,
            cdefs := defaultCdefs, mapToOrig := [] } := by
        simp only [mkRelNC, validateHeadingE, if_pos hnd, hst]
        rfl
      rw [hcomp] at h
      injection h with h2
      exact ⟨hnd, h2.symm⟩
    · have hcomp : mkRelNC H rows = Except.error e := by
        simp only [mkRelNC, validateHeadingE, if_pos hnd, hst]
        rfl
      rw [hcomp] at h
      cases h
  · have hcomp : mkRelNC H rows =
        Except.error (.relEx "Heading attributes must be unique") := by
      simp only [mkRelNC, validateHeadingE, if_neg hnd]
      rfl
    rw [hcomp] at h
    cases h

/-- C10: for every materialized relation built by the constructor and then
hit by any sequence of insert/delete batches (each of right-length rows),
the inverted index stays consistent with the body — for every heading
attribute `a` and value `v` the entry is exactly the set of current row
positions whose `a`-column is `v` — and therefore `_hashfind(row)` returns
exactly the positions of stored rows equal to `row`. -/
theorem C10_index_invariant (scope : List (String × Relation)) (H : List Attr)
    (rows0 : List Row) (ops : List DOp) (r0 : Relation)
    (hmk : mkRelNC H rows0 = .ok r0)
    (hlen0 : ∀ b ∈ rows0, b.length = H.length)
    (hops : ∀ op ∈ ops, ∀ b ∈ op.batch, b.length = H.length) :
    ∃ m, (applyDOps scope r0 ops).body = RBody.mat m ∧
      (∀ a ∈ H, ∀ v i, i ∈ m.idx a v ↔
        ∃ h : i < m.rows.length, colAt H (m.rows.get ⟨i, h⟩) a = some v) ∧
      (∀ row, row.length = H.length →
        ∀ i, i ∈ hashfind H m row ↔
          ∃ h : i < m.rows.length, m.rows.get ⟨i, h⟩ = row) := by
  obtain ⟨hnd, hr0⟩ := mkRelNC_ok_elim hmk
  have hw0 : WFrel H r0 := by
    subst hr0
    exact ⟨rfl, _, rfl, wf_addLoopS rows0 _ (wfm_empty hnd) hlen0⟩
  obtain ⟨hh, m, hbody, hwm⟩ := wf_applyDOps ops r0 hw0 hops
  exact ⟨m, hbody, hwm.hidx, fun row hl i => hashfind_spec hwm hl i⟩

/-- The relation `mkRelNC` builds from `[[1,10],[2,20]]` over `[k, v]`. -/
def c10r0 : Relation :=
  { heading := ["k", "v"],
    body := RBody.mat (addLoopS ["k", "v"] { rows := [], idx := emptyIdx }
      [[vInt 1, vInt 10], [vInt 2, vInt 20]]).1,
    cdefs := defaultCdefs, mapToOrig := [] }

/-- C10 witness: the invariant after an insert batch and a delete batch on
a concretely constructed two-row relation. -/
theorem C10_witness :
    ∃ m, (applyDOps [] c10r0
        [DOp.ins [[vInt 3, vInt 30]], DOp.del [[vInt 1, vInt 10]]]).body =
          RBody.mat m ∧
      (∀ a ∈ ["k", "v"], ∀ v i, i ∈ m.idx a v ↔
        ∃ h : i < m.rows.length,
          colAt ["k", "v"] (m.rows.get ⟨i, h⟩) a = some v) ∧
      (∀ row, row.length = (["k", "v"] : List Attr).length →
        ∀ i, i ∈ hashfind ["k", "v"] m row ↔
          ∃ h : i < m.rows.length, m.rows.get ⟨i, h⟩ = row) :=
  C10_index_invariant [] ["k", "v"] [[vInt 1, vInt 10], [vInt 2, vInt 20]]
    [DOp.ins [[vInt 3, vInt 30]], DOp.del [[vInt 1, vInt 10]]] c10r0
    rfl (by decide) (by decide)

/-! ## C4: transactions (begin / assign / rollback / commit) -/

theorem frameGet_frameSet (f : Frame) (n : String) (v : Relation) :
    frameGet (frameSet f n v) n = some v := by
  rw [frameSet]
  by_cases hany : f.any (fun p => p.1 == n)
  · rw [if_pos hany]
    induction f with
    | nil => cases hany
    | cons p ps ih =>
      by_cases hp : p.1 = n
      · simp only [List.map_cons, if_pos hp]
        rw [frameGet, if_pos rfl]
      · simp only [List.map_cons, if_neg hp]
        rw [frameGet, if_neg hp]
        apply ih
        rcases List.any_eq_true.mp hany with ⟨q, hq, he⟩
        rcases List.mem_cons.mp hq with hq | hq
        · exact absurd (by subst hq; exact beq_iff_eq.mp he) hp
        · exact List.any_eq_true.mpr ⟨q, hq, he⟩
  · rw [if_neg hany]
    induction f with
    | nil => rw [List.nil_append, frameGet, if_pos rfl]
    | cons p ps ih =>
      have hp : p.1 ≠ n := by
        intro he
        exact hany (List.any_eq_true.mpr
          ⟨p, List.mem_cons_self _ _, beq_iff_eq.mpr he⟩)
      rw [List.cons_append, frameGet, if_neg hp]
      apply ih
      intro hc
      rcases List.any_eq_true.mp hc with ⟨q, hq, he⟩
      exact hany (List.any_eq_true.mpr ⟨q, List.mem_cons.mpr (Or.inr hq), he⟩)

theorem frameGet_preDump {f : Frame} {n : String} {v : Relation}
    (h : frameGet f n = some v) (hc : v.isCallable = false) :
    frameGet (preDump f) n = some v := by
  induction f with
  | nil => cases h
  | cons p ps ih =>
    by_cases hp : p.1 = n
    · rw [frameGet, if_pos hp] at h
      injection h with h
      subst h
      rw [preDump, List.filter_cons, hc]
      simp only [Bool.not_false, if_pos]
      show frameGet (p :: _) n = some p.2
      rw [frameGet, if_pos hp]
    · rw [frameGet, if_neg hp] at h
      rw [preDump, List.filter_cons]
      rcases hcall : p.2.isCallable with _ | _
      · simp only [Bool.not_false, if_pos]
        show frameGet (p :: preDump ps) n = some v
        rw [frameGet, if_neg hp]
        exact ih h
      · simp only [Bool.not_true, Bool.false_eq_true, if_false, ite_false]
        exact ih h

/-- C4, amended: with no transaction active and `X` a writable relvar
holding `V`: `begin(); X := V2; rollback()` leaves `X == V` and the
committed frame untouched, for every `V2`; `begin(); X := V2; commit()`
puts `X == V2` in the committed frame 0 and persists it, provided `V2` is
not a computed relation — `commit` pickles the frame through `_preDump`,
which silently drops relvars with a callable body (see the
counterexample), so the claim's "every relation value V2" is too strong. -/
theorem C4_transactions (db : DB) (X : String) (V V2 : Relation)
    (htop : db.top = none) (hro : readonlyNames.contains X = false)
    (hget : frameGet db.committed X = some V) :
    ∃ db1 db2, DB.begin db = .ok db1 ∧ DB.setRelvar db1 X V2 = .ok db2 ∧
      DB.rollback db2 = .ok { db with top := none } ∧
      DB.getRelvar { db with top := none } X = some V ∧
      (V2.isCallable = false →
        ∃ db4, DB.commit db2 = .ok db4 ∧
          frameGet db4.committed X = some V2 ∧
          db4.stored = some (preDump db4.committed)) := by
  refine ⟨{ db with top := some (preDump db.committed) },
    { db with top := some (frameSet (preDump db.committed) X V2) },
    ?_, ?_, ?_, ?_, ?_⟩
  · simp only [DB.begin, htop]
  · simp only [DB.setRelvar]
    rw [if_neg (fun hc => by rw [hro] at hc; cases hc)]
  · simp only [DB.rollback]
  · simp only [DB.getRelvar]
    exact hget
  · intro hV2c
    refine ⟨{ committed := preDump (frameSet (preDump db.committed) X V2), top := none, stored := some (preDump (preDump (frameSet (preDump db.committed) X V2))) }, ?_, ?_, ?_⟩
    · simp only [DB.commit]
    · exact frameGet_preDump (frameGet_frameSet _ X V2) hV2c
    · rfl

/-- A one-row materialized relation for the transaction scenario. -/
def c4V : Relation :=
  { heading := ["x"], body := .mat { rows := [[vInt 1]], idx := emptyIdx },
    cdefs := defaultCdefs, mapToOrig := [] }

/-- The replacement value. -/
def c4V2 : Relation :=
  { heading := ["x"], body := .mat { rows := [[vInt 2]], idx := emptyIdx },
    cdefs := defaultCdefs, mapToOrig := [] }

/-- A computed ("functional") replacement value. -/
def c4V2c : Relation :=
  { heading := ["x"], body := .comp0 (fun _ => .ok []),
    cdefs := defaultCdefs, mapToOrig := [] }

/-- The database with the single committed relvar `X := c4V`. -/
def c4db : DB := { committed := [("X", c4V)], top := none, stored := none }

/-- C4, counterexample: assigning a computed relation to `X` and
committing silently DROPS `X` from the database — `commit` pickles the
frame through `_preDump`, which removes every relvar with a callable body,
so afterwards `X` is not bound at all (an `AttributeError` on access), not
`X == V2` as claimed. -/
theorem C4_counterexample :
    ∃ db1 db2 db4, DB.begin c4db = .ok db1 ∧
      DB.setRelvar db1 "X" c4V2c = .ok db2 ∧
      DB.commit db2 = .ok db4 ∧
      DB.getRelvar db4 "X" = none := by
  exact ⟨_, _, _, rfl, rfl, rfl, rfl⟩

/-- C4 witness: the begin/assign/rollback and begin/assign/commit runs on
the concrete database. -/
theorem C4_witness :
    ∃ db1 db2, DB.begin c4db = .ok db1 ∧ DB.setRelvar db1 "X" c4V2 = .ok db2 ∧
      DB.rollback db2 = .ok { c4db with top := none } ∧
      DB.getRelvar { c4db with top := none } "X" = some c4V ∧
      (c4V2.isCallable = false →
        ∃ db4, DB.commit db2 = .ok db4 ∧
          frameGet db4.committed "X" = some c4V2 ∧
          db4.stored = some (preDump db4.committed)) :=
  C4_transactions c4db "X" c4V c4V2 rfl rfl rfl

/-! ## C8: union — elimination lemmas for the monadic pipeline -/

theorem exceptBind_ok {A B : Type} {x : Except Err A} {f : A → Except Err B}
    {b : B} (h : (x >>= f) = .ok b) : ∃ a, x = .ok a ∧ f a = .ok b := by
  rcases x with e | a
  · simp only [Bind.bind, Except.bind] at h
    cases h
  · exact ⟨a, rfl, h⟩

theorem lookupE_ok {t : Tup} {a : Attr} {v : Value}
    (h : lookupE t a = .ok v) : Tup.get? t a = some v := by
  rw [lookupE] at h
  rcases hg : Tup.get? t a with _ | w
  · simp only [hg] at h
    cases h
  · simp only [hg] at h
    injection h with h
    rw [h]

theorem mapME_ok_length {A B : Type} {f : A → Except Err B} {xs : List A} :
    ∀ {ys : List B}, mapME f xs = .ok ys → ys.length = xs.length := by
  induction xs with
  | nil =>
    intro ys h
    simp only [mapME] at h
    injection h with h
    rw [← h]
    rfl
  | cons x xs ih =>
    intro ys h
    simp only [mapME] at h
    obtain ⟨y, hy, h2⟩ := exceptBind_ok h
    obtain ⟨ys0, hys0, h3⟩ := exceptBind_ok h2
    have h4 : Except.ok (y :: ys0) = Except.ok ys := h3
    injection h4 with h4
    rw [← h4, List.length_cons, List.length_cons, ih hys0]

theorem mapME_ok_mem_left {A B : Type} {f : A → Except Err B} {xs : List A} :
    ∀ {ys : List B}, mapME f xs = .ok ys →
    ∀ x ∈ xs, ∃ y ∈ ys, f x = .ok y := by
  induction xs with
  | nil => intro ys _ x hx; cases hx
  | cons x xs ih =>
    intro ys h z hz
    simp only [mapME] at h
    obtain ⟨y, hy, h2⟩ := exceptBind_ok h
    obtain ⟨ys0, hys0, h3⟩ := exceptBind_ok h2
    have h4 : Except.ok (y :: ys0) = Except.ok ys := h3
    injection h4 with h4
    rcases List.mem_cons.mp hz with hz | hz
    · subst hz
      exact ⟨y, by rw [← h4]; exact List.mem_cons_self _ _, hy⟩
    · obtain ⟨w, hw, hfw⟩ := ih hys0 z hz
      exact ⟨w, by rw [← h4]; exact List.mem_cons.mpr (Or.inr hw), hfw⟩

theorem mapME_ok_mem_right {A B : Type} {f : A → Except Err B} {xs : List A} :
    ∀ {ys : List B}, mapME f xs = .ok ys →
    ∀ y ∈ ys, ∃ x ∈ xs, f x = .ok y := by
  induction xs with
  | nil =>
    intro ys h y hy
    simp only [mapME] at h
    injection h with h
    rw [← h] at hy
    cases hy
  | cons x xs ih =>
    intro ys h z hz
    simp only [mapME] at h
    obtain ⟨y, hy, h2⟩ := exceptBind_ok h
    obtain ⟨ys0, hys0, h3⟩ := exceptBind_ok h2
    have h4 : Except.ok (y :: ys0) = Except.ok ys := h3
    injection h4 with h4
    rw [← h4] at hz
    rcases List.mem_cons.mp hz with hz | hz
    · subst hz
      exact ⟨x, List.mem_cons_self _ _, hy⟩
    · obtain ⟨w, hw, hfw⟩ := ih hys0 z hz
      exact ⟨w, List.mem_cons.mpr (Or.inr hw), hfw⟩

theorem dictToTupleE_length {t : Tup} : ∀ {H : List Attr} {row : Row},
    dictToTupleE H t = .ok row → row.length = H.length := by
  intro H
  induction H with
  | nil =>
    intro row h
    simp only [dictToTupleE] at h
    injection h with h
    rw [← h]
    rfl
  | cons a as ih =>
    intro row h
    simp only [dictToTupleE] at h
    obtain ⟨v, hv, h2⟩ := exceptBind_ok h
    obtain ⟨vs, hvs, h3⟩ := exceptBind_ok h2
    have h4 : Except.ok (v :: vs) = Except.ok row := h3
    injection h4 with h4
    rw [← h4, List.length_cons, List.length_cons, ih hvs]

theorem dictToTupleE_get {t : Tup} : ∀ {H : List Attr} {row : Row},
    dictToTupleE H t = .ok row →
    ∀ j (hj : j < H.length) (hj2 : j < row.length),
      Tup.get? t (H.get ⟨j, hj⟩) = some (row.get ⟨j, hj2⟩) := by
  intro H
  induction H with
  | nil => intro row _ j hj; cases hj
  | cons a as ih =>
    intro row h j hj hj2
    simp only [dictToTupleE] at h
    obtain ⟨v, hv, h2⟩ := exceptBind_ok h
    obtain ⟨vs, hvs, h3⟩ := exceptBind_ok h2
    have h4 : Except.ok (v :: vs) = Except.ok row := h3
    injection h4 with h4
    subst h4
    cases j with
    | zero => exact lookupE_ok hv
    | succ k =>
      exact ih hvs k (Nat.lt_of_succ_lt_succ hj) (Nat.lt_of_succ_lt_succ hj2)

theorem containsB_iff {l : List Attr} {a : Attr} :
    l.contains a = true ↔ a ∈ l := by
  induction l with
  | nil => simp [List.contains]
  | cons x xs ih =>
    rw [List.contains_cons]
    rw [Bool.or_eq_true, List.mem_cons]
    constructor
    · rintro (h | h)
      · exact Or.inl (beq_iff_eq.mp h)
      · exact Or.inr (ih.mp h)
    · rintro (h | h)
      · exact Or.inl (beq_iff_eq.mpr h)
      · exact Or.inr (ih.mpr h)

theorem headEqB_iff {H1 H2 : List Attr} :
    headEqB H1 H2 = true ↔ (∀ a, a ∈ H1 ↔ a ∈ H2) := by
  rw [headEqB, Bool.and_eq_true, List.all_eq_true, List.all_eq_true]
  constructor
  · rintro ⟨hl, hr⟩ a
    constructor
    · intro ha
      exact containsB_iff.mp (hl a ha)
    · intro ha
      exact containsB_iff.mp (hr a ha)
  · intro h
    exact ⟨fun a ha => containsB_iff.mpr ((h a).mp ha),
      fun a ha => containsB_iff.mpr ((h a).mpr ha)⟩

theorem mem_unionH {H1 H2 : List Attr} (a : Attr) :
    a ∈ unionH H1 H2 ↔ a ∈ H1 ∨ a ∈ H2 := by
  rw [unionH, List.mem_append, List.mem_filter]
  constructor
  · rintro (h | ⟨h, _⟩)
    · exact Or.inl h
    · exact Or.inr h
  · rintro (h | h)
    · exact Or.inl h
    · by_cases h1 : a ∈ H1
      · exact Or.inl h1
      · refine Or.inr ⟨h, ?_⟩
        rw [Bool.not_eq_true']
        rw [← Bool.not_eq_true]
        intro hc
        exact h1 (containsB_iff.mp hc)

theorem nodup_unionH {H1 H2 : List Attr} (h1 : H1.Nodup) (h2 : H2.Nodup) :
    (unionH H1 H2).Nodup := by
  rw [unionH]
  refine List.Nodup.append h1 (h2.filter _) ?_
  intro a ha1 ha2
  rcases List.mem_filter.mp ha2 with ⟨_, hb⟩
  rw [Bool.not_eq_true'] at hb
  rw [← Bool.not_eq_true] at hb
  exact hb (containsB_iff.mpr ha1)

theorem mem_keys_tupOfRow {H : List Attr} {row : Row}
    (hlen : row.length = H.length) (a : Attr) :
    a ∈ Tup.keys (tupOfRow H row) ↔ a ∈ H := by
  rw [tupOfRow]
  have hperm : List.Perm (Tup.keys (Tup.canon (H.zip row)))
      (Tup.keys (H.zip row)) := (Tup.canon_perm _).map Prod.fst
  rw [hperm.mem_iff, keys_zip hlen]

/-- `_dictToTuple` then `Tuple(zip(heading, row))` is the identity on
canonical tuples whose key set is the heading set. -/
theorem tupOfRow_dictToTupleE {Hs : List Attr} {t : Tup} {row : Row}
    (hnd : Hs.Nodup) (hcanon : Tup.IsCanon t)
    (hkeys : ∀ a, a ∈ Tup.keys t ↔ a ∈ Hs)
    (h : dictToTupleE Hs t = .ok row) : tupOfRow Hs row = t := by
  have hlen : row.length = Hs.length := dictToTupleE_length h
  rw [tupOfRow]
  apply Tup.canon_ext (Tup.isCanon_canon (wk_zip hnd hlen)) hcanon
  intro a
  rw [Tup.get?_canon (wk_zip hnd hlen)]
  by_cases ha : a ∈ Hs
  · obtain ⟨⟨j, hj⟩, haj⟩ := List.mem_iff_get.mp ha
    have hj2 : j < row.length := by omega
    have h1 := colAt_get hnd hlen j hj
    have h2 := dictToTupleE_get h j hj hj2
    simp only [colAt] at h1
    rw [← haj, h1, h2]
  · have h1 : Tup.get? (Hs.zip row) a = none := by
      apply Tup.get?_eq_none_iff.mpr
      rw [keys_zip hlen]
      exact ha
    have h2 : Tup.get? t a = none := by
      apply Tup.get?_eq_none_iff.mpr
      intro hc
      exact ha ((hkeys a).mp hc)
    rw [h1, h2]

theorem tupOfRow_inj {H : List Attr} {r1 r2 : Row} (hnd : H.Nodup)
    (h1 : r1.length = H.length) (h2 : r2.length = H.length)
    (h : tupOfRow H r1 = tupOfRow H r2) : r1 = r2 := by
  apply rows_eq_of_colAt hnd h1 h2
  intro p hp
  have e1 : Tup.get? (H.zip r1) p.1 = Tup.get? (H.zip r2) p.1 := by
    rw [← Tup.get?_canon (wk_zip hnd h1), ← Tup.get?_canon (wk_zip hnd h2)]
    rw [tupOfRow] at h
    rw [h]
    rfl
  show Tup.get? (H.zip r1) p.1 = some p.2
  rw [e1]
  exact colAt_of_mem_zip hnd h2 hp

theorem add1_none_eq {H : List Attr} {m : MatB} {row : Row}
    (h : (add1 H m row).2 = none) : (add1 H m row).1 = addRowRaw H m row := by
  rcases hh : m.rows.head? with _ | first
  · rw [add1, hh]
  · rw [add1, hh] at h ⊢
    show (match typeCheckRow first row with
      | some e => (m, some e)
      | none => (addRowRaw H m row, none)).1 = addRowRaw H m row
    have h2 : (match typeCheckRow first row with
      | some e => (m, some e)
      | none => (addRowRaw H m row, none)).2 = none := h
    rcases ht : typeCheckRow first row with _ | e
    · rfl
    · rw [ht] at h2
      exact absurd h2 (by simp)

theorem addLoopS_mem_of_ok {H : List Attr} (batch : List Row) :
    ∀ (m : MatB), WFm H m → (∀ b ∈ batch, b.length = H.length) →
    (addLoopS H m batch).2 = none →
    WFm H (addLoopS H m batch).1 ∧
    (∀ x, x ∈ (addLoopS H m batch).1.rows ↔ x ∈ m.rows ∨ x ∈ batch) := by
  induction batch with
  | nil => intro m hw _ _; exact ⟨hw, by simp [addLoopS]⟩
  | cons b bs ih =>
    intro m hw hlen hok
    rw [addLoopS_cons_all] at hok ⊢
    rcases he : (add1 H m b).2 with _ | e
    · rw [he] at hok
      simp only at hok
      simp only
      have hlb := hlen b (List.mem_cons_self _ _)
      have h1 : (add1 H m b).1 = addRowRaw H m b := add1_none_eq he
      rw [h1] at hok ⊢
      have hw1 : WFm H (addRowRaw H m b) := wf_addRowRaw hw hlb
      obtain ⟨hwf, hmem⟩ := ih (addRowRaw H m b) hw1
        (fun r hr => hlen r (List.mem_cons.mpr (Or.inr hr))) hok
      refine ⟨hwf, fun x => ?_⟩
      rw [hmem x, addRowRaw_rows hw hlb]
      by_cases hbm : b ∈ m.rows
      · rw [if_pos hbm]
        constructor
        · rintro (hx | hx)
          · exact Or.inl hx
          · exact Or.inr (List.mem_cons.mpr (Or.inr hx))
        · rintro (hx | hx)
          · exact Or.inl hx
          · rcases List.mem_cons.mp hx with hx | hx
            · exact Or.inl (hx ▸ hbm)
            · exact Or.inr hx
      · rw [if_neg hbm]
        constructor
        · rintro (hx | hx)
          · rcases List.mem_append.mp hx with hx | hx
            · exact Or.inl hx
            · exact Or.inr (List.mem_cons.mpr (Or.inl (List.mem_singleton.mp hx)))
          · exact Or.inr (List.mem_cons.mpr (Or.inr hx))
        · rintro (hx | hx)
          · exact Or.inl (List.mem_append.mpr (Or.inl hx))
          · rcases List.mem_cons.mp hx with hx | hx
            · exact Or.inl (List.mem_append.mpr (Or.inr (List.mem_singleton.mpr hx)))
            · exact Or.inr hx
    · rw [he] at hok
      exact absurd hok (by simp)

theorem mkRelNC_ok_loop {H : List Attr} {rows : List Row} {r : Relation}
    (h : mkRelNC H rows = .ok r) :
    (addLoopS H { rows := [], idx := emptyIdx } rows).2 = none := by
  rcases hst : (addLoopS H { rows := [], idx := emptyIdx } rows).2 with _ | e
  · rfl
  · by_cases hnd : H.Nodup
    · have hcomp : mkRelNC H rows = Except.error e := by
        simp only [mkRelNC, validateHeadingE, if_pos hnd, hst]
        rfl
      rw [hcomp] at h
      cases h
    · have hcomp : mkRelNC H rows =
          Except.error (.relEx "Heading attributes must be unique") := by
        simp only [mkRelNC, validateHeadingE, if_neg hnd]
        rfl
      rw [hcomp] at h
      cases h

/-- Full characterization of a successful `Relation` construction: the
result is materialized over the given heading, well-formed, and holds
exactly the given rows as a set (duplicates suppressed). -/
theorem mkRelNC_ok_mem {H : List Attr} {Bs : List Row} {u : Relation}
    (h : mkRelNC H Bs = .ok u) (hlen : ∀ b ∈ Bs, b.length = H.length) :
    u.heading = H ∧ ∃ mu, u.body = RBody.mat mu ∧ WFm H mu ∧
      (∀ x, x ∈ mu.rows ↔ x ∈ Bs) := by
  obtain ⟨hnd, hu⟩ := mkRelNC_ok_elim h
  have hloop := mkRelNC_ok_loop h
  obtain ⟨hwf, hmem⟩ := addLoopS_mem_of_ok Bs { rows := [], idx := emptyIdx }
    (wfm_empty hnd) hlen hloop
  subst hu
  refine ⟨rfl, _, rfl, hwf, fun x => ?_⟩
  rw [hmem x]
  simp

/-- One side of the union: the converted rows, mapped back to tuples over
the union heading, are exactly the operand's scanned tuples. -/
theorem orSide_mem {H1 Hs : List Attr} {m1 : MatB} {rows1 : List Row}
    (hnd1 : H1.Nodup) (hndS : Hs.Nodup)
    (hrl : ∀ row ∈ m1.rows, row.length = H1.length)
    (hkeys : ∀ a, a ∈ H1 ↔ a ∈ Hs)
    (hmap : mapME (dictToTupleE Hs) (m1.rows.map (tupOfRow H1)) = .ok rows1)
    (t : Tup) :
    (∃ x ∈ rows1, tupOfRow Hs x = t) ↔ t ∈ m1.rows.map (tupOfRow H1) := by
  constructor
  · rintro ⟨x, hx, rfl⟩
    obtain ⟨t1, ht1, hd⟩ := mapME_ok_mem_right hmap x hx
    obtain ⟨row, hrow, hre⟩ := List.mem_map.mp ht1
    have hlen : row.length = H1.length := hrl row hrow
    have hcanon : Tup.IsCanon t1 := by
      rw [← hre]
      exact Tup.isCanon_canon (wk_zip hnd1 hlen)
    have hk : ∀ a, a ∈ Tup.keys t1 ↔ a ∈ Hs := by
      intro a
      rw [← hre, mem_keys_tupOfRow hlen]
      exact hkeys a
    rw [tupOfRow_dictToTupleE hndS hcanon hk hd]
    exact ht1
  · intro ht
    obtain ⟨x, hx, hd⟩ := mapME_ok_mem_left hmap t ht
    obtain ⟨row, hrow, hre⟩ := List.mem_map.mp ht
    have hlen : row.length = H1.length := hrl row hrow
    have hcanon : Tup.IsCanon t := by
      rw [← hre]
      exact Tup.isCanon_canon (wk_zip hnd1 hlen)
    have hk : ∀ a, a ∈ Tup.keys t ↔ a ∈ Hs := by
      intro a
      rw [← hre, mem_keys_tupOfRow hlen]
      exact hkeys a
    exact ⟨x, hx, tupOfRow_dictToTupleE hndS hcanon hk hd⟩

/-- C8, amended: `OR` on two well-formed materialized relations raises an
Operand-Mismatch error when the heading sets differ; when it returns a
relation, that relation is materialized and holds, as a duplicate-free set
of tuples, exactly the tuples of the two operands (set union).  It does
NOT always return the union for identical headings: the construction of
the result can raise (e.g. a TypeError when the operands disagree on a
column's value type — see the counterexample). -/
theorem C8_or (r1 r2 : Relation) (m1 m2 : MatB)
    (hb1 : r1.body = RBody.mat m1) (hb2 : r2.body = RBody.mat m2)
    (hw1 : WFm r1.heading m1) (hw2 : WFm r2.heading m2) :
    (headEqB r1.heading r2.heading = false →
      OR r1 r2 = .error (.invalidOp "OR can only handle same reltypes so far")) ∧
    (∀ u, OR r1 r2 = .ok u →
      ∃ mu, u.body = RBody.mat mu ∧
        (mu.rows.map (tupOfRow u.heading)).Nodup ∧
        (∀ t, t ∈ mu.rows.map (tupOfRow u.heading) ↔
          t ∈ m1.rows.map (tupOfRow r1.heading) ∨
          t ∈ m2.rows.map (tupOfRow r2.heading))) := by
  constructor
  · intro hne
    simp [OR, hne]
  · intro u hok
    rcases hhd : headEqB r1.heading r2.heading with _ | _
    · rw [show OR r1 r2 =
          .error (.invalidOp "OR can only handle same reltypes so far") from
        by simp [OR, hhd]] at hok
      cases hok
    · have hor : OR r1 r2 = orLoop r1 r2 := by
        simp [OR, hhd, hb1, hb2]
      rw [hor] at hok
      simp only [orLoop] at hok
      obtain ⟨ts1, hts1, hok⟩ := exceptBind_ok hok
      have hs1 : scanAll r1 = .ok (m1.rows.map (tupOfRow r1.heading)) := by
        simp only [scanAll, hb1]
      rw [hs1] at hts1
      injection hts1 with hts1
      subst hts1
      obtain ⟨rows1, hrows1, hok⟩ := exceptBind_ok hok
      obtain ⟨ts2, hts2, hok⟩ := exceptBind_ok hok
      have hs2 : scanAll r2 = .ok (m2.rows.map (tupOfRow r2.heading)) := by
        simp only [scanAll, hb2]
      rw [hs2] at hts2
      injection hts2 with hts2
      subst hts2
      obtain ⟨rows2, hrows2, hok⟩ := exceptBind_ok hok
      have hndS : (unionH r1.heading r2.heading).Nodup :=
        nodup_unionH hw1.hnd hw2.hnd
      have hiff := headEqB_iff.mp hhd
      have hkeys1 : ∀ a, a ∈ r1.heading ↔ a ∈ unionH r1.heading r2.heading := by
        intro a
        rw [mem_unionH]
        constructor
        · exact Or.inl
        · rintro (h | h)
          · exact h
          · exact (hiff a).mpr h
      have hkeys2 : ∀ a, a ∈ r2.heading ↔ a ∈ unionH r1.heading r2.heading := by
        intro a
        rw [mem_unionH]
        constructor
        · exact Or.inr
        · rintro (h | h)
          · exact (hiff a).mp h
          · exact h
      have hlenB : ∀ b ∈ rows1 ++ rows2,
          b.length = (unionH r1.heading r2.heading).length := by
        intro b hb
        rcases List.mem_append.mp hb with hb | hb
        · obtain ⟨t, _, hd⟩ := mapME_ok_mem_right hrows1 b hb
          exact dictToTupleE_length hd
        · obtain ⟨t, _, hd⟩ := mapME_ok_mem_right hrows2 b hb
          exact dictToTupleE_length hd
      obtain ⟨huh, mu, hub, huwf, humem⟩ := mkRelNC_ok_mem hok hlenB
      have hside1 := fun t =>
        orSide_mem hw1.hnd hndS hw1.rlen hkeys1 hrows1 t
      have hside2 := fun t =>
        orSide_mem hw2.hnd hndS hw2.rlen hkeys2 hrows2 t
      refine ⟨mu, hub, ?_, ?_⟩
      · rw [huh]
        apply List.Nodup.map_on ?_ huwf.rnd
        intro x hx y hy hxy
        exact tupOfRow_inj hndS (huwf.rlen x hx) (huwf.rlen y hy) hxy
      · intro t
        rw [huh, List.mem_map]
        constructor
        · rintro ⟨x, hx, rfl⟩
          rcases List.mem_append.mp ((humem x).mp hx) with h1 | h2
          · exact Or.inl ((hside1 _).mp ⟨x, h1, rfl⟩)
          · exact Or.inr ((hside2 _).mp ⟨x, h2, rfl⟩)
        · rintro (ht | ht)
          · obtain ⟨x, hx, he⟩ := (hside1 t).mpr ht
            exact ⟨x, (humem x).mpr (List.mem_append.mpr (Or.inl hx)), he⟩
          · obtain ⟨x, hx, he⟩ := (hside2 t).mpr ht
            exact ⟨x, (humem x).mpr (List.mem_append.mpr (Or.inr hx)), he⟩

/-- `{x: 1}` as a materialized relation. -/
def c8Int : Relation :=
  { heading := ["x"], body := .mat (addLoopS ["x"] { rows := [], idx := emptyIdx } [[vInt 1]]).1,
    cdefs := defaultCdefs, mapToOrig := [] }

/-- `{x: "a"}` as a materialized relation. -/
def c8Str : Relation :=
  { heading := ["x"], body := .mat (addLoopS ["x"] { rows := [], idx := emptyIdx } [[vStr "a"]]).1,
    cdefs := defaultCdefs, mapToOrig := [] }

/-- C8, counterexample: the headings are identical (both `(x,)`), yet
`OR` does not return the union — building the result raises the
`_addToBody` "Invalid type" TypeError because the operands' `x` columns
hold an int and a str. -/
theorem C8_counterexample :
    (do
      let u ← OR c8Int c8Str
      pure u.matRows : Except Err (List Row)) = .error .typeEx := by decide

/-- `{x: 1, 2}`. -/
def c8u1 : Relation :=
  { heading := ["x"],
    body := .mat (addLoopS ["x"] { rows := [], idx := emptyIdx } [[vInt 1], [vInt 2]]).1,
    cdefs := defaultCdefs, mapToOrig := [] }

/-- `{x: 2, 3}`. -/
def c8u2 : Relation :=
  { heading := ["x"],
    body := .mat (addLoopS ["x"] { rows := [], idx := emptyIdx } [[vInt 2], [vInt 3]]).1,
    cdefs := defaultCdefs, mapToOrig := [] }

/-- The union `OR` actually returns on the witness input. -/
def c8or : Relation := (OR c8u1 c8u2).toOption.getD c8u1

theorem c8u1_wf : WFm ["x"] (addLoopS ["x"] { rows := [], idx := emptyIdx } [[vInt 1], [vInt 2]]).1 :=
  (addLoopS_ok [[vInt 1], [vInt 2]] { rows := [], idx := emptyIdx }
    (wfm_empty (by decide)) (by decide) (by unfold TypedRows; decide)).2.1

theorem c8u2_wf : WFm ["x"] (addLoopS ["x"] { rows := [], idx := emptyIdx } [[vInt 2], [vInt 3]]).1 :=
  (addLoopS_ok [[vInt 2], [vInt 3]] { rows := [], idx := emptyIdx }
    (wfm_empty (by decide)) (by decide) (by unfold TypedRows; decide)).2.1

/-- C8 witness: the union of `{x: 1, 2}` and `{x: 2, 3}`. -/
theorem C8_witness :
    ∃ mu, c8or.body = RBody.mat mu ∧
      (mu.rows.map (tupOfRow c8or.heading)).Nodup ∧
      (∀ t, t ∈ mu.rows.map (tupOfRow c8or.heading) ↔
        t ∈ (addLoopS ["x"] { rows := [], idx := emptyIdx } [[vInt 1], [vInt 2]]).1.rows.map (tupOfRow ["x"]) ∨
        t ∈ (addLoopS ["x"] { rows := [], idx := emptyIdx } [[vInt 2], [vInt 3]]).1.rows.map (tupOfRow ["x"])) :=
  (C8_or c8u1 c8u2 _ _ rfl rfl c8u1_wf c8u2_wf).2 c8or rfl

/-! ## The algebra of `dict.update`, for the AND merge -/

namespace Tup

theorem get?_some_iff_mem_keys {t : Tup} {a : Attr} :
    (∃ v, get? t a = some v) ↔ a ∈ keys t := by
  rw [← get?_isSome_iff, Option.isSome_iff_exists]

/-- Updating twice with tuples over the same key set: only the last update
survives (the in-place `tr1.update(tr2)` of the AND inner loop). -/
theorem update_absorb {t1 t2 t3 : Tup} (h1 : WK t1) (h2 : WK t2) (h3 : WK t3)
    (hk : ∀ a, a ∈ keys t2 ↔ a ∈ keys t3) :
    update (update t1 t2) t3 = update t1 t3 := by
  apply canon_ext (isCanon_update (WK.update h1 h2) h3) (isCanon_update h1 h3)
  intro a
  rw [get?_update (WK.update h1 h2) h3, get?_update h1 h3, get?_update h1 h2]
  rcases hg3 : get? t3 a with _ | v
  · have h2n : get? t2 a = none := by
      apply get?_eq_none_iff.mpr
      intro hc
      have := (hk a).mp hc
      exact get?_eq_none_iff.mp hg3 this
    rw [h2n]
    simp [Option.none_or]
  · rfl

/-- When the two tuples agree wherever both are defined, the update is
symmetric (the merged tuple of the natural join). -/
theorem update_comm_of_agree {t1 t2 : Tup} (h1 : WK t1) (h2 : WK t2)
    (hagree : ∀ a v1 v2, get? t1 a = some v1 → get? t2 a = some v2 → v1 = v2) :
    update t1 t2 = update t2 t1 := by
  apply canon_ext (isCanon_update h1 h2) (isCanon_update h2 h1)
  intro a
  rw [get?_update h1 h2, get?_update h2 h1]
  rcases hg1 : get? t1 a with _ | v1 <;> rcases hg2 : get? t2 a with _ | v2
  · rfl
  · rfl
  · rfl
  · rw [hagree a v1 v2 hg1 hg2]

theorem mem_keys_update {t1 t2 : Tup} (h1 : WK t1) (h2 : WK t2) (a : Attr) :
    a ∈ keys (update t1 t2) ↔ a ∈ keys t2 ∨ a ∈ keys t1 := by
  have h := get?_update h1 h2 a
  rw [← get?_some_iff_mem_keys, ← get?_some_iff_mem_keys (t := t2),
    ← get?_some_iff_mem_keys (t := t1), h]
  rcases hg2 : get? t2 a with _ | v2 <;> rcases hg1 : get? t1 a with _ | v1
  · simp
  · simp
  · simp
  · simp

theorem get?_update_left {t1 t2 : Tup} (h1 : WK t1) (h2 : WK t2) {a : Attr}
    (ha : a ∉ keys t2) : get? (update t1 t2) a = get? t1 a := by
  rw [get?_update h1 h2, get?_eq_none_iff.mpr ha]
  simp [Option.none_or]

theorem get?_update_right {t1 t2 : Tup} (h1 : WK t1) (h2 : WK t2) {a : Attr}
    {v : Value} (hv : get? t2 a = some v) : get? (update t1 t2) a = some v := by
  rw [get?_update h1 h2, hv]
  rfl

end Tup

/-! ## Characterizing the probe scan (`_scan(rel)`) -/

theorem lookupE_of_get? {t : Tup} {a : Attr} {v : Value}
    (h : Tup.get? t a = some v) : lookupE t a = .ok v := by
  simp only [lookupE, h]

theorem excBind_ok_eq {A B : Type} (a : A) (f : A → Except Err B) :
    (Except.ok a >>= f) = f a := rfl

theorem excPure_bind_eq {A B : Type} (a : A) (f : A → Except Err B) :
    ((pure a : Except Err A) >>= f) = f a := rfl

/-- The probe fold, reduced to the pure intersection fold of `_hashfind`. -/
theorem comFold_eq {m : MatB} {reltupl : Tup} {va : Attr → Value} :
    ∀ (com : List Attr), (∀ a ∈ com, Tup.get? reltupl a = some (va a)) →
    ∀ (acc : Option (List ℕ)),
    com.foldlM
      (fun (acc : Option (List ℕ)) a => do
        let v ← lookupE reltupl a
        pure (some (match acc with
          | none => m.idx a v
          | some l => l.filter (fun i => (m.idx a v).contains i))))
      acc =
    .ok ((com.map (fun a => (a, va a))).foldl
      (fun acc p =>
        match acc with
        | none => some (m.idx p.1 p.2)
        | some l => some (l.filter (fun i => (m.idx p.1 p.2).contains i)))
      acc) := by
  intro com
  induction com with
  | nil => intro _ acc; rfl
  | cons a as ih =>
    intro hv acc
    have hla : lookupE reltupl a = .ok (va a) :=
      lookupE_of_get? (hv a (List.mem_cons_self _ _))
    rw [List.foldlM_cons, hla]
    simp only [excBind_ok_eq, excPure_bind_eq]
    rw [ih (fun b hb => hv b (List.mem_cons.mpr (Or.inr hb)))]
    rw [List.map_cons, List.foldl_cons]
    rcases acc with _ | l
    · rfl
    · rfl

theorem comFold_spec {m : MatB} {reltupl : Tup} {com : List Attr}
    {va : Attr → Value}
    (hv : ∀ a ∈ com, Tup.get? reltupl a = some (va a)) :
    ∃ res, comFold m reltupl com = .ok res ∧
      ∀ i, i ∈ res.getD [] ↔ (com ≠ [] ∧ ∀ a ∈ com, i ∈ m.idx a (va a)) := by
  rw [comFold, comFold_eq com hv none]
  refine ⟨_, rfl, ?_⟩
  intro i
  cases hcom : com with
  | nil =>
    subst hcom
    simp
  | cons a as =>
    subst hcom
    have hne : (a :: as).map (fun a => (a, va a)) ≠ [] := by simp
    rw [foldl_inter_none (fun p => m.idx p.1 p.2) hne i]
    constructor
    · intro h
      refine ⟨by simp, ?_⟩
      intro b hb
      have := h (b, va b) (List.mem_map.mpr ⟨b, hb, rfl⟩)
      exact this
    · rintro ⟨_, h⟩ p hp
      rcases List.mem_map.mp hp with ⟨b, hb, hbe⟩
      rw [← hbe]
      exact h b hb

/-- The position-to-tuple conversion at the end of the indexed scan. -/
theorem mapME_getRows {H : List Attr} {m : MatB} {l : List ℕ}
    (hall : ∀ i ∈ l, i < m.rows.length) :
    ∃ ts, mapME (fun i =>
        match m.rows.get? i with
        | some row => .ok (tupOfRow H row)
        | none => .error .idxEx) l = .ok ts ∧
      ∀ t, t ∈ ts ↔ ∃ i ∈ l, ∃ h : i < m.rows.length,
        t = tupOfRow H (m.rows.get ⟨i, h⟩) := by
  induction l with
  | nil => exact ⟨[], rfl, by simp⟩
  | cons i is ih =>
    obtain ⟨ts0, hts0, hmem⟩ := ih (fun j hj => hall j (List.mem_cons.mpr (Or.inr hj)))
    have hi : i < m.rows.length := hall i (List.mem_cons_self _ _)
    have hget : m.rows.get? i = some (m.rows.get ⟨i, hi⟩) := by
      rw [List.get?_eq_get hi]
    refine ⟨tupOfRow H (m.rows.get ⟨i, hi⟩) :: ts0, ?_, ?_⟩
    · simp only [mapME, hget, hts0]
      rfl
    · intro t
      rw [List.mem_cons, hmem t]
      constructor
      · rintro (rfl | ⟨j, hj, hjh, rfl⟩)
        · exact ⟨i, List.mem_cons_self _ _, hi, rfl⟩
        · exact ⟨j, List.mem_cons.mpr (Or.inr hj), hjh, rfl⟩
      · rintro ⟨j, hj, hjh, rfl⟩
        rcases List.mem_cons.mp hj with hj | hj
        · subst hj
          exact Or.inl rfl
        · exact Or.inr ⟨j, hj, hjh, rfl⟩

/-- The indexed/join scan against a one-row materialized probe: it returns
exactly the target's rows that agree with the probe tuple on every common
attribute (all of them when there is no common attribute), as tuples. -/
theorem scanWith_mat {r rel : Relation} {m pm : MatB} {prow : Row}
    (hbr : r.body = RBody.mat m) (hw : WFm r.heading m)
    (hbp : rel.body = RBody.mat pm) (hpr : pm.rows = [prow])
    (hpl : ∀ a ∈ commonH r rel, ∃ v, Tup.get? (tupOfRow rel.heading prow) a = some v) :
    ∃ ts, scanWith r rel = .ok ts ∧
      (∀ t, t ∈ ts ↔ ∃ row ∈ m.rows,
        (∀ a ∈ commonH r rel,
          colAt r.heading row a = Tup.get? (tupOfRow rel.heading prow) a) ∧
        t = tupOfRow r.heading row) := by
  obtain ⟨pmrows, pmidx⟩ := pm
  simp only at hpr
  subst hpr
  rcases hcome : (commonH r rel).isEmpty with _ | _
  · -- common attributes exist: the indexed branch
    have hcne : commonH r rel ≠ [] := by
      intro hc
      rw [hc] at hcome
      cases hcome
    have hsub : ∀ a ∈ commonH r rel, a ∈ r.heading := by
      intro a ha
      simp only [commonH] at ha
      exact (List.mem_filter.mp ha).1
    have hv : ∀ a ∈ commonH r rel,
        Tup.get? (tupOfRow rel.heading prow) a =
          some ((Tup.get? (tupOfRow rel.heading prow) a).getD (Value.int 0)) := by
      intro a ha
      obtain ⟨v, hva⟩ := hpl a ha
      rw [hva]
      rfl
    obtain ⟨res, hres, hresmem⟩ := comFold_spec (m := m) hv
    have hall : ∀ i ∈ res.getD [], i < m.rows.length := by
      intro i hi
      obtain ⟨hne, hidxall⟩ := (hresmem i).mp hi
      rcases hc : commonH r rel with _ | ⟨a0, rest⟩
      · exact absurd hc hcne
      · have := hidxall a0 (by rw [hc]; exact List.mem_cons_self _ _)
        have ha0 := hsub a0 (by rw [hc]; exact List.mem_cons_self _ _)
        obtain ⟨h, _⟩ := (hw.hidx a0 ha0 _ i).mp this
        exact h
    obtain ⟨ts, hts, htsmem⟩ := mapME_getRows (H := r.heading) hall
    refine ⟨ts, ?_, ?_⟩
    · simp [scanWith, hcome, hbr, hbp]
      rw [hres]
      simp only [excBind_ok_eq]
      simp only [List.get?_eq_getElem?] at hts
      exact hts
    · intro t
      rw [htsmem t]
      constructor
      · rintro ⟨i, hi, h, rfl⟩
        refine ⟨m.rows.get ⟨i, h⟩, List.get_mem _ _ _, ?_, rfl⟩
        intro a ha
        obtain ⟨_, hidxall⟩ := (hresmem i).mp hi
        obtain ⟨h2, hcol⟩ := (hw.hidx a (hsub a ha) _ i).mp (hidxall a ha)
        rw [hv a ha, ← hcol]
      · rintro ⟨row, hrow, hagr, rfl⟩
        obtain ⟨⟨i, h⟩, hie⟩ := List.mem_iff_get.mp hrow
        refine ⟨i, ?_, h, by rw [hie]⟩
        apply (hresmem i).mpr
        refine ⟨hcne, ?_⟩
        intro a ha
        apply (hw.hidx a (hsub a ha) _ i).mpr
        refine ⟨h, ?_⟩
        rw [hie, hagr a ha]
        exact hv a ha
  · -- no common attribute: plain full scan of the target
    have hnil : commonH r rel = [] := by
      rcases hc : commonH r rel with _ | ⟨a, rest⟩
      · rfl
      · rw [hc] at hcome
        cases hcome
    refine ⟨m.rows.map (tupOfRow r.heading), ?_, ?_⟩
    · simp [scanWith, hcome, hbr]
    · intro t
      rw [List.mem_map]
      constructor
      · rintro ⟨row, hrow, rfl⟩
        refine ⟨row, hrow, ?_, rfl⟩
        intro a ha
        rw [hnil] at ha
        cases ha
      · rintro ⟨row, hrow, _, rfl⟩
        exact ⟨row, hrow, rfl⟩

/-! ## Helpers for the join characterization -/

theorem dictToTupleE_ok_of_keys {t : Tup} :
    ∀ {H : List Attr}, (∀ a ∈ H, ∃ v, Tup.get? t a = some v) →
    ∃ row, dictToTupleE H t = .ok row := by
  intro H
  induction H with
  | nil => intro _; exact ⟨[], rfl⟩
  | cons a as ih =>
    intro h
    obtain ⟨v, hv⟩ := h a (List.mem_cons_self _ _)
    obtain ⟨row, hrow⟩ := ih (fun b hb => h b (List.mem_cons.mpr (Or.inr hb)))
    refine ⟨v :: row, ?_⟩
    simp only [dictToTupleE, lookupE_of_get? hv, excBind_ok_eq, hrow]
    rfl

theorem get?_tupOfRow {H : List Attr} {row : Row} (hnd : H.Nodup)
    (hlen : row.length = H.length) (a : Attr) :
    Tup.get? (tupOfRow H row) a = colAt H row a := by
  rw [tupOfRow, Tup.get?_canon (wk_zip hnd hlen)]
  rfl

theorem singleton_of_nodup {A : Type} {l : List A} {x : A} (hnd : l.Nodup)
    (hx : x ∈ l) (hall : ∀ y ∈ l, y = x) : l = [x] := by
  cases l with
  | nil => cases hx
  | cons a as =>
    have ha : a = x := hall a (List.mem_cons_self _ _)
    subst ha
    cases as with
    | nil => rfl
    | cons b bs =>
      have hb : b = a := hall b (List.mem_cons.mpr (Or.inr (List.mem_cons_self _ _)))
      subst hb
      exact absurd (List.mem_cons_self _ _) (List.nodup_cons.mp hnd).1

theorem rowTags_eq {H : List Attr} {τ : Attr → Bool} {x : Row}
    (hlen : x.length = H.length)
    (h : ∀ j (hj : j < H.length) (hj2 : j < x.length),
      (x.get ⟨j, hj2⟩).tag = τ (H.get ⟨j, hj⟩)) :
    rowTags x = H.map τ := by
  apply List.ext_get
  · simp [rowTags, hlen]
  · intro j hj1 hj2
    have hjx : j < x.length := by simp [rowTags] at hj1; omega
    have hjH : j < H.length := by simp at hj2; omega
    simp only [rowTags, List.get_map]
    exact h j hjH hjx

theorem mkRelNC_ok_of_typed {H : List Attr} {Bs : List Row} (hnd : H.Nodup)
    (hlen : ∀ b ∈ Bs, b.length = H.length) (htyp : TypedRows Bs) :
    ∃ u, mkRelNC H Bs = .ok u := by
  have htyp2 : TypedRows (([] : List Row) ++ Bs) := by
    simpa using htyp
  obtain ⟨hne, _, _, _⟩ :=
    addLoopS_ok Bs { rows := [], idx := emptyIdx } (wfm_empty hnd) hlen htyp2
  refine ⟨{ heading := H, body := RBody.mat (addLoopS H { rows := [], idx := emptyIdx } Bs).1, cdefs := defaultCdefs, mapToOrig := [] }, ?_⟩
  simp only [mkRelNC, validateHeadingE, if_pos hnd, hne]
  rfl

/-- `relType` construction in the AND/OR/MINUS loops: for a conformant
driver tuple it succeeds and produces the one-row probe relation. -/
theorem relTypeOf_ok {H1 : List Attr} {t1 : Tup} (hnd : H1.Nodup)
    (hcanon : Tup.IsCanon t1) (hkeys : ∀ a, a ∈ Tup.keys t1 ↔ a ∈ H1) :
    ∃ prow rt, relTypeOf H1 t1 = .ok rt ∧ dictToTupleE H1 t1 = .ok prow ∧
      rt.heading = H1 ∧ rt.mapToOrig = [] ∧
      ∃ pm, rt.body = RBody.mat pm ∧ pm.rows = [prow] ∧
      tupOfRow H1 prow = t1 := by
  obtain ⟨prow, hprow⟩ := dictToTupleE_ok_of_keys
    (fun a ha => Tup.get?_some_iff_mem_keys.mpr ((hkeys a).mpr ha))
  have hanyf : t1.any (fun p => !(H1.contains p.1)) = false := by
    rw [List.any_eq_false]
    intro p hp
    have : p.1 ∈ H1 := (hkeys p.1).mp (List.mem_map.mpr ⟨p, hp, rfl⟩)
    simp [containsB_iff, this]
  have hlenp : prow.length = H1.length := dictToTupleE_length hprow
  have htyp : TypedRows ([prow]) := by
    intro a ha b hb
    rw [List.mem_singleton.mp ha, List.mem_singleton.mp hb]
  obtain ⟨u, hu⟩ := mkRelNC_ok_of_typed hnd
    (fun b hb => by rw [List.mem_singleton.mp hb]; exact hlenp) htyp
  obtain ⟨huh, mu, hub, huwf, humem⟩ := mkRelNC_ok_mem hu
    (fun b hb => by rw [List.mem_singleton.mp hb]; exact hlenp)
  have hrows : mu.rows = [prow] := by
    apply singleton_of_nodup huwf.rnd
    · exact (humem prow).mpr (List.mem_singleton.mpr rfl)
    · intro y hy
      exact List.mem_singleton.mp ((humem y).mp hy)
  refine ⟨prow, u, ?_, hprow, huh, ?_, mu, hub, hrows,
    tupOfRow_dictToTupleE hnd hcanon hkeys hprow⟩
  · simp only [relTypeOf, hanyf, Bool.false_eq_true, if_false, hprow,
      excBind_ok_eq, hu]
  · obtain ⟨_, hu2⟩ := mkRelNC_ok_elim hu
    rw [hu2]

theorem filterME_ok {p : Tup → Except Err Bool} {pb : Tup → Bool} :
    ∀ {ts : List Tup}, (∀ t ∈ ts, p t = .ok (pb t)) →
    filterME p ts = .ok (ts.filter pb) := by
  intro ts
  induction ts with
  | nil => intro _; rfl
  | cons t ts ih =>
    intro h
    have hpt : p t = .ok (pb t) := h t (List.mem_cons_self _ _)
    simp only [filterME, hpt, excBind_ok_eq,
      ih (fun s hs => h s (List.mem_cons.mpr (Or.inr hs))), List.filter_cons]
    rcases hb : pb t with _ | _
    · rfl
    · rfl

theorem joinFilter_ok {com : List Attr} {pt tup : Tup}
    (h1 : ∀ a ∈ com, ∃ v, Tup.get? pt a = some v)
    (h2 : ∀ a ∈ com, ∃ v, Tup.get? tup a = some v) :
    joinFilter com pt tup =
      .ok (decide (∀ a ∈ com, Tup.get? tup a = Tup.get? pt a)) := by
  induction com with
  | nil => rfl
  | cons a as ih =>
    obtain ⟨v1, hv1⟩ := h1 a (List.mem_cons_self _ _)
    obtain ⟨v2, hv2⟩ := h2 a (List.mem_cons_self _ _)
    have ih2 := ih (fun b hb => h1 b (List.mem_cons.mpr (Or.inr hb)))
      (fun b hb => h2 b (List.mem_cons.mpr (Or.inr hb)))
    simp only [joinFilter] at ih2 ⊢
    simp only [List.allM, lookupE_of_get? hv1, lookupE_of_get? hv2,
      excBind_ok_eq, excPure_bind_eq]
    rcases hvv : decide (v1 = v2) with _ | _
    · have hne : v1 ≠ v2 := of_decide_eq_false hvv
      have hfls : (decide (∀ b ∈ a :: as, Tup.get? tup b = Tup.get? pt b)) = false := by
        rw [decide_eq_false_iff_not]
        intro hc
        have := hc a (List.mem_cons_self _ _)
        rw [hv1, hv2] at this
        exact hne (Option.some_inj.mp this).symm
      rw [hfls]
      rfl
    · have hev : v1 = v2 := of_decide_eq_true hvv
      subst hev
      rw [ih2]
      have heq : (decide (∀ b ∈ a :: as, Tup.get? tup b = Tup.get? pt b)) =
          (decide (∀ b ∈ as, Tup.get? tup b = Tup.get? pt b)) := by
        rcases hd : decide (∀ b ∈ as, Tup.get? tup b = Tup.get? pt b) with _ | _
        · rw [decide_eq_false_iff_not]
          intro hc
          exact (of_decide_eq_false hd)
            (fun b hb => hc b (List.mem_cons.mpr (Or.inr hb)))
        · rw [decide_eq_true_eq]
          intro b hb
          rcases List.mem_cons.mp hb with hb | hb
          · subst hb
            rw [hv1, hv2]
          · exact of_decide_eq_true hd b hb
      rw [heq]

/-- The probe scan of a zero-argument computed target: evaluate the view
and keep the tuples agreeing with the probe on the common attributes. -/
theorem scanWith_comp0 {r rel : Relation} {f : Unit → Except Err (List Tup)}
    {pm : MatB} {prow : Row} {ts0 : List Tup}
    (hbr : r.body = RBody.comp0 f)
    (hbp : rel.body = RBody.mat pm) (hpr : pm.rows = [prow])
    (hf : f () = .ok ts0)
    (hcov : ∀ t ∈ ts0, ∀ a ∈ commonH r rel, ∃ v, Tup.get? t a = some v)
    (hpl : ∀ a ∈ commonH r rel, ∃ v, Tup.get? (tupOfRow rel.heading prow) a = some v) :
    ∃ ts, scanWith r rel = .ok ts ∧
      ∀ t, t ∈ ts ↔ t ∈ ts0 ∧
        (∀ a ∈ commonH r rel,
          Tup.get? t a = Tup.get? (tupOfRow rel.heading prow) a) := by
  obtain ⟨pmrows, pmidx⟩ := pm
  simp only at hpr
  subst hpr
  rcases hcome : (commonH r rel).isEmpty with _ | _
  · -- indexed (filtering) branch
    have hflt : filterME (joinFilter (commonH r rel) (tupOfRow rel.heading prow)) ts0 =
        .ok (ts0.filter (fun t =>
          decide (∀ a ∈ commonH r rel,
            Tup.get? t a = Tup.get? (tupOfRow rel.heading prow) a))) := by
      apply filterME_ok
      intro t ht
      exact joinFilter_ok hpl (hcov t ht)
    refine ⟨ts0.filter (fun t =>
        decide (∀ a ∈ commonH r rel,
          Tup.get? t a = Tup.get? (tupOfRow rel.heading prow) a)), ?_, ?_⟩
    · simp [scanWith, hcome, hbr, hbp]
      rw [hf]
      simp only [excBind_ok_eq]
      exact hflt
    · intro t
      rw [List.mem_filter]
      rw [decide_eq_true_eq]
  · -- no common attribute: the full view
    refine ⟨ts0, ?_, ?_⟩
    · simp [scanWith, hcome, hbr]
      exact hf
    · intro t
      have hnil : commonH r rel = [] := by
        rcases hc : commonH r rel with _ | ⟨a, rest⟩
        · rfl
        · rw [hc] at hcome
          cases hcome
      constructor
      · intro ht
        refine ⟨ht, ?_⟩
        intro a ha
        rw [hnil] at ha
        cases ha
      · exact fun h => h.1

/-- The inner probe of the AND/MINUS loops against a materialized target,
with the probe-relation plumbing resolved: the probe tuple `t1` itself
plays the role of the single probe row. -/
theorem probe_mat {r2 : Relation} {m2 : MatB} {H1 : List Attr} {t1 : Tup}
    (hb2 : r2.body = RBody.mat m2) (hw2 : WFm r2.heading m2)
    (hnd1 : H1.Nodup) (hcanon : Tup.IsCanon t1)
    (hkeys : ∀ a, a ∈ Tup.keys t1 ↔ a ∈ H1) :
    ∃ rt, relTypeOf H1 t1 = .ok rt ∧
    ∃ ts, scanWith r2 rt = .ok ts ∧
      ∀ t, t ∈ ts ↔ t ∈ m2.rows.map (tupOfRow r2.heading) ∧
        ∀ a, a ∈ r2.heading → a ∈ H1 → Tup.get? t a = Tup.get? t1 a := by
  obtain ⟨prow, rt, hrt, hd, hrh, hmo, pm, hpb, hpr, hround⟩ :=
    relTypeOf_ok hnd1 hcanon hkeys
  have hcom : ∀ a, a ∈ commonH r2 rt ↔ (a ∈ r2.heading ∧ a ∈ H1) := by
    intro a
    simp only [commonH, List.mem_filter]
    rw [hrh, containsB_iff]
  have hreltup : tupOfRow rt.heading prow = t1 := by
    rw [hrh, hround]
  have hpl : ∀ a ∈ commonH r2 rt, ∃ v,
      Tup.get? (tupOfRow rt.heading prow) a = some v := by
    intro a ha
    rw [hreltup]
    exact Tup.get?_some_iff_mem_keys.mpr ((hkeys a).mpr ((hcom a).mp ha).2)
  obtain ⟨ts, hts, htsmem⟩ := scanWith_mat hb2 hw2 hpb hpr hpl
  refine ⟨rt, hrt, ts, hts, ?_⟩
  intro t
  rw [htsmem t]
  constructor
  · rintro ⟨row, hrow, hagr, rfl⟩
    refine ⟨List.mem_map.mpr ⟨row, hrow, rfl⟩, ?_⟩
    intro a ha2 ha1
    have hacol := hagr a ((hcom a).mpr ⟨ha2, ha1⟩)
    rw [hreltup] at hacol
    rw [get?_tupOfRow hw2.hnd (hw2.rlen row hrow) a, hacol]
  · rintro ⟨hmem, hagr⟩
    obtain ⟨row, hrow, rfl⟩ := List.mem_map.mp hmem
    refine ⟨row, hrow, ?_, rfl⟩
    intro a ha
    obtain ⟨ha2, ha1⟩ := (hcom a).mp ha
    rw [hreltup]
    rw [← get?_tupOfRow hw2.hnd (hw2.rlen row hrow) a]
    exact hagr a ha2 ha1

/-- The same probe against a zero-argument computed target. -/
theorem probe_comp0 {r2 : Relation} {f : Unit → Except Err (List Tup)}
    {ts0 : List Tup} {H1 : List Attr} {t1 : Tup}
    (hb2 : r2.body = RBody.comp0 f) (hf : f () = .ok ts0)
    (hkeys2 : ∀ t ∈ ts0, ∀ a, a ∈ Tup.keys t ↔ a ∈ r2.heading)
    (hnd1 : H1.Nodup) (hcanon : Tup.IsCanon t1)
    (hkeys : ∀ a, a ∈ Tup.keys t1 ↔ a ∈ H1) :
    ∃ rt, relTypeOf H1 t1 = .ok rt ∧
    ∃ ts, scanWith r2 rt = .ok ts ∧
      ∀ t, t ∈ ts ↔ t ∈ ts0 ∧
        ∀ a, a ∈ r2.heading → a ∈ H1 → Tup.get? t a = Tup.get? t1 a := by
  obtain ⟨prow, rt, hrt, hd, hrh, hmo, pm, hpb, hpr, hround⟩ :=
    relTypeOf_ok hnd1 hcanon hkeys
  have hcom : ∀ a, a ∈ commonH r2 rt ↔ (a ∈ r2.heading ∧ a ∈ H1) := by
    intro a
    simp only [commonH, List.mem_filter]
    rw [hrh, containsB_iff]
  have hreltup : tupOfRow rt.heading prow = t1 := by
    rw [hrh, hround]
  have hpl : ∀ a ∈ commonH r2 rt, ∃ v,
      Tup.get? (tupOfRow rt.heading prow) a = some v := by
    intro a ha
    rw [hreltup]
    exact Tup.get?_some_iff_mem_keys.mpr ((hkeys a).mpr ((hcom a).mp ha).2)
  have hcov : ∀ t ∈ ts0, ∀ a ∈ commonH r2 rt, ∃ v, Tup.get? t a = some v := by
    intro t ht a ha
    exact Tup.get?_some_iff_mem_keys.mpr
      ((hkeys2 t ht a).mpr ((hcom a).mp ha).1)
  obtain ⟨ts, hts, htsmem⟩ := scanWith_comp0 hb2 hpb hpr hf hcov hpl
  refine ⟨rt, hrt, ts, hts, ?_⟩
  intro t
  rw [htsmem t]
  constructor
  · rintro ⟨ht0, hagr⟩
    refine ⟨ht0, ?_⟩
    intro a ha2 ha1
    have := hagr a ((hcom a).mpr ⟨ha2, ha1⟩)
    rw [hreltup] at this
    exact this
  · rintro ⟨ht0, hagr⟩
    refine ⟨ht0, ?_⟩
    intro a ha
    obtain ⟨ha2, ha1⟩ := (hcom a).mp ha
    rw [hreltup]
    exact hagr a ha2 ha1

/-- The inner merge loop of `AND`: the in-place `tr1.update(tr2)` carries
over between iterations, but because every probed tuple covers the same
attribute set, each emitted row is exactly `dictToTuple(Hs, t1 ∪ t2)`. -/
theorem andInner {Hs H1 H2 : List Attr} {t1 : Tup}
    (hk1 : ∀ a, a ∈ Tup.keys t1 ↔ a ∈ H1) (hwk1 : Tup.WK t1)
    (hSs : ∀ a, a ∈ Hs ↔ a ∈ H1 ∨ a ∈ H2) :
    ∀ (ts2 : List Tup), (∀ t ∈ ts2, (∀ a, a ∈ Tup.keys t ↔ a ∈ H2) ∧ Tup.WK t) →
    ∀ (cur : Tup) (acc : List Row),
    (cur = t1 ∨ ∃ tp, (∀ a, a ∈ Tup.keys tp ↔ a ∈ H2) ∧ Tup.WK tp ∧
      cur = Tup.update t1 tp) →
    ∃ st : Tup × List Row,
      ts2.foldlM
        (fun (st : Tup × List Row) t2 => do
          let cur := Tup.update st.1 t2
          let row ← dictToTupleE Hs cur
          pure (cur, st.2 ++ [row]))
        (cur, acc) = .ok st ∧
      (∀ x, x ∈ st.2 ↔ x ∈ acc ∨ ∃ t2 ∈ ts2,
        dictToTupleE Hs (Tup.update t1 t2) = .ok x) := by
  intro ts2
  induction ts2 with
  | nil =>
    intro _ cur acc _
    refine ⟨(cur, acc), rfl, ?_⟩
    intro x
    simp
  | cons t2 rest ih =>
    intro hts2 cur acc hinv
    have hk2 := (hts2 t2 (List.mem_cons_self _ _)).1
    have hwk2 := (hts2 t2 (List.mem_cons_self _ _)).2
    have hcur2 : Tup.update cur t2 = Tup.update t1 t2 := by
      rcases hinv with rfl | ⟨tp, hktp, hwktp, rfl⟩
      · rfl
      · exact Tup.update_absorb hwk1 hwktp hwk2
          (fun a => by rw [hktp a, hk2 a])
    obtain ⟨row0, hrow0⟩ := dictToTupleE_ok_of_keys (t := Tup.update t1 t2)
      (H := Hs) (by
        intro a ha
        apply Tup.get?_some_iff_mem_keys.mpr
        rw [Tup.mem_keys_update hwk1 hwk2]
        rcases (hSs a).mp ha with h | h
        · exact Or.inr ((hk1 a).mpr h)
        · exact Or.inl ((hk2 a).mpr h))
    obtain ⟨st, hst, hmem⟩ := ih
      (fun t ht => hts2 t (List.mem_cons.mpr (Or.inr ht)))
      (Tup.update t1 t2) (acc ++ [row0])
      (Or.inr ⟨t2, hk2, hwk2, rfl⟩)
    refine ⟨st, ?_, ?_⟩
    · simp only [List.foldlM_cons]
      rw [hcur2, hrow0]
      simp only [excBind_ok_eq, excPure_bind_eq]
      exact hst
    · intro x
      rw [hmem x, List.mem_append, List.mem_singleton]
      constructor
      · rintro ((hx | rfl) | ⟨t2', ht2', hd⟩)
        · exact Or.inl hx
        · exact Or.inr ⟨t2, List.mem_cons_self _ _, hrow0⟩
        · exact Or.inr ⟨t2', List.mem_cons.mpr (Or.inr ht2'), hd⟩
      · rintro (hx | ⟨t2', ht2', hd⟩)
        · exact Or.inl (Or.inl hx)
        · rcases List.mem_cons.mp ht2' with rfl | ht2'
          · rw [hrow0] at hd
            injection hd with hd
            exact Or.inl (Or.inr hd.symm)
          · exact Or.inr ⟨t2', ht2', hd⟩

/-- The outer drive loop of `AND`: every conformant driver tuple is joined
against the probe result, emitting one merged row per matching pair. -/
theorem andOuter {r1 r2 : Relation} {ts2full : List Tup}
    (hk2 : ∀ t ∈ ts2full, (∀ a, a ∈ Tup.keys t ↔ a ∈ r2.heading) ∧ Tup.WK t)
    (hprobe : ∀ t1, Tup.IsCanon t1 → (∀ a, a ∈ Tup.keys t1 ↔ a ∈ r1.heading) →
      ∃ rt, relTypeOf r1.heading t1 = .ok rt ∧
      ∃ ts, scanWith r2 rt = .ok ts ∧
        ∀ t, t ∈ ts ↔ t ∈ ts2full ∧
          ∀ a, a ∈ r2.heading → a ∈ r1.heading →
            Tup.get? t a = Tup.get? t1 a) :
    ∀ (ts1 : List Tup),
    (∀ t ∈ ts1, Tup.IsCanon t ∧ (∀ a, a ∈ Tup.keys t ↔ a ∈ r1.heading)) →
    ∀ (acc : List Row),
    ∃ Bs, ts1.foldlM
        (fun (acc : List Row) t1 => do
          let relType ← relTypeOf r1.heading t1
          let ts2 ← scanWith r2 relType
          let st ← ts2.foldlM
            (fun (st : Tup × List Row) t2 => do
              let cur := Tup.update st.1 t2
              let row ← dictToTupleE (unionH r1.heading r2.heading) cur
              pure (cur, st.2 ++ [row]))
            (t1, acc)
          pure st.2)
        acc = .ok Bs ∧
      ∀ x, x ∈ Bs ↔ x ∈ acc ∨ ∃ t1 ∈ ts1, ∃ t2 ∈ ts2full,
        (∀ a, a ∈ r2.heading → a ∈ r1.heading →
          Tup.get? t2 a = Tup.get? t1 a) ∧
        dictToTupleE (unionH r1.heading r2.heading) (Tup.update t1 t2) = .ok x := by
  intro ts1
  induction ts1 with
  | nil =>
    intro _ acc
    refine ⟨acc, rfl, ?_⟩
    intro x
    simp
  | cons t1 rest ih =>
    intro hts1 acc
    obtain ⟨hcanon1, hkeys1⟩ := hts1 t1 (List.mem_cons_self _ _)
    obtain ⟨rt, hrt, ts, hts, htsmem⟩ := hprobe t1 hcanon1 hkeys1
    obtain ⟨st, hstf, hstmem⟩ := andInner hkeys1 hcanon1.wk
      (fun a => mem_unionH a) ts
      (fun t ht => hk2 t ((htsmem t).mp ht).1)
      t1 acc (Or.inl rfl)
    obtain ⟨Bs, hBs, hBsmem⟩ :=
      ih (fun t ht => hts1 t (List.mem_cons.mpr (Or.inr ht))) st.2
    refine ⟨Bs, ?_, ?_⟩
    · simp only [List.foldlM_cons]
      rw [hrt]
      simp only [excBind_ok_eq]
      rw [hts]
      simp only [excBind_ok_eq]
      rw [hstf]
      simp only [excBind_ok_eq, excPure_bind_eq]
      exact hBs
    · intro x
      rw [hBsmem x]
      constructor
      · rintro (hin | ⟨t1', ht1', t2', ht2', hagr, hd⟩)
        · rcases (hstmem x).mp hin with hacc | ⟨t2, ht2, hd⟩
          · exact Or.inl hacc
          · obtain ⟨ht2f, hagr⟩ := (htsmem t2).mp ht2
            exact Or.inr ⟨t1, List.mem_cons_self _ _, t2, ht2f, hagr, hd⟩
        · exact Or.inr ⟨t1', List.mem_cons.mpr (Or.inr ht1'), t2', ht2', hagr, hd⟩
      · rintro (hacc | ⟨t1', ht1', t2', ht2', hagr, hd⟩)
        · exact Or.inl ((hstmem x).mpr (Or.inl hacc))
        · rcases List.mem_cons.mp ht1' with rfl | ht1'
          · exact Or.inl ((hstmem x).mpr
              (Or.inr ⟨t2', (htsmem t2').mpr ⟨ht2', hagr⟩, hd⟩))
          · exact Or.inr ⟨t1', ht1', t2', ht2', hagr, hd⟩

/-- Full characterization of the AND drive/probe loop: it succeeds on
conformant operands, and the tuples of its result are exactly the merges
`t1 ∪ t2` of pairs agreeing on every common attribute (the probed side's
value winning ties that the agreement makes equal anyway). -/
theorem andLoop_spec {r1 r2 : Relation} {ts1 ts2full : List Tup}
    {τ1 τ2 : Attr → Bool}
    (hnd1 : r1.heading.Nodup) (hnd2 : r2.heading.Nodup)
    (hs1 : scanAll r1 = .ok ts1)
    (hconf1 : ∀ t ∈ ts1, Tup.IsCanon t ∧ (∀ a, a ∈ Tup.keys t ↔ a ∈ r1.heading))
    (htag1 : ∀ t ∈ ts1, ∀ a v, Tup.get? t a = some v → v.tag = τ1 a)
    (hk2 : ∀ t ∈ ts2full, (∀ a, a ∈ Tup.keys t ↔ a ∈ r2.heading) ∧ Tup.WK t)
    (htag2 : ∀ t ∈ ts2full, ∀ a v, Tup.get? t a = some v → v.tag = τ2 a)
    (hprobe : ∀ t1, Tup.IsCanon t1 → (∀ a, a ∈ Tup.keys t1 ↔ a ∈ r1.heading) →
      ∃ rt, relTypeOf r1.heading t1 = .ok rt ∧
      ∃ ts, scanWith r2 rt = .ok ts ∧
        ∀ t, t ∈ ts ↔ t ∈ ts2full ∧
          ∀ a, a ∈ r2.heading → a ∈ r1.heading →
            Tup.get? t a = Tup.get? t1 a) :
    ∃ u, andLoop r1 r2 = .ok u ∧
      u.heading = unionH r1.heading r2.heading ∧
      ∃ mu, u.body = RBody.mat mu ∧ WFm u.heading mu ∧
      (∀ t, t ∈ mu.rows.map (tupOfRow u.heading) ↔
        ∃ t1 ∈ ts1, ∃ t2 ∈ ts2full,
          (∀ a, a ∈ r2.heading → a ∈ r1.heading →
            Tup.get? t2 a = Tup.get? t1 a) ∧
          t = Tup.update t1 t2) := by
  have hndS : (unionH r1.heading r2.heading).Nodup := nodup_unionH hnd1 hnd2
  obtain ⟨Bs, hBs, hBsmem⟩ := andOuter hk2 hprobe ts1 hconf1 []
  have hBsmem2 : ∀ x, x ∈ Bs ↔ ∃ t1 ∈ ts1, ∃ t2 ∈ ts2full,
      (∀ a, a ∈ r2.heading → a ∈ r1.heading →
        Tup.get? t2 a = Tup.get? t1 a) ∧
      dictToTupleE (unionH r1.heading r2.heading) (Tup.update t1 t2) = .ok x := by
    intro x
    rw [hBsmem x]
    simp
  have hlenB : ∀ b ∈ Bs, b.length = (unionH r1.heading r2.heading).length := by
    intro b hb
    obtain ⟨_, _, _, _, _, hd⟩ := (hBsmem2 b).mp hb
    exact dictToTupleE_length hd
  have hkeysU : ∀ t1 ∈ ts1, ∀ t2 ∈ ts2full, ∀ a,
      a ∈ Tup.keys (Tup.update t1 t2) ↔ a ∈ unionH r1.heading r2.heading := by
    intro t1 ht1 t2 ht2 a
    rw [Tup.mem_keys_update (hconf1 t1 ht1).1.wk (hk2 t2 ht2).2, mem_unionH]
    rw [(hconf1 t1 ht1).2 a, (hk2 t2 ht2).1 a]
    exact Or.comm
  have htagB : ∀ b ∈ Bs, rowTags b =
      (unionH r1.heading r2.heading).map
        (fun a => if a ∈ r2.heading then τ2 a else τ1 a) := by
    intro b hb
    obtain ⟨t1, ht1, t2, ht2, _, hd⟩ := (hBsmem2 b).mp hb
    apply rowTags_eq (dictToTupleE_length hd)
    intro j hj hj2
    have hget := dictToTupleE_get hd j hj hj2
    set a := (unionH r1.heading r2.heading).get ⟨j, hj⟩ with ha
    have hup := Tup.get?_update (hconf1 t1 ht1).1.wk (hk2 t2 ht2).2 a
    by_cases h2 : a ∈ r2.heading
    · obtain ⟨v2, hv2⟩ := Tup.get?_some_iff_mem_keys.mpr (((hk2 t2 ht2).1 a).mpr h2)
      rw [hget, hv2] at hup
      have hbv : (some (b.get ⟨j, hj2⟩) : Option Value) = some v2 := hup
      rw [if_pos h2, Option.some_inj.mp hbv]
      exact htag2 t2 ht2 a v2 hv2
    · have hv2 : Tup.get? t2 a = none := by
        apply Tup.get?_eq_none_iff.mpr
        intro hc
        exact h2 (((hk2 t2 ht2).1 a).mp hc)
      rw [hget, hv2] at hup
      have hv1 : Tup.get? t1 a = some (b.get ⟨j, hj2⟩) := by
        have h3 : (none : Option Value).or (Tup.get? t1 a) = Tup.get? t1 a :=
          Option.none_or
        rw [← h3]
        exact hup.symm
      rw [if_neg h2]
      exact htag1 t1 ht1 a _ hv1
  have htypB : TypedRows Bs := by
    intro x hx y hy
    rw [htagB x hx, htagB y hy]
  obtain ⟨u, hu⟩ := mkRelNC_ok_of_typed hndS hlenB htypB
  obtain ⟨huh, mu, hub, huwf, humem⟩ := mkRelNC_ok_mem hu hlenB
  refine ⟨u, ?_, huh, mu, hub, by rw [huh]; exact huwf, ?_⟩
  · simp only [andLoop]
    rw [hs1]
    simp only [excBind_ok_eq]
    rw [hBs]
    simp only [excBind_ok_eq]
    exact hu
  · intro t
    rw [huh, List.mem_map]
    constructor
    · rintro ⟨x, hx, rfl⟩
      obtain ⟨t1, ht1, t2, ht2, hagr, hd⟩ := (hBsmem2 x).mp ((humem x).mp hx)
      refine ⟨t1, ht1, t2, ht2, hagr, ?_⟩
      exact tupOfRow_dictToTupleE hndS
        (Tup.isCanon_update (hconf1 t1 ht1).1.wk (hk2 t2 ht2).2)
        (hkeysU t1 ht1 t2 ht2) hd
    · rintro ⟨t1, ht1, t2, ht2, hagr, rfl⟩
      obtain ⟨x, hx⟩ := dictToTupleE_ok_of_keys (t := Tup.update t1 t2)
        (H := unionH r1.heading r2.heading)
        (fun a ha => Tup.get?_some_iff_mem_keys.mpr
          ((hkeysU t1 ht1 t2 ht2 a).mpr ha))
      refine ⟨x, (humem x).mpr ((hBsmem2 x).mpr ⟨t1, ht1, t2, ht2, hagr, hx⟩), ?_⟩
      exact tupOfRow_dictToTupleE hndS
        (Tup.isCanon_update (hconf1 t1 ht1).1.wk (hk2 t2 ht2).2)
        (hkeysU t1 ht1 t2 ht2) hx

/-! ## Conformance of materialized relations, and the shape of AND results -/

theorem matConf {H : List Attr} {m : MatB} (hw : WFm H m) :
    ∀ t ∈ m.rows.map (tupOfRow H),
      Tup.IsCanon t ∧ (∀ a, a ∈ Tup.keys t ↔ a ∈ H) := by
  intro t ht
  obtain ⟨row, hrow, rfl⟩ := List.mem_map.mp ht
  exact ⟨Tup.isCanon_canon (wk_zip hw.hnd (hw.rlen row hrow)),
    fun a => mem_keys_tupOfRow (hw.rlen row hrow) a⟩

theorem matTags {H : List Attr} {m : MatB} (hw : WFm H m)
    (hty : TypedRows m.rows) :
    ∃ τ : Attr → Bool, ∀ t ∈ m.rows.map (tupOfRow H),
      ∀ a v, Tup.get? t a = some v → v.tag = τ a := by
  rcases hrows : m.rows with _ | ⟨r0, rest⟩
  · refine ⟨fun _ => true, ?_⟩
    intro t ht
    simp at ht
  · refine ⟨fun a => ((colAt H r0 a).map Value.tag).getD true, ?_⟩
    intro t ht a v hv
    obtain ⟨row, hrow, rfl⟩ := List.mem_map.mp ht
    have hrow2 : row ∈ m.rows := by rw [hrows]; exact hrow
    have hlr : row.length = H.length := hw.rlen row hrow2
    rw [get?_tupOfRow hw.hnd hlr a] at hv
    obtain ⟨⟨k, hk⟩, hkz⟩ := List.mem_iff_get.mp
      (Tup.mem_of_get?_eq_some hv)
    have hlenz : (H.zip row).length = H.length := length_zip_eq hlr
    have hkH : k < H.length := by omega
    have hkr : k < row.length := by omega
    have hget := @List.get_zip _ _ H row ⟨k, hk⟩
    rw [hkz] at hget
    have haH : a = H.get ⟨k, hkH⟩ := by
      have := congrArg Prod.fst hget
      simpa using this
    have hvr : v = row.get ⟨k, hkr⟩ := by
      have := congrArg Prod.snd hget
      simpa using this
    have hr0 : r0 ∈ m.rows := by rw [hrows]; exact List.mem_cons_self _ _
    have hl0 : r0.length = H.length := hw.rlen r0 hr0
    have hk0 : k < r0.length := by omega
    have hcol0 : colAt H r0 a = some (r0.get ⟨k, hk0⟩) := by
      rw [haH]
      exact colAt_get hw.hnd hl0 k hkH
    show v.tag = ((colAt H r0 a).map Value.tag).getD true
    rw [hcol0]
    show v.tag = (r0.get ⟨k, hk0⟩).tag
    rw [hvr]
    have htags : rowTags row = rowTags r0 := hty row hrow2 r0 hr0
    have hkrt : k < (rowTags row).length := by simpa [rowTags] using hkr
    have hk0t : k < (rowTags r0).length := by simpa [rowTags] using hk0
    have h5 := get_congr_list htags hkrt hk0t
    simpa [rowTags, List.get_map] using h5

/-! ## The shape of any successfully constructed operator result -/

theorem typeCheckRow_none_tags {first row : Row}
    (hlen : row.length = first.length)
    (h : typeCheckRow first row = none) : rowTags first = rowTags row := by
  rw [typeCheckRow, List.findSome?_eq_none_iff] at h
  apply List.ext_get (by simp [rowTags, hlen])
  intro j hj1 hj2
  have hjf : j < first.length := by simpa [rowTags] using hj1
  have hjr : j < row.length := by simpa [rowTags] using hj2
  have h2 := h j (List.mem_range.mpr hjf)
  have hf : first.get? j = some (first.get ⟨j, hjf⟩) := List.get?_eq_get hjf
  have hr : row.get? j = some (row.get ⟨j, hjr⟩) := List.get?_eq_get hjr
  rw [hf, hr] at h2
  by_cases htag : (row.get ⟨j, hjr⟩).tag = (first.get ⟨j, hjf⟩).tag
  · simp only [rowTags, List.get_map]
    exact htag.symm
  · have htag2 : ¬row[j].tag = first[j].tag := by
      simpa [List.get_eq_getElem] using htag
    exact absurd h2 (by simp [htag2])

theorem typedRows_of_tags {l : List Row} {L : List Bool}
    (h : ∀ x ∈ l, rowTags x = L) : TypedRows l := by
  intro r1 h1 r2 h2
  rw [h r1 h1, h r2 h2]

/-- `_addToBody`'s per-row `isinstance` gate keeps the stored rows
uniformly typed and of uniform length, with or without an error. -/
theorem addRowRaw_len_typed {H : List Attr} {m : MatB} {b : Row} {n : ℕ}
    (hbl : b.length = n) (hl : ∀ r ∈ m.rows, r.length = n)
    (hok : TypedRows (m.rows ++ [b])) :
    (∀ r ∈ (addRowRaw H m b).rows, r.length = n) ∧
    TypedRows (addRowRaw H m b).rows := by
  rw [addRowRaw]
  by_cases hf : (hashfind H m b).length > 0
  · rw [if_pos hf]
    exact ⟨hl, typedRows_mono (fun x hx => List.mem_append.mpr (Or.inl hx)) hok⟩
  · rw [if_neg hf]
    refine ⟨?_, hok⟩
    intro r hr
    rcases List.mem_append.mp hr with hr | hr
    · exact hl r hr
    · rw [List.mem_singleton.mp hr]
      exact hbl

theorem add1_len_typed {H : List Attr} {m : MatB} {b : Row} {n : ℕ}
    (hbl : b.length = n) (hl : ∀ r ∈ m.rows, r.length = n)
    (ht : TypedRows m.rows) :
    (∀ r ∈ (add1 H m b).1.rows, r.length = n) ∧
    TypedRows (add1 H m b).1.rows := by
  rw [add1]
  rcases hh : m.rows.head? with _ | first
  · have hrows : m.rows = [] := by
      cases hrows : m.rows with
      | nil => rfl
      | cons x xs => rw [hrows] at hh; cases hh
    apply addRowRaw_len_typed hbl hl
    rw [hrows]
    intro r1 h1 r2 h2
    rw [List.mem_singleton.mp h1, List.mem_singleton.mp h2]
  · rcases htc : typeCheckRow first b with _ | e
    · simp only [htc]
      have hfm : first ∈ m.rows := mem_of_rows_head? hh
      have htags : rowTags first = rowTags b :=
        typeCheckRow_none_tags (by rw [hbl, hl first hfm]) htc
      apply addRowRaw_len_typed hbl hl
      intro r1 h1 r2 h2
      rcases List.mem_append.mp h1 with h1 | h1 <;>
        rcases List.mem_append.mp h2 with h2 | h2
      · exact ht r1 h1 r2 h2
      · rw [List.mem_singleton.mp h2, ← htags]
        exact ht r1 h1 first hfm
      · rw [List.mem_singleton.mp h1, ← htags]
        exact (ht r2 h2 first hfm).symm
      · rw [List.mem_singleton.mp h1, List.mem_singleton.mp h2]
    · simp only [htc]
      exact ⟨hl, ht⟩

theorem addLoopS_len_typed {H : List Attr} {n : ℕ} (batch : List Row) :
    ∀ m : MatB, (∀ b ∈ batch, b.length = n) → (∀ r ∈ m.rows, r.length = n) →
    TypedRows m.rows →
    (∀ r ∈ (addLoopS H m batch).1.rows, r.length = n) ∧
    TypedRows (addLoopS H m batch).1.rows := by
  induction batch with
  | nil => intro m _ hl ht; exact ⟨hl, ht⟩
  | cons b bs ih =>
    intro m hbl hl ht
    rw [addLoopS_cons_all]
    have hstep := add1_len_typed (H := H) (hbl b (List.mem_cons_self _ _)) hl ht
    rcases he : (add1 H m b).2 with _ | e
    · simp only
      exact ih (add1 H m b).1 (fun x hx => hbl x (List.mem_cons.mpr (Or.inr hx)))
        hstep.1 hstep.2
    · simp only
      exact hstep

theorem length_eq_of_nodup_mem {α : Type} [DecidableEq α] {l1 l2 : List α}
    (h1 : l1.Nodup) (h2 : l2.Nodup) (h : ∀ x, x ∈ l1 ↔ x ∈ l2) :
    l1.length = l2.length := by
  have hf : l1.toFinset = l2.toFinset := by
    apply Finset.ext
    intro a
    rw [List.mem_toFinset, List.mem_toFinset]
    exact h a
  rw [← List.toFinset_card_of_nodup h1, ← List.toFinset_card_of_nodup h2, hf]

theorem mem_iff_of_nodup_sub_len {α : Type} [DecidableEq α] {l1 l2 : List α}
    (h1 : l1.Nodup) (h2 : l2.Nodup) (hsub : ∀ x ∈ l1, x ∈ l2)
    (hlen : l1.length = l2.length) : ∀ x, x ∈ l1 ↔ x ∈ l2 := by
  have hfs : l1.toFinset ⊆ l2.toFinset := by
    intro a ha
    rw [List.mem_toFinset] at ha ⊢
    exact hsub a ha
  have hcard : l2.toFinset.card ≤ l1.toFinset.card := by
    rw [List.toFinset_card_of_nodup h1, List.toFinset_card_of_nodup h2, hlen]
  have hset := Finset.eq_of_subset_of_card_le hfs hcard
  intro x
  rw [← List.mem_toFinset, ← List.mem_toFinset (l := l2), ← hset]

theorem tuples_nodup {H : List Attr} {m : MatB} (hw : WFm H m) :
    (m.rows.map (tupOfRow H)).Nodup := by
  refine List.Nodup.map_on ?_ hw.rnd
  intro x hx y hy hxy
  exact tupOfRow_inj hw.hnd (hw.rlen x hx) (hw.rlen y hy) hxy

theorem mapME_ok_of_all {A B : Type} {f : A → Except Err B} :
    ∀ {xs : List A}, (∀ x ∈ xs, ∃ y, f x = .ok y) →
    ∃ ys, mapME f xs = .ok ys := by
  intro xs
  induction xs with
  | nil => intro _; exact ⟨[], rfl⟩
  | cons x xs ih =>
    intro h
    obtain ⟨y, hy⟩ := h x (List.mem_cons_self _ _)
    obtain ⟨ys, hys⟩ := ih (fun z hz => h z (List.mem_cons.mpr (Or.inr hz)))
    refine ⟨y :: ys, ?_⟩
    simp only [mapME, hy, excBind_ok_eq, hys]
    rfl

theorem andInner_len {Hs : List Attr} :
    ∀ (ts2 : List Tup) (cur : Tup) (acc : List Row) (st : Tup × List Row),
    ts2.foldlM
        (fun (st : Tup × List Row) t2 => do
          let cur := Tup.update st.1 t2
          let row ← dictToTupleE Hs cur
          pure (cur, st.2 ++ [row]))
        (cur, acc) = .ok st →
    ∀ x ∈ st.2, x ∈ acc ∨ x.length = Hs.length := by
  intro ts2
  induction ts2 with
  | nil =>
    intro cur acc st h x hx
    have h2 : Except.ok (cur, acc) = Except.ok st := h
    injection h2 with h2
    rw [← h2] at hx
    exact Or.inl hx
  | cons t2 rest ih =>
    intro cur acc st h x hx
    simp only [List.foldlM_cons] at h
    obtain ⟨s1, hs1, hrest⟩ := exceptBind_ok h
    obtain ⟨row, hrow, hs2⟩ := exceptBind_ok hs1
    have hs3 : Except.ok (Tup.update cur t2, acc ++ [row]) = Except.ok s1 := hs2
    injection hs3 with hs3
    rw [← hs3] at hrest
    rcases ih (Tup.update cur t2) (acc ++ [row]) st hrest x hx with hin | hl
    · rcases List.mem_append.mp hin with hin2 | hin2
      · exact Or.inl hin2
      · rw [List.mem_singleton.mp hin2]
        exact Or.inr (dictToTupleE_length hrow)
    · exact Or.inr hl

theorem andOuter_len {r1 r2 : Relation} :
    ∀ (ts1 : List Tup) (acc Bs : List Row),
    ts1.foldlM
        (fun (acc : List Row) t1 => do
          let relType ← relTypeOf r1.heading t1
          let ts2 ← scanWith r2 relType
          let st ← ts2.foldlM
            (fun (st : Tup × List Row) t2 => do
              let cur := Tup.update st.1 t2
              let row ← dictToTupleE (unionH r1.heading r2.heading) cur
              pure (cur, st.2 ++ [row]))
            (t1, acc)
          pure st.2)
        acc = .ok Bs →
    ∀ x ∈ Bs, x ∈ acc ∨ x.length = (unionH r1.heading r2.heading).length := by
  intro ts1
  induction ts1 with
  | nil =>
    intro acc Bs h x hx
    have h2 : Except.ok acc = Except.ok Bs := h
    injection h2 with h2
    rw [← h2] at hx
    exact Or.inl hx
  | cons t1 rest ih =>
    intro acc Bs h x hx
    simp only [List.foldlM_cons] at h
    obtain ⟨acc1, hstep, hrest⟩ := exceptBind_ok h
    obtain ⟨rt, hrt, hs2⟩ := exceptBind_ok hstep
    obtain ⟨ts2, hts2, hs3⟩ := exceptBind_ok hs2
    obtain ⟨st, hst, hs4⟩ := exceptBind_ok hs3
    have hs5 : Except.ok st.2 = Except.ok acc1 := hs4
    injection hs5 with hs5
    rw [← hs5] at hrest
    rcases ih st.2 Bs hrest x hx with hin | hl
    · rcases andInner_len ts2 t1 acc st hst x hin with hin2 | hl2
      · exact Or.inl hin2
      · exact Or.inr hl2
    · exact Or.inr hl

/-- Whatever the operands were, a successful run of the AND drive/probe
loop yields a well-formed, uniformly typed materialized relation over the
union heading with the default constraints. -/
theorem andLoop_ok_shape {r1 r2 u : Relation} (h : andLoop r1 r2 = .ok u) :
    u.heading = unionH r1.heading r2.heading ∧
    u.cdefs = defaultCdefs ∧ u.heading.Nodup ∧
    ∃ mu, u.body = RBody.mat mu ∧ WFm u.heading mu ∧ TypedRows mu.rows := by
  simp only [andLoop] at h
  obtain ⟨ts1, hts1, h2⟩ := exceptBind_ok h
  obtain ⟨Bs, hBs, h3⟩ := exceptBind_ok h2
  obtain ⟨hnd, hu⟩ := mkRelNC_ok_elim h3
  have hlen : ∀ b ∈ Bs, b.length = (unionH r1.heading r2.heading).length := by
    intro b hb
    rcases andOuter_len ts1 [] Bs hBs b hb with hin | hl
    · cases hin
    · exact hl
  have hwf := wf_addLoopS Bs { rows := [], idx := emptyIdx } (wfm_empty hnd) hlen
  have hlt := addLoopS_len_typed (H := unionH r1.heading r2.heading) Bs
    { rows := [], idx := emptyIdx } hlen
    (fun r hr => absurd hr (List.not_mem_nil r))
    (fun r hr => absurd hr (List.not_mem_nil r))
  rw [hu]
  exact ⟨rfl, rfl, hnd, _, rfl, hwf, hlt.2⟩

/-! ## MINUS and relation equality on materialized operands -/

theorem agree_all_iff_eq {t1 t2 : Tup} {H1 H2 : List Attr}
    (h1 : Tup.IsCanon t1) (h2 : Tup.IsCanon t2)
    (hk1 : ∀ a, a ∈ Tup.keys t1 ↔ a ∈ H1) (hk2 : ∀ a, a ∈ Tup.keys t2 ↔ a ∈ H2)
    (hhe : ∀ a, a ∈ H1 ↔ a ∈ H2) :
    (∀ a, a ∈ H2 → a ∈ H1 → Tup.get? t2 a = Tup.get? t1 a) ↔ t2 = t1 := by
  constructor
  · intro hagr
    apply Tup.canon_ext h2 h1
    intro a
    by_cases ha : a ∈ H1
    · exact hagr a ((hhe a).mp ha) ha
    · have hn1 : Tup.get? t1 a = none := by
        apply Tup.get?_eq_none_iff.mpr
        intro hc
        exact ha ((hk1 a).mp hc)
      have hn2 : Tup.get? t2 a = none := by
        apply Tup.get?_eq_none_iff.mpr
        intro hc
        exact ha ((hhe a).mpr ((hk2 a).mp hc))
      rw [hn1, hn2]
  · rintro rfl
    intro a _ _
    rfl

/-- The anti-join outer loop of `MINUS`: a driver tuple is kept exactly
when the indexed probe of the other side matches nothing. -/
theorem minusOuter {r1 r2 : Relation} {ts2full : List Tup}
    (hprobe : ∀ t1, Tup.IsCanon t1 → (∀ a, a ∈ Tup.keys t1 ↔ a ∈ r1.heading) →
      ∃ rt, relTypeOf r1.heading t1 = .ok rt ∧
      ∃ ts, scanWith r2 rt = .ok ts ∧
        ∀ t, t ∈ ts ↔ t ∈ ts2full ∧
          ∀ a, a ∈ r2.heading → a ∈ r1.heading →
            Tup.get? t a = Tup.get? t1 a) :
    ∀ (ts1 : List Tup),
    (∀ t ∈ ts1, Tup.IsCanon t ∧ (∀ a, a ∈ Tup.keys t ↔ a ∈ r1.heading)) →
    ∀ (acc : List Row),
    ∃ Bs, ts1.foldlM
        (fun (acc : List Row) t1 => do
          let relType ← relTypeOf r1.heading t1
          let ts2 ← scanWith r2 relType
          if ts2.isEmpty then do
            let row ← dictToTupleE r1.heading t1
            pure (acc ++ [row])
          else pure acc)
        acc = .ok Bs ∧
      ∀ x, x ∈ Bs ↔ x ∈ acc ∨ ∃ t1 ∈ ts1,
        (¬ ∃ t2 ∈ ts2full, ∀ a, a ∈ r2.heading → a ∈ r1.heading →
          Tup.get? t2 a = Tup.get? t1 a) ∧
        dictToTupleE r1.heading t1 = .ok x := by
  intro ts1
  induction ts1 with
  | nil =>
    intro _ acc
    refine ⟨acc, rfl, ?_⟩
    intro x
    simp
  | cons t1 rest ih =>
    intro hts1 acc
    obtain ⟨hcanon1, hkeys1⟩ := hts1 t1 (List.mem_cons_self _ _)
    obtain ⟨rt, hrt, ts, hts, htsmem⟩ := hprobe t1 hcanon1 hkeys1
    rcases hts0 : ts with _ | ⟨t0, ts'⟩
    · rw [hts0] at hts htsmem
      obtain ⟨row0, hrow0⟩ := dictToTupleE_ok_of_keys (t := t1) (H := r1.heading)
        (fun a ha => Tup.get?_some_iff_mem_keys.mpr ((hkeys1 a).mpr ha))
      obtain ⟨Bs, hBs, hBsmem⟩ :=
        ih (fun t ht => hts1 t (List.mem_cons.mpr (Or.inr ht))) (acc ++ [row0])
      refine ⟨Bs, ?_, ?_⟩
      · simp only [List.foldlM_cons]
        rw [hrt]
        simp only [excBind_ok_eq]
        rw [hts]
        simp only [excBind_ok_eq]
        rw [hrow0]
        simp only [List.isEmpty_nil, if_true, excBind_ok_eq, excPure_bind_eq]
        exact hBs
      · intro x
        rw [hBsmem x]
        constructor
        · rintro (hx | ⟨t1', ht1', hk, hd⟩)
          · rcases List.mem_append.mp hx with hx | hx
            · exact Or.inl hx
            · rw [List.mem_singleton.mp hx]
              refine Or.inr ⟨t1, List.mem_cons_self _ _, ?_, hrow0⟩
              rintro ⟨t2, ht2, hagr⟩
              exact absurd ((htsmem t2).mpr ⟨ht2, hagr⟩) (List.not_mem_nil t2)
          · exact Or.inr ⟨t1', List.mem_cons.mpr (Or.inr ht1'), hk, hd⟩
        · rintro (hx | ⟨t1', ht1', hk, hd⟩)
          · exact Or.inl (List.mem_append.mpr (Or.inl hx))
          · rcases List.mem_cons.mp ht1' with rfl | ht1'
            · rw [hrow0] at hd
              injection hd with hd
              exact Or.inl (List.mem_append.mpr
                (Or.inr (List.mem_singleton.mpr hd.symm)))
            · exact Or.inr ⟨t1', ht1', hk, hd⟩
    · rw [hts0] at hts htsmem
      obtain ⟨Bs, hBs, hBsmem⟩ :=
        ih (fun t ht => hts1 t (List.mem_cons.mpr (Or.inr ht))) acc
      refine ⟨Bs, ?_, ?_⟩
      · simp only [List.foldlM_cons]
        rw [hrt]
        simp only [excBind_ok_eq]
        rw [hts]
        simp only [excBind_ok_eq]
        simp only [List.isEmpty_cons, if_false, excPure_bind_eq]
        exact hBs
      · intro x
        rw [hBsmem x]
        constructor
        · rintro (hx | ⟨t1', ht1', hk, hd⟩)
          · exact Or.inl hx
          · exact Or.inr ⟨t1', List.mem_cons.mpr (Or.inr ht1'), hk, hd⟩
        · rintro (hx | ⟨t1', ht1', hk, hd⟩)
          · exact Or.inl hx
          · rcases List.mem_cons.mp ht1' with rfl | ht1'
            · obtain ⟨ht0f, hagr⟩ := (htsmem t0).mp (List.mem_cons_self _ _)
              exact absurd ⟨t0, ht0f, hagr⟩ hk
            · exact Or.inr ⟨t1', ht1', hk, hd⟩

/-- Full characterization of the MINUS anti-join loop on a conformant
driver: it succeeds, and the result holds exactly the driver tuples with
no matching tuple on the other side. -/
theorem minusLoop_spec {r1 r2 : Relation} {ts1 ts2full : List Tup}
    {τ1 : Attr → Bool}
    (hnd1 : r1.heading.Nodup)
    (hs1 : scanAll r1 = .ok ts1)
    (hconf1 : ∀ t ∈ ts1, Tup.IsCanon t ∧ (∀ a, a ∈ Tup.keys t ↔ a ∈ r1.heading))
    (htag1 : ∀ t ∈ ts1, ∀ a v, Tup.get? t a = some v → v.tag = τ1 a)
    (hprobe : ∀ t1, Tup.IsCanon t1 → (∀ a, a ∈ Tup.keys t1 ↔ a ∈ r1.heading) →
      ∃ rt, relTypeOf r1.heading t1 = .ok rt ∧
      ∃ ts, scanWith r2 rt = .ok ts ∧
        ∀ t, t ∈ ts ↔ t ∈ ts2full ∧
          ∀ a, a ∈ r2.heading → a ∈ r1.heading →
            Tup.get? t a = Tup.get? t1 a) :
    ∃ u, minusLoop r1 r2 = .ok u ∧ u.heading = r1.heading ∧
      u.cdefs = defaultCdefs ∧
      ∃ mu, u.body = RBody.mat mu ∧ WFm u.heading mu ∧
      ∀ t, t ∈ mu.rows.map (tupOfRow u.heading) ↔
        t ∈ ts1 ∧ ¬ ∃ t2 ∈ ts2full, ∀ a, a ∈ r2.heading → a ∈ r1.heading →
          Tup.get? t2 a = Tup.get? t a := by
  obtain ⟨Bs, hBs, hBsmem⟩ := minusOuter hprobe ts1 hconf1 []
  have hBsmem2 : ∀ x, x ∈ Bs ↔ ∃ t1 ∈ ts1,
      (¬ ∃ t2 ∈ ts2full, ∀ a, a ∈ r2.heading → a ∈ r1.heading →
        Tup.get? t2 a = Tup.get? t1 a) ∧
      dictToTupleE r1.heading t1 = .ok x := by
    intro x
    rw [hBsmem x]
    simp
  have hlenB : ∀ b ∈ Bs, b.length = r1.heading.length := by
    intro b hb
    obtain ⟨t1, _, _, hd⟩ := (hBsmem2 b).mp hb
    exact dictToTupleE_length hd
  have htagB : ∀ b ∈ Bs, rowTags b = r1.heading.map τ1 := by
    intro b hb
    obtain ⟨t1, ht1, _, hd⟩ := (hBsmem2 b).mp hb
    apply rowTags_eq (dictToTupleE_length hd)
    intro j hj hj2
    exact htag1 t1 ht1 _ _ (dictToTupleE_get hd j hj hj2)
  obtain ⟨u, hu⟩ := mkRelNC_ok_of_typed hnd1 hlenB (typedRows_of_tags htagB)
  obtain ⟨huh, mu, hub, huwf, humem⟩ := mkRelNC_ok_mem hu hlenB
  obtain ⟨_, hustr⟩ := mkRelNC_ok_elim hu
  refine ⟨u, ?_, huh, by rw [hustr], mu, hub, by rw [huh]; exact huwf, ?_⟩
  · simp only [minusLoop]
    rw [hs1]
    simp only [excBind_ok_eq]
    rw [hBs]
    simp only [excBind_ok_eq]
    exact hu
  · intro t
    rw [huh, List.mem_map]
    constructor
    · rintro ⟨x, hx, rfl⟩
      obtain ⟨t1, ht1, hk, hd⟩ := (hBsmem2 x).mp ((humem x).mp hx)
      have hround : tupOfRow r1.heading x = t1 :=
        tupOfRow_dictToTupleE hnd1 (hconf1 t1 ht1).1 (hconf1 t1 ht1).2 hd
      rw [hround]
      exact ⟨ht1, hk⟩
    · rintro ⟨ht1, hk⟩
      obtain ⟨x, hx⟩ := dictToTupleE_ok_of_keys (t := t) (H := r1.heading)
        (fun a ha => Tup.get?_some_iff_mem_keys.mpr (((hconf1 t ht1).2 a).mpr ha))
      refine ⟨x, (humem x).mpr ((hBsmem2 x).mpr ⟨t, ht1, hk, hx⟩), ?_⟩
      exact tupOfRow_dictToTupleE hnd1 (hconf1 t ht1).1 (hconf1 t ht1).2 hx

/-- `Relation.__eq__` on two well-formed materialized relations always
returns a Boolean, and that Boolean is `True` exactly when the heading
sets agree and the two bodies hold the same set of tuples. -/
theorem relEq_mat {r s : Relation} {mr ms : MatB}
    (hbr : r.body = RBody.mat mr) (hbs : s.body = RBody.mat ms)
    (hwr : WFm r.heading mr) (hws : WFm s.heading ms)
    (htyr : TypedRows mr.rows) :
    ∃ b, relEq r s = .ok b ∧
      (b = true ↔ ((∀ a, a ∈ r.heading ↔ a ∈ s.heading) ∧
        ∀ t, t ∈ mr.rows.map (tupOfRow r.heading) ↔
          t ∈ ms.rows.map (tupOfRow s.heading))) := by
  rcases hhe : headEqB r.heading s.heading with _ | _
  · refine ⟨false, ?_, ?_⟩
    · simp only [relEq, hhe]
      rfl
    · constructor
      · intro h
        simp at h
      · rintro ⟨hh, _⟩
        have hc := headEqB_iff.mpr hh
        rw [hhe] at hc
        cases hc
  · have hiff := headEqB_iff.mp hhe
    have hs1 : scanAll r = .ok (mr.rows.map (tupOfRow r.heading)) := by
      simp [scanAll, hbr]
    obtain ⟨τ1, htag1⟩ := matTags hwr htyr
    have hconf1 := matConf hwr
    have hprobe := fun (t1 : Tup) (hc : Tup.IsCanon t1)
        (hk : ∀ a, a ∈ Tup.keys t1 ↔ a ∈ r.heading) =>
      probe_mat hbs hws hwr.hnd hc hk
    obtain ⟨u, hu, huh, hucd, mu, hub, huwf, humem⟩ :=
      minusLoop_spec hwr.hnd hs1 hconf1 htag1 hprobe
    have humem2 : ∀ t, t ∈ mu.rows.map (tupOfRow u.heading) ↔
        t ∈ mr.rows.map (tupOfRow r.heading) ∧
        ¬ t ∈ ms.rows.map (tupOfRow s.heading) := by
      intro t
      rw [humem t]
      constructor
      · rintro ⟨htr, hk⟩
        refine ⟨htr, ?_⟩
        intro hts
        exact hk ⟨t, hts, fun a _ _ => rfl⟩
      · rintro ⟨htr, hns⟩
        refine ⟨htr, ?_⟩
        rintro ⟨t2, ht2, hagr⟩
        have ht2eq : t2 = t :=
          (agree_all_iff_eq (hconf1 t htr).1 (matConf hws t2 ht2).1
            (hconf1 t htr).2 (matConf hws t2 ht2).2 hiff).mp hagr
        rw [ht2eq] at ht2
        exact hns ht2
    have hM : MINUS r s = .ok u := by
      have hred : MINUS r s = minusLoop r s := by
        simp [MINUS, hhe, hbr, hbs]
      rw [hred, hu]
    have hscanu : scanAll u = .ok (mu.rows.map (tupOfRow u.heading)) := by
      simp [scanAll, hub]
    have hE : IS_EMPTY u = .ok (decide (mu.rows.length = 0)) := by
      simp only [IS_EMPTY, COUNT]
      rw [hscanu]
      simp only [excBind_ok_eq, excPure_bind_eq]
      rw [List.length_map]
      rfl
    have hcr : COUNT r = .ok mr.rows.length := by
      simp only [COUNT]
      rw [hs1]
      simp only [excBind_ok_eq]
      rw [List.length_map]
      rfl
    have hscans : scanAll s = .ok (ms.rows.map (tupOfRow s.heading)) := by
      simp [scanAll, hbs]
    have hcs : COUNT s = .ok ms.rows.length := by
      simp only [COUNT]
      rw [hscans]
      simp only [excBind_ok_eq]
      rw [List.length_map]
      rfl
    by_cases hsub : ∀ t ∈ mr.rows.map (tupOfRow r.heading),
        t ∈ ms.rows.map (tupOfRow s.heading)
    · have hmue : mu.rows = [] := by
        rcases hmu0 : mu.rows with _ | ⟨x, xs⟩
        · rfl
        · exfalso
          have hx : tupOfRow u.heading x ∈ mu.rows.map (tupOfRow u.heading) := by
            rw [hmu0]
            exact List.mem_map.mpr ⟨x, List.mem_cons_self _ _, rfl⟩
          obtain ⟨htr, hns⟩ := (humem2 _).mp hx
          exact hns (hsub _ htr)
      refine ⟨decide (mr.rows.length = ms.rows.length), ?_, ?_⟩
      · simp only [relEq]
        rw [if_pos hhe, hM]
        simp only [excBind_ok_eq]
        rw [hE]
        simp only [excBind_ok_eq]
        rw [hmue, hcr]
        simp only [excBind_ok_eq]
        rw [hcs]
        simp only [excBind_ok_eq]
        rfl
      · rw [decide_eq_true_eq]
        constructor
        · intro hleneq
          refine ⟨hiff, ?_⟩
          exact mem_iff_of_nodup_sub_len (tuples_nodup hwr) (tuples_nodup hws)
            hsub (by rw [List.length_map, List.length_map]; exact hleneq)
        · rintro ⟨_, hset⟩
          have hlm := length_eq_of_nodup_mem (tuples_nodup hwr) (tuples_nodup hws) hset
          rw [List.length_map, List.length_map] at hlm
          exact hlm
    · push_neg at hsub
      obtain ⟨t0, ht0r, ht0ns⟩ := hsub
      have ht0u : t0 ∈ mu.rows.map (tupOfRow u.heading) :=
        (humem2 t0).mpr ⟨ht0r, ht0ns⟩
      have hmne : ¬ mu.rows.length = 0 := by
        intro hc
        rw [List.length_eq_zero] at hc
        rw [hc] at ht0u
        simp at ht0u
      refine ⟨false, ?_, ?_⟩
      · simp only [relEq]
        rw [if_pos hhe, hM]
        simp only [excBind_ok_eq]
        rw [hE]
        simp only [excBind_ok_eq]
        rw [decide_eq_false hmne]
        rfl
      · constructor
        · intro h
          simp at h
        · rintro ⟨_, hset⟩
          exact absurd ((hset t0).mp ht0r) ht0ns

/-- Reflexivity of the engine's relation equality on any well-formed
materialized relation (in particular on any operator result). -/
theorem REq_of_tupleSets {r s : Relation} {mr ms : MatB}
    (hbr : r.body = RBody.mat mr) (hbs : s.body = RBody.mat ms)
    (hwr : WFm r.heading mr) (hws : WFm s.heading ms)
    (htyr : TypedRows mr.rows)
    (hhe : ∀ a, a ∈ r.heading ↔ a ∈ s.heading)
    (hset : ∀ t, t ∈ mr.rows.map (tupOfRow r.heading) ↔
      t ∈ ms.rows.map (tupOfRow s.heading)) : REq r s := by
  obtain ⟨b, hb, hiff⟩ := relEq_mat hbr hbs hwr hws htyr
  rw [REq, hb, hiff.mpr ⟨hhe, hset⟩]

/-! ## C3: commutativity of AND -/

/-- A relation value as the library builds them: duplicate-free heading;
a materialized body is well-formed and uniformly typed; a zero-argument
computed body yields conformant, uniformly typed tuples.  (Nothing is
assumed about one-argument functional bodies.) -/
def GoodRel (r : Relation) : Prop :=
  r.heading.Nodup ∧
  match r.body with
  | RBody.mat m => WFm r.heading m ∧ TypedRows m.rows
  | RBody.comp0 f => ∃ ts0, f () = .ok ts0 ∧
      (∀ t ∈ ts0, Tup.IsCanon t ∧ (∀ a, a ∈ Tup.keys t ↔ a ∈ r.heading)) ∧
      ∃ τ : Attr → Bool, ∀ t ∈ ts0, ∀ a v, Tup.get? t a = some v → v.tag = τ a
  | RBody.comp1 _ => True

/-- When the two orders of `AND` reduce to the very same drive/probe call,
they raise the same error or return the same (hence equal) relation. -/
theorem andLoop_refl_or {rA rB : Relation} :
    (∃ e, andLoop rA rB = .error e ∧ andLoop rA rB = .error e) ∨
    (∃ u v, andLoop rA rB = .ok u ∧ andLoop rA rB = .ok v ∧ REq u v) := by
  rcases h : andLoop rA rB with e | u
  · exact Or.inl ⟨e, rfl, rfl⟩
  · obtain ⟨hh, hcd, hnd, mu, hbu, hwu, htyu⟩ := andLoop_ok_shape h
    exact Or.inr ⟨u, u, rfl, rfl,
      REq_of_tupleSets hbu hbu hwu hwu htyu (fun a => Iff.rfl) (fun t => Iff.rfl)⟩

/-- The two drive/probe orders of a join produce equal relations: the
merged tuples agree because matching pairs agree on every common
attribute. -/
theorem and_comm_core {r1 r2 : Relation} {ts1 ts2 : List Tup}
    {τ1 τ2 : Attr → Bool}
    (hnd1 : r1.heading.Nodup) (hnd2 : r2.heading.Nodup)
    (hs1 : scanAll r1 = .ok ts1) (hs2 : scanAll r2 = .ok ts2)
    (hconf1 : ∀ t ∈ ts1, Tup.IsCanon t ∧ (∀ a, a ∈ Tup.keys t ↔ a ∈ r1.heading))
    (hconf2 : ∀ t ∈ ts2, Tup.IsCanon t ∧ (∀ a, a ∈ Tup.keys t ↔ a ∈ r2.heading))
    (htag1 : ∀ t ∈ ts1, ∀ a v, Tup.get? t a = some v → v.tag = τ1 a)
    (htag2 : ∀ t ∈ ts2, ∀ a v, Tup.get? t a = some v → v.tag = τ2 a)
    (hprobe12 : ∀ t1, Tup.IsCanon t1 → (∀ a, a ∈ Tup.keys t1 ↔ a ∈ r1.heading) →
      ∃ rt, relTypeOf r1.heading t1 = .ok rt ∧
      ∃ ts, scanWith r2 rt = .ok ts ∧
        ∀ t, t ∈ ts ↔ t ∈ ts2 ∧
          ∀ a, a ∈ r2.heading → a ∈ r1.heading →
            Tup.get? t a = Tup.get? t1 a)
    (hprobe21 : ∀ t2, Tup.IsCanon t2 → (∀ a, a ∈ Tup.keys t2 ↔ a ∈ r2.heading) →
      ∃ rt, relTypeOf r2.heading t2 = .ok rt ∧
      ∃ ts, scanWith r1 rt = .ok ts ∧
        ∀ t, t ∈ ts ↔ t ∈ ts1 ∧
          ∀ a, a ∈ r1.heading → a ∈ r2.heading →
            Tup.get? t a = Tup.get? t2 a) :
    ∃ u v, andLoop r1 r2 = .ok u ∧ andLoop r2 r1 = .ok v ∧ REq u v := by
  obtain ⟨u, hu, huh, mu, hbu, hwu, humem⟩ :=
    andLoop_spec hnd1 hnd2 hs1 hconf1 htag1
      (fun t ht => ⟨(hconf2 t ht).2, (hconf2 t ht).1.wk⟩) htag2 hprobe12
  obtain ⟨v, hv, hvh, mv, hbv, hwv, hvmem⟩ :=
    andLoop_spec hnd2 hnd1 hs2 hconf2 htag2
      (fun t ht => ⟨(hconf1 t ht).2, (hconf1 t ht).1.wk⟩) htag1 hprobe21
  obtain ⟨hh2, hcd2, hndu, mu', hbu', hwu', htyu'⟩ := andLoop_ok_shape hu
  have hmu : mu' = mu := by
    rw [hbu] at hbu'
    injection hbu' with h2
    exact h2.symm
  refine ⟨u, v, hu, hv, ?_⟩
  refine REq_of_tupleSets hbu hbv hwu hwv (hmu ▸ htyu') ?_ ?_
  · intro a
    rw [huh, hvh, mem_unionH, mem_unionH]
    exact Or.comm
  · intro t
    rw [humem t, hvmem t]
    constructor
    · rintro ⟨t1, ht1, t2, ht2, hagr, rfl⟩
      refine ⟨t2, ht2, t1, ht1, ?_, ?_⟩
      · intro a ha1 ha2
        exact (hagr a ha2 ha1).symm
      · apply Tup.update_comm_of_agree (hconf1 t1 ht1).1.wk (hconf2 t2 ht2).1.wk
        intro a v1 v2 hv1 hv2
        have ha1 : a ∈ r1.heading := ((hconf1 t1 ht1).2 a).mp
          (Tup.get?_some_iff_mem_keys.mp ⟨v1, hv1⟩)
        have ha2 : a ∈ r2.heading := ((hconf2 t2 ht2).2 a).mp
          (Tup.get?_some_iff_mem_keys.mp ⟨v2, hv2⟩)
        have heq2 := hagr a ha2 ha1
        rw [hv1, hv2] at heq2
        injection heq2 with h3
        exact h3.symm
    · rintro ⟨t2, ht2, t1, ht1, hagr, rfl⟩
      refine ⟨t1, ht1, t2, ht2, ?_, ?_⟩
      · intro a ha2 ha1
        exact (hagr a ha1 ha2).symm
      · apply Tup.update_comm_of_agree (hconf2 t2 ht2).1.wk (hconf1 t1 ht1).1.wk
        intro a v2 v1 hv2 hv1
        have ha1 : a ∈ r1.heading := ((hconf1 t1 ht1).2 a).mp
          (Tup.get?_some_iff_mem_keys.mp ⟨v1, hv1⟩)
        have ha2 : a ∈ r2.heading := ((hconf2 t2 ht2).2 a).mp
          (Tup.get?_some_iff_mem_keys.mp ⟨v2, hv2⟩)
        have heq2 := hagr a ha1 ha2
        rw [hv1, hv2] at heq2
        injection heq2 with h3
        exact h3.symm

/-- C3, confirmed (for well-formed operands): `AND(r1, r2)` and
`AND(r2, r1)` either raise the same error or return relations equal under
`Relation.__eq__` — the probed side's value winning an attribute-name
collision never makes the orders differ, because merged pairs agree on
every common attribute. -/
theorem C3_and_commutative (r1 r2 : Relation)
    (h1 : GoodRel r1) (h2 : GoodRel r2) :
    (∃ e, AND r1 r2 = .error e ∧ AND r2 r1 = .error e) ∨
    (∃ u v, AND r1 r2 = .ok u ∧ AND r2 r1 = .ok v ∧ REq u v) := by
  obtain ⟨hnd1, hg1⟩ := h1
  obtain ⟨hnd2, hg2⟩ := h2
  rcases hb1 : r1.body with m1 | f1 | f1 <;> rcases hb2 : r2.body with m2 | f2 | f2
  · -- mat, mat
    rw [hb1] at hg1
    rw [hb2] at hg2
    obtain ⟨hw1, hty1⟩ := hg1
    obtain ⟨hw2, hty2⟩ := hg2
    rcases Nat.lt_trichotomy m1.rows.length m2.rows.length with hlt | heq | hgt
    · have hord : ¬ m1.rows.length > m2.rows.length := by omega
      have hord2 : m2.rows.length > m1.rows.length := hlt
      have hA : AND r1 r2 = andLoop r1 r2 := by simp [AND, hb1, hb2, hord]
      have hB : AND r2 r1 = andLoop r1 r2 := by simp [AND, hb1, hb2, hord2]
      rw [hA, hB]
      exact andLoop_refl_or
    · have hord : ¬ m1.rows.length > m2.rows.length := by omega
      have hord2 : ¬ m2.rows.length > m1.rows.length := by omega
      have hA : AND r1 r2 = andLoop r1 r2 := by simp [AND, hb1, hb2, hord]
      have hB : AND r2 r1 = andLoop r2 r1 := by simp [AND, hb1, hb2, hord2]
      obtain ⟨τ1, htag1⟩ := matTags hw1 hty1
      obtain ⟨τ2, htag2⟩ := matTags hw2 hty2
      have hs1 : scanAll r1 = .ok (m1.rows.map (tupOfRow r1.heading)) := by
        simp [scanAll, hb1]
      have hs2 : scanAll r2 = .ok (m2.rows.map (tupOfRow r2.heading)) := by
        simp [scanAll, hb2]
      obtain ⟨u, v, hu, hv, huv⟩ := and_comm_core hnd1 hnd2 hs1 hs2
        (matConf hw1) (matConf hw2) htag1 htag2
        (fun t1 hc hk => probe_mat hb2 hw2 hnd1 hc hk)
        (fun t2 hc hk => probe_mat hb1 hw1 hnd2 hc hk)
      rw [hA, hB]
      exact Or.inr ⟨u, v, hu, hv, huv⟩
    · have hord : m1.rows.length > m2.rows.length := hgt
      have hord2 : ¬ m2.rows.length > m1.rows.length := by omega
      have hA : AND r1 r2 = andLoop r2 r1 := by simp [AND, hb1, hb2, hord]
      have hB : AND r2 r1 = andLoop r2 r1 := by simp [AND, hb1, hb2, hord2]
      rw [hA, hB]
      exact andLoop_refl_or
  · -- mat, comp0: both orders drive the materialized side
    have hA : AND r1 r2 = andLoop r1 r2 := by simp [AND, hb1, hb2]
    have hB : AND r2 r1 = andLoop r1 r2 := by simp [AND, hb1, hb2]
    rw [hA, hB]
    exact andLoop_refl_or
  · -- mat, comp1
    have hA : AND r1 r2 = andLoop r1 r2 := by simp [AND, hb1, hb2]
    have hB : AND r2 r1 = andLoop r1 r2 := by simp [AND, hb1, hb2]
    rw [hA, hB]
    exact andLoop_refl_or
  · -- comp0, mat
    have hA : AND r1 r2 = andLoop r2 r1 := by simp [AND, hb1, hb2]
    have hB : AND r2 r1 = andLoop r2 r1 := by simp [AND, hb1, hb2]
    rw [hA, hB]
    exact andLoop_refl_or
  · -- comp0, comp0: both orders drive their own left side
    rw [hb1] at hg1
    rw [hb2] at hg2
    obtain ⟨ts1, hf1, hconf1, τ1, htag1⟩ := hg1
    obtain ⟨ts2, hf2, hconf2, τ2, htag2⟩ := hg2
    have hA : AND r1 r2 = andLoop r1 r2 := by simp [AND, hb1, hb2]
    have hB : AND r2 r1 = andLoop r2 r1 := by simp [AND, hb1, hb2]
    have hs1 : scanAll r1 = .ok ts1 := by simp [scanAll, hb1, hf1]
    have hs2 : scanAll r2 = .ok ts2 := by simp [scanAll, hb2, hf2]
    obtain ⟨u, v, hu, hv, huv⟩ := and_comm_core hnd1 hnd2 hs1 hs2
      hconf1 hconf2 htag1 htag2
      (fun t1 hc hk => probe_comp0 hb2 hf2 (fun t ht a => (hconf2 t ht).2 a)
        hnd1 hc hk)
      (fun t2 hc hk => probe_comp0 hb1 hf1 (fun t ht a => (hconf1 t ht).2 a)
        hnd2 hc hk)
    rw [hA, hB]
    exact Or.inr ⟨u, v, hu, hv, huv⟩
  · -- comp0, comp1
    have hA : AND r1 r2 = andLoop r1 r2 := by simp [AND, hb1, hb2]
    have hB : AND r2 r1 = andLoop r1 r2 := by simp [AND, hb1, hb2]
    rw [hA, hB]
    exact andLoop_refl_or
  · -- comp1, mat
    have hA : AND r1 r2 = andLoop r2 r1 := by simp [AND, hb1, hb2]
    have hB : AND r2 r1 = andLoop r2 r1 := by simp [AND, hb1, hb2]
    rw [hA, hB]
    exact andLoop_refl_or
  · -- comp1, comp0
    have hA : AND r1 r2 = andLoop r2 r1 := by simp [AND, hb1, hb2]
    have hB : AND r2 r1 = andLoop r2 r1 := by simp [AND, hb1, hb2]
    rw [hA, hB]
    exact andLoop_refl_or
  · -- comp1, comp1: the same Invalid-Operation error both ways
    refine Or.inl ⟨.invalidOp "Cannot AND two functional relations", ?_, ?_⟩
    · simp [AND, hb1, hb2]
    · simp [AND, hb1, hb2]

def c3r1 : Relation :=
  { heading := ["x"],
    body := RBody.mat (addLoopS ["x"] { rows := [], idx := emptyIdx } [[vInt 1]]).1,
    cdefs := defaultCdefs, mapToOrig := [] }

def c3r2 : Relation :=
  { heading := ["y"],
    body := RBody.mat (addLoopS ["y"] { rows := [], idx := emptyIdx } [[vInt 2]]).1,
    cdefs := defaultCdefs, mapToOrig := [] }

theorem C3_witness :
    GoodRel c3r1 ∧ GoodRel c3r2 ∧
    ((∃ e, AND c3r1 c3r2 = .error e ∧ AND c3r2 c3r1 = .error e) ∨
     (∃ u v, AND c3r1 c3r2 = .ok u ∧ AND c3r2 c3r1 = .ok v ∧ REq u v)) := by
  have hg1 : GoodRel c3r1 := by
    refine ⟨by decide, ?_, ?_⟩
    · exact wf_addLoopS [[vInt 1]] { rows := [], idx := emptyIdx }
        (wfm_empty (by decide)) (by decide)
    · unfold TypedRows
      decide
  have hg2 : GoodRel c3r2 := by
    refine ⟨by decide, ?_, ?_⟩
    · exact wf_addLoopS [[vInt 2]] { rows := [], idx := emptyIdx }
        (wfm_empty (by decide)) (by decide)
    · unfold TypedRows
      decide
  exact ⟨hg1, hg2, C3_and_commutative c3r1 c3r2 hg1 hg2⟩

/-! ## Characterizations of rename, AND, REMOVE and OR on materialized
relations (the building blocks of one TCLOSE iteration) -/

theorem get?_tupOfRow_dict {Hs : List Attr} {t0 : Tup} {x : Row} {a : Attr}
    (hnd : Hs.Nodup) (h : dictToTupleE Hs t0 = .ok x) (ha : a ∈ Hs) :
    Tup.get? (tupOfRow Hs x) a = Tup.get? t0 a := by
  have hlen : x.length = Hs.length := dictToTupleE_length h
  obtain ⟨⟨j, hj⟩, haj⟩ := List.mem_iff_get.mp ha
  have hj2 : j < x.length := by omega
  rw [get?_tupOfRow hnd hlen a, ← haj]
  rw [colAt_get hnd hlen j hj]
  rw [dictToTupleE_get h j hj hj2]

/-- `Relation.rename` on a well-formed materialized relation with the
default constraints: same rows positionally, mapped heading, default
constraints again (only the trivial key survives the filter and its check
is identically true). -/
theorem rename_mat {q : Relation} {mq : MatB} {nn : List (Attr × Attr)}
    (hb : q.body = RBody.mat mq) (hw : WFm q.heading mq)
    (hty : TypedRows mq.rows) (hcd : q.cdefs = defaultCdefs)
    (hin : ∀ p ∈ nn, p.1 ∈ q.heading)
    (hnd2 : (q.heading.map (fun c => (sLookup nn c).getD c)).Nodup) :
    ∃ u, q.rename nn = .ok u ∧
      u.heading = q.heading.map (fun c => (sLookup nn c).getD c) ∧
      u.cdefs = defaultCdefs ∧
      ∃ mu, u.body = RBody.mat mu ∧ WFm u.heading mu ∧ TypedRows mu.rows ∧
      (∀ v, v ∈ mu.rows ↔ v ∈ mq.rows) := by
  have hguard : nn.any (fun p => !(q.heading.contains p.1)) = false := by
    rw [List.any_eq_false]
    intro p hp
    have hc : q.heading.contains p.1 = true := containsB_iff.mpr (hin p hp)
    have hm := hin p hp
    simp [hc, hm]
  have hlenmap : ∀ b ∈ mq.rows,
      b.length = (q.heading.map (fun c => (sLookup nn c).getD c)).length := by
    intro b hb2
    rw [List.length_map]
    exact hw.rlen b hb2
  obtain ⟨r0, hr0⟩ := mkRelNC_ok_of_typed hnd2 hlenmap hty
  obtain ⟨h0h, mu, h0b, h0wf, h0mem⟩ := mkRelNC_ok_mem hr0 hlenmap
  have hkc : relationNewKeysOnly
      (q.heading.map (fun c => (sLookup nn c).getD c)) mq.rows
      [("PK", CDef.key none)] =
      .ok { r0 with cdefs := [("PK", CDef.key none)] } := by
    simp only [relationNewKeysOnly]
    rw [hr0]
    simp only [excBind_ok_eq]
    rfl
  have hred : q.rename nn = relationNewKeysOnly
      (q.heading.map (fun c => (sLookup nn c).getD c)) mq.rows
      [("PK", CDef.key none)] := by
    simp only [Relation.rename, hguard, hcd, hb]
    rw [if_neg (by simp)]
    have hval : validateHeadingE
        (q.heading.map (fun c => (sLookup nn c).getD c)) = .ok () := by
      simp only [validateHeadingE]
      rw [if_pos hnd2]
    rw [hval]
    simp only [excBind_ok_eq]
    rfl
  refine ⟨{ r0 with cdefs := [("PK", CDef.key none)] }, by rw [hred, hkc], ?_, rfl,
    mu, h0b, ?_, ?_, ?_⟩
  · show r0.heading = _
    exact h0h
  · show WFm r0.heading mu
    rw [h0h]
    exact h0wf
  · exact typedRows_mono (fun v hv => (h0mem v).mp hv) hty
  · exact h0mem

/-- `AND` on two well-formed materialized relations, the smaller (or
equal) driver first so no operand flip happens: the natural join. -/
theorem AND_mat {r1 r2 : Relation} {m1 m2 : MatB}
    (hb1 : r1.body = RBody.mat m1) (hb2 : r2.body = RBody.mat m2)
    (hw1 : WFm r1.heading m1) (hw2 : WFm r2.heading m2)
    (hty1 : TypedRows m1.rows) (hty2 : TypedRows m2.rows)
    (hsz : ¬ m1.rows.length > m2.rows.length) :
    ∃ u, AND r1 r2 = .ok u ∧
      u.heading = unionH r1.heading r2.heading ∧
      u.cdefs = defaultCdefs ∧
      ∃ mu, u.body = RBody.mat mu ∧ WFm u.heading mu ∧ TypedRows mu.rows ∧
      ∀ t, t ∈ mu.rows.map (tupOfRow u.heading) ↔
        ∃ t1 ∈ m1.rows.map (tupOfRow r1.heading),
        ∃ t2 ∈ m2.rows.map (tupOfRow r2.heading),
          (∀ a, a ∈ r2.heading → a ∈ r1.heading →
            Tup.get? t2 a = Tup.get? t1 a) ∧
          t = Tup.update t1 t2 := by
  obtain ⟨τ1, htag1⟩ := matTags hw1 hty1
  obtain ⟨τ2, htag2⟩ := matTags hw2 hty2
  have hs1 : scanAll r1 = .ok (m1.rows.map (tupOfRow r1.heading)) := by
    simp [scanAll, hb1]
  obtain ⟨u, hu, huh, mu, hbu, hwu, humem⟩ :=
    andLoop_spec hw1.hnd hw2.hnd hs1 (matConf hw1) htag1
      (fun t ht => ⟨(matConf hw2 t ht).2, (matConf hw2 t ht).1.wk⟩) htag2
      (fun t1 hc hk => probe_mat hb2 hw2 hw1.hnd hc hk)
  obtain ⟨_, hcd, _, mu', hbu', _, htyu⟩ := andLoop_ok_shape hu
  have hmu : mu' = mu := by
    rw [hbu] at hbu'
    injection hbu' with h2
    exact h2.symm
  have hA : AND r1 r2 = andLoop r1 r2 := by simp [AND, hb1, hb2, hsz]
  exact ⟨u, by rw [hA]; exact hu, huh, hcd, mu, hbu, hwu, hmu ▸ htyu, humem⟩

/-- `REMOVE` on a well-formed materialized relation with the default
constraints: the projection onto the surviving attributes. -/
theorem REMOVE_mat {r : Relation} {mr : MatB} {Hr : List Attr} {τ : Attr → Bool}
    (hbr : r.body = RBody.mat mr) (hwr : WFm r.heading mr)
    (hcd : r.cdefs = defaultCdefs)
    (htag : ∀ t ∈ mr.rows.map (tupOfRow r.heading), ∀ a v,
      Tup.get? t a = some v → v.tag = τ a) :
    ∃ u, REMOVE r Hr = .ok u ∧
      u.heading = r.heading.filter (fun a => !(Hr.contains a)) ∧
      u.cdefs = defaultCdefs ∧
      ∃ mu, u.body = RBody.mat mu ∧
      WFm (r.heading.filter (fun a => !(Hr.contains a))) mu ∧
      TypedRows mu.rows ∧
      ∀ t, t ∈ mu.rows.map
          (tupOfRow (r.heading.filter (fun a => !(Hr.contains a)))) ↔
        ∃ t0 ∈ mr.rows.map (tupOfRow r.heading),
          Tup.IsCanon t ∧
          (∀ a, a ∈ Tup.keys t ↔
            a ∈ r.heading.filter (fun b => !(Hr.contains b))) ∧
          ∀ a ∈ r.heading.filter (fun b => !(Hr.contains b)),
            Tup.get? t a = Tup.get? t0 a := by
  have hndS : (r.heading.filter (fun a => !(Hr.contains a))).Nodup :=
    hwr.hnd.filter _
  have hsub : ∀ a ∈ r.heading.filter (fun b => !(Hr.contains b)), a ∈ r.heading :=
    fun a ha => (List.mem_filter.mp ha).1
  have hdictok : ∀ t ∈ mr.rows.map (tupOfRow r.heading),
      ∃ row, dictToTupleE (r.heading.filter (fun a => !(Hr.contains a))) t
        = .ok row := by
    intro t ht
    apply dictToTupleE_ok_of_keys
    intro a ha
    apply Tup.get?_some_iff_mem_keys.mpr
    exact ((matConf hwr t ht).2 a).mpr (hsub a ha)
  obtain ⟨Bs, hBs⟩ := mapME_ok_of_all hdictok
  have hlenB : ∀ b ∈ Bs,
      b.length = (r.heading.filter (fun a => !(Hr.contains a))).length := by
    intro b hb
    obtain ⟨t0, _, hd⟩ := mapME_ok_mem_right hBs b hb
    exact dictToTupleE_length hd
  have htagB : ∀ b ∈ Bs,
      rowTags b = (r.heading.filter (fun a => !(Hr.contains a))).map τ := by
    intro b hb
    obtain ⟨t0, ht0, hd⟩ := mapME_ok_mem_right hBs b hb
    apply rowTags_eq (dictToTupleE_length hd)
    intro j hj hj2
    exact htag t0 ht0 _ _ (dictToTupleE_get hd j hj hj2)
  obtain ⟨res, hres⟩ := mkRelNC_ok_of_typed hndS hlenB (typedRows_of_tags htagB)
  obtain ⟨hresh, mu, hresb, hreswf, hresmem⟩ := mkRelNC_ok_mem hres hlenB
  have hscan : scanAll r = .ok (mr.rows.map (tupOfRow r.heading)) := by
    simp [scanAll, hbr]
  have hcomp : REMOVE r Hr = .ok { res with cdefs := [("PK", CDef.key none)] } := by
    simp only [REMOVE]
    rw [hscan]
    simp only [excBind_ok_eq]
    rw [hBs]
    simp only [excBind_ok_eq]
    rw [hres]
    simp only [excBind_ok_eq]
    rw [hcd]
    rfl
  refine ⟨{ res with cdefs := [("PK", CDef.key none)] }, hcomp, ?_, rfl,
    mu, hresb, hreswf, typedRows_of_tags (fun x hx => htagB x ((hresmem x).mp hx)),
    ?_⟩
  · show res.heading = _
    exact hresh
  · intro t
    constructor
    · intro ht
      obtain ⟨x, hx, rfl⟩ := List.mem_map.mp ht
      obtain ⟨t0, ht0, hd⟩ := mapME_ok_mem_right hBs x ((hresmem x).mp hx)
      have hlen := dictToTupleE_length hd
      refine ⟨t0, ht0, Tup.isCanon_canon (wk_zip hndS hlen), ?_, ?_⟩
      · intro a
        exact mem_keys_tupOfRow hlen a
      · intro a ha
        exact get?_tupOfRow_dict hndS hd ha
    · rintro ⟨t0, ht0, hcanon, hkeys, hagr⟩
      obtain ⟨x, hd⟩ := hdictok t0 ht0
      have hlen := dictToTupleE_length hd
      have hxB : x ∈ Bs := by
        obtain ⟨y, hy, hdy⟩ := mapME_ok_mem_left hBs t0 ht0
        rw [hd] at hdy
        injection hdy with h2
        rw [← h2] at hy
        exact hy
      refine List.mem_map.mpr ⟨x, (hresmem x).mpr hxB, ?_⟩
      apply Tup.canon_ext (Tup.isCanon_canon (wk_zip hndS hlen)) hcanon
      intro a
      show Tup.get? (tupOfRow (r.heading.filter (fun a => !(Hr.contains a))) x) a
        = Tup.get? t a
      by_cases ha : a ∈ r.heading.filter (fun b => !(Hr.contains b))
      · rw [get?_tupOfRow_dict hndS hd ha]
        exact (hagr a ha).symm
      · have h1 : Tup.get? (tupOfRow (r.heading.filter
            (fun b => !(Hr.contains b))) x) a = none := by
          apply Tup.get?_eq_none_iff.mpr
          intro hc
          rw [mem_keys_tupOfRow hlen] at hc
          exact ha hc
        have h2 : Tup.get? t a = none := by
          apply Tup.get?_eq_none_iff.mpr
          intro hc
          exact ha ((hkeys a).mp hc)
        rw [h1, h2]

/-- `OR` on two well-formed materialized relations with equal heading sets
and a shared column typing: the set union over the left operand's
heading. -/
theorem or_mat {r s : Relation} {mr ms : MatB} {τ : Attr → Bool}
    (hbr : r.body = RBody.mat mr) (hbs : s.body = RBody.mat ms)
    (hwr : WFm r.heading mr) (hws : WFm s.heading ms)
    (hhe : headEqB r.heading s.heading = true)
    (htagr : ∀ t ∈ mr.rows.map (tupOfRow r.heading), ∀ a v,
      Tup.get? t a = some v → v.tag = τ a)
    (htags : ∀ t ∈ ms.rows.map (tupOfRow s.heading), ∀ a v,
      Tup.get? t a = some v → v.tag = τ a) :
    ∃ u, OR r s = .ok u ∧ u.heading = r.heading ∧ u.cdefs = defaultCdefs ∧
      ∃ mu, u.body = RBody.mat mu ∧ WFm u.heading mu ∧ TypedRows mu.rows ∧
      ∀ t, t ∈ mu.rows.map (tupOfRow u.heading) ↔
        t ∈ mr.rows.map (tupOfRow r.heading) ∨
        t ∈ ms.rows.map (tupOfRow s.heading) := by
  have hiff := headEqB_iff.mp hhe
  have hUn : unionH r.heading s.heading = r.heading := by
    rw [unionH]
    have hfil : s.heading.filter (fun a => !(r.heading.contains a)) = [] := by
      apply List.filter_eq_nil.mpr
      intro a ha
      have hc : r.heading.contains a = true := containsB_iff.mpr ((hiff a).mpr ha)
      have hm := (hiff a).mpr ha
      simp [hc, hm]
    rw [hfil, List.append_nil]
  have hsr : scanAll r = .ok (mr.rows.map (tupOfRow r.heading)) := by
    simp [scanAll, hbr]
  have hss : scanAll s = .ok (ms.rows.map (tupOfRow s.heading)) := by
    simp [scanAll, hbs]
  have hok1 : ∀ t ∈ mr.rows.map (tupOfRow r.heading),
      ∃ row, dictToTupleE r.heading t = .ok row := by
    intro t ht
    apply dictToTupleE_ok_of_keys
    intro a ha
    exact Tup.get?_some_iff_mem_keys.mpr (((matConf hwr t ht).2 a).mpr ha)
  have hok2 : ∀ t ∈ ms.rows.map (tupOfRow s.heading),
      ∃ row, dictToTupleE r.heading t = .ok row := by
    intro t ht
    apply dictToTupleE_ok_of_keys
    intro a ha
    exact Tup.get?_some_iff_mem_keys.mpr
      (((matConf hws t ht).2 a).mpr ((hiff a).mp ha))
  obtain ⟨rows1, hmap1⟩ := mapME_ok_of_all hok1
  obtain ⟨rows2, hmap2⟩ := mapME_ok_of_all hok2
  have hlen12 : ∀ b ∈ rows1 ++ rows2, b.length = r.heading.length := by
    intro b hb
    rcases List.mem_append.mp hb with hb | hb
    · obtain ⟨t0, _, hd⟩ := mapME_ok_mem_right hmap1 b hb
      exact dictToTupleE_length hd
    · obtain ⟨t0, _, hd⟩ := mapME_ok_mem_right hmap2 b hb
      exact dictToTupleE_length hd
  have htag12 : ∀ b ∈ rows1 ++ rows2, rowTags b = r.heading.map τ := by
    intro b hb
    rcases List.mem_append.mp hb with hb | hb
    · obtain ⟨t0, ht0, hd⟩ := mapME_ok_mem_right hmap1 b hb
      apply rowTags_eq (dictToTupleE_length hd)
      intro j hj hj2
      exact htagr t0 ht0 _ _ (dictToTupleE_get hd j hj hj2)
    · obtain ⟨t0, ht0, hd⟩ := mapME_ok_mem_right hmap2 b hb
      apply rowTags_eq (dictToTupleE_length hd)
      intro j hj hj2
      exact htags t0 ht0 _ _ (dictToTupleE_get hd j hj hj2)
  obtain ⟨u, hu⟩ := mkRelNC_ok_of_typed hwr.hnd hlen12 (typedRows_of_tags htag12)
  obtain ⟨huh, mu, hub, huwf, humem⟩ := mkRelNC_ok_mem hu hlen12
  obtain ⟨_, hustr⟩ := mkRelNC_ok_elim hu
  have hcomp : OR r s = .ok u := by
    have hred : OR r s = orLoop r s := by
      simp [OR, hhe, hbr, hbs]
    rw [hred]
    simp only [orLoop]
    rw [hUn, hsr]
    simp only [excBind_ok_eq]
    rw [hmap1]
    simp only [excBind_ok_eq]
    rw [hss]
    simp only [excBind_ok_eq]
    rw [hmap2]
    simp only [excBind_ok_eq]
    exact hu
  refine ⟨u, hcomp, huh, by rw [hustr], mu, hub, by rw [huh]; exact huwf, ?_, ?_⟩
  · exact typedRows_of_tags (fun x hx => htag12 x ((humem x).mp hx))
  · intro t
    rw [huh]
    constructor
    · intro ht
      obtain ⟨x, hx, rfl⟩ := List.mem_map.mp ht
      rcases List.mem_append.mp ((humem x).mp hx) with hx2 | hx2
      · exact Or.inl ((orSide_mem hwr.hnd hwr.hnd hwr.rlen (fun a => Iff.rfl)
          hmap1 _).mp ⟨x, hx2, rfl⟩)
      · exact Or.inr ((orSide_mem hws.hnd hwr.hnd hws.rlen (fun a => (hiff a).symm)
          hmap2 _).mp ⟨x, hx2, rfl⟩)
    · intro ht
      rcases ht with ht | ht
      · obtain ⟨x, hx, hxe⟩ := (orSide_mem hwr.hnd hwr.hnd hwr.rlen
          (fun a => Iff.rfl) hmap1 t).mpr ht
        exact List.mem_map.mpr ⟨x, (humem x).mpr (List.mem_append.mpr (Or.inl hx)),
          hxe⟩
      · obtain ⟨x, hx, hxe⟩ := (orSide_mem hws.hnd hwr.hnd hws.rlen
          (fun a => (hiff a).symm) hmap2 t).mpr ht
        exact List.mem_map.mpr ⟨x, (humem x).mpr (List.mem_append.mpr (Or.inr hx)),
          hxe⟩

/-! ## Binary-relation helpers for TCLOSE -/

theorem containsB_false {l : List Attr} {a : Attr} (h : ¬ a ∈ l) :
    l.contains a = false := by
  rcases hc : l.contains a with _ | _
  · rfl
  · exact absurd (containsB_iff.mp hc) h

theorem row_len2 {l : Row} (h : l.length = 2) : ∃ a b, l = [a, b] := by
  rcases l with _ | ⟨a, l⟩
  · exact absurd h (by simp)
  rcases l with _ | ⟨b, l⟩
  · exact absurd h (by simp)
  rcases l with _ | ⟨c, l⟩
  · exact ⟨a, b, rfl⟩
  · exfalso
    rw [List.length_cons, List.length_cons, List.length_cons] at h
    omega

theorem get?_tupOfRow2 {x y : Attr} (hxy : x ≠ y) (a b : Value) (c : Attr) :
    Tup.get? (tupOfRow [x, y] [a, b]) c =
      if x = c then some a else if y = c then some b else none := by
  have hnd : ([x, y] : List Attr).Nodup := by simp [hxy]
  rw [get?_tupOfRow hnd rfl c]
  rfl

theorem get?_tupOfRow3 {x y z : Attr} (hxy : x ≠ y) (hxz : x ≠ z) (hyz : y ≠ z)
    (a b c : Value) (d : Attr) :
    Tup.get? (tupOfRow [x, y, z] [a, b, c]) d =
      if x = d then some a else if y = d then some b else
        if z = d then some c else none := by
  have hnd : ([x, y, z] : List Attr).Nodup := by simp [hxy, hxz, hyz]
  rw [get?_tupOfRow hnd rfl d]
  rfl

theorem get?_pair_left {x y : Attr} (hxy : x ≠ y) (a b : Value) :
    Tup.get? (tupOfRow [x, y] [a, b]) x = some a := by
  rw [get?_tupOfRow2 hxy a b x, if_pos rfl]

theorem get?_pair_right {x y : Attr} (hxy : x ≠ y) (a b : Value) :
    Tup.get? (tupOfRow [x, y] [a, b]) y = some b := by
  rw [get?_tupOfRow2 hxy a b y, if_neg hxy, if_pos rfl]

theorem get?_pair_none {x y d : Attr} (hxy : x ≠ y) (hdx : ¬ x = d)
    (hdy : ¬ y = d) (a b : Value) :
    Tup.get? (tupOfRow [x, y] [a, b]) d = none := by
  rw [get?_tupOfRow2 hxy a b d, if_neg hdx, if_neg hdy]

theorem get?_triple_left {x y z : Attr} (hxy : x ≠ y) (hxz : x ≠ z)
    (hyz : y ≠ z) (a b c : Value) :
    Tup.get? (tupOfRow [x, y, z] [a, b, c]) x = some a := by
  rw [get?_tupOfRow3 hxy hxz hyz a b c x, if_pos rfl]

theorem get?_triple_mid {x y z : Attr} (hxy : x ≠ y) (hxz : x ≠ z)
    (hyz : y ≠ z) (a b c : Value) :
    Tup.get? (tupOfRow [x, y, z] [a, b, c]) y = some b := by
  rw [get?_tupOfRow3 hxy hxz hyz a b c y, if_neg hxy, if_pos rfl]

theorem get?_triple_right {x y z : Attr} (hxy : x ≠ y) (hxz : x ≠ z)
    (hyz : y ≠ z) (a b c : Value) :
    Tup.get? (tupOfRow [x, y, z] [a, b, c]) z = some c := by
  rw [get?_tupOfRow3 hxy hxz hyz a b c z, if_neg hxz, if_neg hyz, if_pos rfl]

/-- The in-place merge of a matching pair in the TCLOSE join: `{x:a, y:b}`
updated with `{y:b, _Z:c}` is `{x:a, y:b, _Z:c}`. -/
theorem update_pair_merge {x y : Attr} (hxy : x ≠ y) (hxz : x ≠ "_Z")
    (hyz : y ≠ "_Z") (a b c : Value) :
    Tup.update (tupOfRow [x, y] [a, b]) (tupOfRow [y, "_Z"] [b, c]) =
      tupOfRow [x, y, "_Z"] [a, b, c] := by
  have hnd1 : ([x, y] : List Attr).Nodup := by simp [hxy]
  have hnd2 : ([y, "_Z"] : List Attr).Nodup := by simp [hyz]
  have hw1 : Tup.WK (tupOfRow [x, y] [a, b]) :=
    (Tup.isCanon_canon (wk_zip hnd1 rfl)).wk
  have hw2 : Tup.WK (tupOfRow [y, "_Z"] [b, c]) :=
    (Tup.isCanon_canon (wk_zip hnd2 rfl)).wk
  have hnd3 : ([x, y, "_Z"] : List Attr).Nodup := by simp [hxy, hxz, hyz]
  apply Tup.canon_ext (Tup.isCanon_update hw1 hw2)
    (Tup.isCanon_canon (wk_zip hnd3 rfl))
  intro d
  rw [Tup.get?_update hw1 hw2]
  show (Tup.get? (tupOfRow [y, "_Z"] [b, c]) d).or
      (Tup.get? (tupOfRow [x, y] [a, b]) d) =
    Tup.get? (tupOfRow [x, y, "_Z"] [a, b, c]) d
  rw [get?_tupOfRow2 hyz b c d, get?_tupOfRow2 hxy a b d,
    get?_tupOfRow3 hxy hxz hyz a b c d]
  by_cases h1 : x = d
  · by_cases h2 : y = d
    · exact absurd (h1.trans h2.symm) hxy
    · by_cases h3 : ("_Z" : Attr) = d
      · exact absurd (h1.trans h3.symm) hxz
      · simp only [if_pos h1, if_neg h2, if_neg h3]
        rfl
  · by_cases h2 : y = d
    · by_cases h3 : ("_Z" : Attr) = d
      · exact absurd (h2.trans h3.symm) hyz
      · simp only [if_pos h2, if_neg h1, if_neg h3]
        rfl
    · by_cases h3 : ("_Z" : Attr) = d
      · simp only [if_pos h3, if_neg h1, if_neg h2]
        rfl
      · simp only [if_neg h1, if_neg h2, if_neg h3]
        rfl

theorem mem_rows_of_tuple_mem {H : List Attr} {m1 : MatB} {w : Row}
    (hnd : H.Nodup) (hw1 : WFm H m1) (hlen : w.length = H.length)
    (h : tupOfRow H w ∈ m1.rows.map (tupOfRow H)) : w ∈ m1.rows := by
  obtain ⟨w', hw', hwe⟩ := List.mem_map.mp h
  rw [tupOfRow_inj hnd (hw1.rlen w' hw') hlen hwe] at hw'
  exact hw'

theorem rows_iff_of_tuples_iff {H : List Attr} {m1 m2 : MatB}
    (hnd : H.Nodup) (hw1 : WFm H m1) (hw2 : WFm H m2)
    (h : ∀ t, t ∈ m1.rows.map (tupOfRow H) ↔ t ∈ m2.rows.map (tupOfRow H)) :
    ∀ w, w ∈ m1.rows ↔ w ∈ m2.rows := by
  intro w
  constructor
  · intro hwm
    exact mem_rows_of_tuple_mem hnd hw2 (hw1.rlen w hwm)
      ((h _).mp (List.mem_map.mpr ⟨w, hwm, rfl⟩))
  · intro hwm
    exact mem_rows_of_tuple_mem hnd hw1 (hw2.rlen w hwm)
      ((h _).mpr (List.mem_map.mpr ⟨w, hwm, rfl⟩))

theorem not_mem_pair {a p q : Attr} (h1 : a ≠ p) (h2 : a ≠ q) :
    ¬ a ∈ [p, q] := by
  intro hc
  rcases List.mem_cons.mp hc with h | h
  · exact h1 h
  · exact h2 (List.mem_singleton.mp h)

theorem not_mem_single {a p : Attr} (h1 : a ≠ p) : ¬ a ∈ [p] := by
  intro hc
  exact h1 (List.mem_singleton.mp hc)

/-- One TCLOSE iteration on a well-formed binary materialized relation
with the default constraints: every step succeeds, the result `TTT` holds
exactly the rows of `q` plus the two-step compositions, and the
convergence test is true exactly when `TTT` adds no row. -/
theorem tcStep {x y : Attr} (hxy : x ≠ y) (hxz : x ≠ "_Z") (hyz : y ≠ "_Z")
    {q : Relation} {mq : MatB}
    (hh : q.heading = [x, y]) (hcq : q.cdefs = defaultCdefs)
    (hbq : q.body = RBody.mat mq) (hwq : WFm q.heading mq)
    (htq : TypedRows mq.rows) :
    ∃ r2v cv c2v TTT mT bv,
      q.rename [(y, "_Z"), (x, y)] = .ok r2v ∧
      COMPOSE q r2v = .ok cv ∧
      cv.rename [("_Z", y)] = .ok c2v ∧
      OR q c2v = .ok TTT ∧
      relEq TTT q = .ok bv ∧
      TTT.heading = [x, y] ∧ TTT.cdefs = defaultCdefs ∧
      TTT.body = RBody.mat mT ∧ WFm TTT.heading mT ∧ TypedRows mT.rows ∧
      (∀ w, w ∈ mT.rows ↔ w ∈ mq.rows ∨
        ∃ a b c, w = [a, c] ∧ [a, b] ∈ mq.rows ∧ [b, c] ∈ mq.rows) ∧
      (bv = true ↔ ∀ w, w ∈ mT.rows ↔ w ∈ mq.rows) := by
  have hndxy : ([x, y] : List Attr).Nodup := by simp [hxy]
  have hyx : y ≠ x := Ne.symm hxy
  have hzx : ("_Z" : Attr) ≠ x := Ne.symm hxz
  have hzy : ("_Z" : Attr) ≠ y := Ne.symm hyz
  have hwq2 := hwq
  rw [hh] at hwq2
  obtain ⟨τq, htagq⟩ := matTags hwq htq
  have htagq2 := htagq
  rw [hh] at htagq2
  -- Step 1: r2 = q.rename [(y, "_Z"), (x, y)], heading [y, "_Z"], same rows
  have hin1 : ∀ p ∈ ([(y, "_Z"), (x, y)] : List (Attr × Attr)),
      p.1 ∈ q.heading := by
    intro p hp
    rw [hh]
    rcases List.mem_cons.mp hp with h | h
    · rw [h]; simp
    · rw [List.mem_singleton.mp h]; simp
  have hfx : (sLookup [(y, "_Z"), (x, y)] x).getD x = y := by
    show (if y = x then some "_Z" else if x = x then some y else none).getD x = y
    rw [if_neg (Ne.symm hxy), if_pos rfl]
    rfl
  have hfy : (sLookup [(y, "_Z"), (x, y)] y).getD y = "_Z" := by
    show (if y = y then some "_Z" else
      if x = y then some y else none).getD y = "_Z"
    rw [if_pos rfl]
    rfl
  have hmap1 : q.heading.map
      (fun c => (sLookup [(y, "_Z"), (x, y)] c).getD c) = [y, "_Z"] := by
    rw [hh]
    show [(sLookup [(y, "_Z"), (x, y)] x).getD x,
      (sLookup [(y, "_Z"), (x, y)] y).getD y] = [y, "_Z"]
    rw [hfx, hfy]
  obtain ⟨r2v, hr2, hr2h0, hr2cd, m2, hr2b, hr2wf, hr2ty, hr2mem⟩ :=
    rename_mat hbq hwq htq hcq hin1 (by rw [hmap1]; simp [hyz])
  have hr2h : r2v.heading = [y, "_Z"] := hr2h0.trans hmap1
  -- tuples of r2 are the rows of q re-keyed to [y, "_Z"]
  have hT2 : ∀ t, t ∈ m2.rows.map (tupOfRow r2v.heading) ↔
      ∃ a b, [a, b] ∈ mq.rows ∧ t = tupOfRow [y, "_Z"] [a, b] := by
    intro t
    rw [hr2h]
    constructor
    · intro ht
      obtain ⟨w, hwmem, rfl⟩ := List.mem_map.mp ht
      have hw2 : w ∈ mq.rows := (hr2mem w).mp hwmem
      obtain ⟨a, b, rfl⟩ := row_len2 (by rw [hwq2.rlen w hw2]; rfl)
      exact ⟨a, b, hw2, rfl⟩
    · rintro ⟨a, b, hab, rfl⟩
      exact List.mem_map.mpr ⟨[a, b], (hr2mem _).mpr hab, rfl⟩
  have hTq : ∀ t, t ∈ mq.rows.map (tupOfRow q.heading) ↔
      ∃ a b, [a, b] ∈ mq.rows ∧ t = tupOfRow [x, y] [a, b] := by
    intro t
    rw [hh]
    constructor
    · intro ht
      obtain ⟨w, hwmem, rfl⟩ := List.mem_map.mp ht
      obtain ⟨a, b, rfl⟩ := row_len2 (by rw [hwq2.rlen w hwmem]; rfl)
      exact ⟨a, b, hwmem, rfl⟩
    · rintro ⟨a, b, hab, rfl⟩
      exact List.mem_map.mpr ⟨[a, b], hab, rfl⟩
  -- Step 2: j = AND q r2 (equal sizes, so q drives)
  have hr2wf2 := hr2wf
  rw [hr2h0] at hr2wf2
  have hlen2 : m2.rows.length = mq.rows.length :=
    length_eq_of_nodup_mem hr2wf.rnd hwq2.rnd hr2mem
  obtain ⟨jv, hj, hjh0, hjcd, mj, hjb, hjwf, hjty, hjmem⟩ :=
    AND_mat hbq hr2b hwq hr2wf htq hr2ty (by omega)
  have hun : unionH [x, y] [y, "_Z"] = [x, y, "_Z"] := by
    have hcy : ([x, y] : List Attr).contains y = true :=
      containsB_iff.mpr (by simp)
    have hcz : ([x, y] : List Attr).contains "_Z" = false :=
      containsB_false (not_mem_pair hzx hzy)
    simp only [unionH, List.filter_cons, List.filter_nil]
    rw [hcy, hcz]
    rfl
  have hjh : jv.heading = [x, y, "_Z"] := by
    rw [hjh0, hh, hr2h, hun]
  -- membership of the join at the row level
  have hjmem2 : ∀ t, t ∈ mj.rows.map (tupOfRow jv.heading) ↔
      ∃ a b c, [a, b] ∈ mq.rows ∧ [b, c] ∈ mq.rows ∧
        t = tupOfRow [x, y, "_Z"] [a, b, c] := by
    intro t
    rw [hjmem t]
    constructor
    · rintro ⟨t1, ht1, t2, ht2, hagr, rfl⟩
      obtain ⟨a, b1, hab1, rfl⟩ := (hTq t1).mp ht1
      obtain ⟨b2, c, hb2c, rfl⟩ := (hT2 t2).mp ht2
      have hyq : y ∈ q.heading := by rw [hh]; simp
      have hy2 : y ∈ r2v.heading := by rw [hr2h]; simp
      have hgy := hagr y hy2 hyq
      rw [get?_pair_left hyz b2 c, get?_pair_right hxy a b1] at hgy
      injection hgy with hgy2
      refine ⟨a, b1, c, hab1, ?_, ?_⟩
      · rw [← hgy2]
        exact hb2c
      · rw [hgy2]
        exact update_pair_merge hxy hxz hyz a b1 c
    · rintro ⟨a, b, c, hab, hbc, rfl⟩
      refine ⟨tupOfRow [x, y] [a, b], (hTq _).mpr ⟨a, b, hab, rfl⟩,
        tupOfRow [y, "_Z"] [b, c], (hT2 _).mpr ⟨b, c, hbc, rfl⟩, ?_, ?_⟩
      · intro d hd2 hd1
        rw [hr2h] at hd2
        rw [hh] at hd1
        have hdy : d = y := by
          rcases List.mem_cons.mp hd2 with h | h
          · exact h
          · rw [List.mem_singleton] at h
            subst h
            rcases List.mem_cons.mp hd1 with h2 | h2
            · exact absurd h2.symm hxz
            · rw [List.mem_singleton] at h2
              exact absurd h2.symm hyz
        subst hdy
        rw [get?_pair_left hyz b c, get?_pair_right hxy a b]
      · exact (update_pair_merge hxy hxz hyz a b c).symm
  -- Step 3: c = REMOVE j [y] (via COMPOSE)
  obtain ⟨τj, htagj⟩ := matTags hjwf hjty
  obtain ⟨cv, hcv, hcvh0, hcvcd, mc, hcvb, hcvwf0, hcvty, hcvmem0⟩ :=
    @REMOVE_mat jv mj [y] τj hjb hjwf hjcd htagj
  have hfilj : jv.heading.filter (fun a => !(([y] : List Attr).contains a))
      = [x, "_Z"] := by
    rw [hjh]
    have hc1 : ([y] : List Attr).contains x = false :=
      containsB_false (not_mem_single hxy)
    have hc2 : ([y] : List Attr).contains y = true := containsB_iff.mpr (by simp)
    have hc3 : ([y] : List Attr).contains "_Z" = false :=
      containsB_false (not_mem_single hzy)
    simp only [List.filter_cons, List.filter_nil]
    rw [hc1, hc2, hc3]
    rfl
  have hA : q.heading.filter (fun a => r2v.heading.contains a) = [y] := by
    rw [hh, hr2h]
    have hcx : ([y, "_Z"] : List Attr).contains x = false :=
      containsB_false (not_mem_pair hxy hxz)
    have hcy2 : ([y, "_Z"] : List Attr).contains y = true :=
      containsB_iff.mpr (by simp)
    simp only [List.filter_cons, List.filter_nil]
    rw [hcx, hcy2]
    rfl
  have hcompose : COMPOSE q r2v = .ok cv := by
    simp only [COMPOSE]
    rw [hj]
    simp only [excBind_ok_eq]
    rw [hA]
    exact hcv
  have hcvh : cv.heading = [x, "_Z"] := hcvh0.trans hfilj
  have hcvwf1 : WFm [x, "_Z"] mc := by
    rw [← hfilj]
    exact hcvwf0
  have hcvmem := hcvmem0
  rw [hfilj] at hcvmem
  have hndxz : ([x, "_Z"] : List Attr).Nodup := by simp [hxz]
  -- tuples of c: the projections {x:a, _Z:c} of two-step paths
  have hTc : ∀ t, t ∈ mc.rows.map (tupOfRow [x, "_Z"]) ↔
      ∃ a c, (∃ b, [a, b] ∈ mq.rows ∧ [b, c] ∈ mq.rows) ∧
        t = tupOfRow [x, "_Z"] [a, c] := by
    intro t
    rw [hcvmem t]
    constructor
    · rintro ⟨t0, ht0, hcanon, hkeys, hagr⟩
      obtain ⟨a, b, c, hab, hbc, rfl⟩ := (hjmem2 t0).mp ht0
      refine ⟨a, c, ⟨b, hab, hbc⟩, ?_⟩
      apply Tup.canon_ext hcanon (Tup.isCanon_canon (wk_zip hndxz rfl))
      intro d
      show Tup.get? t d = Tup.get? (tupOfRow [x, "_Z"] [a, c]) d
      by_cases hdx : d = x
      · subst hdx
        rw [hagr d (by simp), get?_triple_left hxy hxz hyz a b c,
          get?_pair_left hxz a c]
      · by_cases hdz : d = "_Z"
        · subst hdz
          rw [hagr "_Z" (by simp), get?_triple_right hxy hxz hyz a b c,
            get?_pair_right hxz a c]
        · have h1 : Tup.get? t d = none := by
            apply Tup.get?_eq_none_iff.mpr
            intro hc
            rcases List.mem_cons.mp ((hkeys d).mp hc) with h | h
            · exact hdx h
            · exact hdz (List.mem_singleton.mp h)
          rw [h1, get?_pair_none hxz (fun h => hdx h.symm)
            (fun h => hdz h.symm) a c]
    · rintro ⟨a, c, ⟨b, hab, hbc⟩, rfl⟩
      refine ⟨tupOfRow [x, y, "_Z"] [a, b, c],
        (hjmem2 _).mpr ⟨a, b, c, hab, hbc, rfl⟩,
        Tup.isCanon_canon (wk_zip hndxz rfl), ?_, ?_⟩
      · intro d
        exact mem_keys_tupOfRow rfl d
      · intro d hd
        rcases List.mem_cons.mp hd with h | h
        · subst h
          rw [get?_pair_left hxz a c, get?_triple_left hxy hxz hyz a b c]
        · rw [List.mem_singleton] at h
          subst h
          rw [get?_pair_right hxz a c, get?_triple_right hxy hxz hyz a b c]
  -- Step 4: c2 = c.rename [("_Z", y)], heading [x, y], same rows
  have hin2 : ∀ p ∈ ([("_Z", y)] : List (Attr × Attr)), p.1 ∈ cv.heading := by
    intro p hp
    rw [List.mem_singleton.mp hp, hcvh]
    simp
  have hfx2 : (sLookup [("_Z", y)] x).getD x = x := by
    show (if "_Z" = x then some y else none).getD x = x
    rw [if_neg (Ne.symm hxz)]
    rfl
  have hfz2 : (sLookup [("_Z", y)] "_Z").getD "_Z" = y := by
    show (if "_Z" = "_Z" then some y else none).getD "_Z" = y
    rw [if_pos rfl]
    rfl
  have hmap2 : cv.heading.map (fun c => (sLookup [("_Z", y)] c).getD c)
      = [x, y] := by
    rw [hcvh]
    show [(sLookup [("_Z", y)] x).getD x,
      (sLookup [("_Z", y)] "_Z").getD "_Z"] = [x, y]
    rw [hfx2, hfz2]
  have hcvwfh : WFm cv.heading mc := by
    rw [hcvh]
    exact hcvwf1
  obtain ⟨c2v, hc2, hc2h0, hc2cd, m3, hc2b, hc2wf, hc2ty, hc2mem⟩ :=
    rename_mat hcvb hcvwfh hcvty hcvcd hin2 (by rw [hmap2]; exact hndxy)
  have hc2h : c2v.heading = [x, y] := hc2h0.trans hmap2
  -- tuples of c2: the two-step paths re-keyed to [x, y]
  have hTc2 : ∀ t, t ∈ m3.rows.map (tupOfRow c2v.heading) ↔
      ∃ a c, (∃ b, [a, b] ∈ mq.rows ∧ [b, c] ∈ mq.rows) ∧
        t = tupOfRow [x, y] [a, c] := by
    intro t
    rw [hc2h]
    constructor
    · intro ht
      obtain ⟨w, hwm, rfl⟩ := List.mem_map.mp ht
      have hwc : w ∈ mc.rows := (hc2mem w).mp hwm
      have hwlen : w.length = 2 := by rw [hcvwf1.rlen w hwc]; rfl
      obtain ⟨a, c, rfl⟩ := row_len2 hwlen
      have hmemc : tupOfRow [x, "_Z"] [a, c] ∈ mc.rows.map (tupOfRow [x, "_Z"]) :=
        List.mem_map.mpr ⟨[a, c], hwc, rfl⟩
      obtain ⟨a', c', hpath, heq⟩ := (hTc _).mp hmemc
      have hrow := tupOfRow_inj hndxz rfl rfl heq
      injection hrow with h1 h2
      injection h2 with h2 _
      subst h1
      subst h2
      exact ⟨a, c, hpath, rfl⟩
    · rintro ⟨a, c, hpath, rfl⟩
      have h1 : tupOfRow [x, "_Z"] [a, c] ∈ mc.rows.map (tupOfRow [x, "_Z"]) :=
        (hTc _).mpr ⟨a, c, hpath, rfl⟩
      have h2 : [a, c] ∈ mc.rows :=
        mem_rows_of_tuple_mem hndxz hcvwf1 rfl h1
      exact List.mem_map.mpr ⟨[a, c], (hc2mem _).mpr h2, rfl⟩
  -- tags of c2 match the tags of q on [x, y]
  have htagc2 : ∀ t ∈ m3.rows.map (tupOfRow c2v.heading), ∀ d v,
      Tup.get? t d = some v → v.tag = τq d := by
    intro t ht d v hv
    obtain ⟨a, c, ⟨b, hab, hbc⟩, rfl⟩ := (hTc2 t).mp ht
    rw [get?_tupOfRow2 hxy a c d] at hv
    by_cases hdx : x = d
    · rw [if_pos hdx] at hv
      injection hv with hv
      subst hv
      rw [← hdx]
      exact htagq2 (tupOfRow [x, y] [a, b])
        (List.mem_map.mpr ⟨[a, b], hab, rfl⟩) x a (get?_pair_left hxy a b)
    · rw [if_neg hdx] at hv
      by_cases hdy : y = d
      · rw [if_pos hdy] at hv
        injection hv with hv
        subst hv
        rw [← hdy]
        exact htagq2 (tupOfRow [x, y] [b, c])
          (List.mem_map.mpr ⟨[b, c], hbc, rfl⟩) y c (get?_pair_right hxy b c)
      · rw [if_neg hdy] at hv
        cases hv
  -- Step 5: TTT = OR q c2
  have hhe : headEqB q.heading c2v.heading = true := by
    rw [hh, hc2h]
    exact headEqB_iff.mpr (fun a => Iff.rfl)
  obtain ⟨TTT, hTTT, hTh0, hTcd, mT, hTb, hTwf, hTty, hTmem⟩ :=
    or_mat hbq hc2b hwq hc2wf hhe htagq htagc2
  have hTh : TTT.heading = [x, y] := hTh0.trans hh
  have hTwf2 := hTwf
  rw [hTh0, hh] at hTwf2
  rw [hTh0, hh, hc2h] at hTmem
  rw [hc2h] at hTc2
  -- rows of TTT = rows of q plus the two-step paths
  have hTmem2 : ∀ w, w ∈ mT.rows ↔ w ∈ mq.rows ∨
      ∃ a b c, w = [a, c] ∧ [a, b] ∈ mq.rows ∧ [b, c] ∈ mq.rows := by
    intro w
    constructor
    · intro hwm
      have ht : tupOfRow [x, y] w ∈ mT.rows.map (tupOfRow [x, y]) :=
        List.mem_map.mpr ⟨w, hwm, rfl⟩
      rcases (hTmem _).mp ht with h | h
      · exact Or.inl (mem_rows_of_tuple_mem hndxy hwq2 (hTwf2.rlen w hwm) h)
      · obtain ⟨a', c', hpath, heq⟩ := (hTc2 _).mp h
        have hw2 : w = [a', c'] :=
          tupOfRow_inj hndxy (hTwf2.rlen w hwm) rfl heq
        obtain ⟨b, hab, hbc⟩ := hpath
        exact Or.inr ⟨a', b, c', hw2, hab, hbc⟩
    · intro hw
      rcases hw with hw | ⟨a, b, c, rfl, hab, hbc⟩
      · exact mem_rows_of_tuple_mem hndxy hTwf2 (hwq2.rlen w hw)
          ((hTmem _).mpr (Or.inl (List.mem_map.mpr ⟨w, hw, rfl⟩)))
      · exact mem_rows_of_tuple_mem hndxy hTwf2 rfl
          ((hTmem _).mpr (Or.inr ((hTc2 _).mpr ⟨a, c, ⟨b, hab, hbc⟩, rfl⟩)))
  -- Step 6: the convergence test
  obtain ⟨bv, hbv, hbviff⟩ := relEq_mat hTb hbq hTwf hwq hTty
  rw [hTh, hh] at hbviff
  have hbviff2 : bv = true ↔ ∀ w, w ∈ mT.rows ↔ w ∈ mq.rows := by
    rw [hbviff]
    constructor
    · rintro ⟨_, hset⟩
      exact rows_iff_of_tuples_iff hndxy hTwf2 hwq2 hset
    · intro hset
      refine ⟨fun a => Iff.rfl, ?_⟩
      intro t
      constructor
      · intro ht
        obtain ⟨w, hwm, rfl⟩ := List.mem_map.mp ht
        exact List.mem_map.mpr ⟨w, (hset w).mp hwm, rfl⟩
      · intro ht
        obtain ⟨w, hwm, rfl⟩ := List.mem_map.mp ht
        exact List.mem_map.mpr ⟨w, (hset w).mpr hwm, rfl⟩
  exact ⟨r2v, cv, c2v, TTT, mT, bv, hr2, hcompose, hc2, hTTT, hbv, hTh, hTcd,
    hTb, hTwf, hTty, hTmem2, hbviff2⟩

/-- Any relation TCLOSE returns is a well-formed binary materialized
relation over the same two attributes that is closed under two-step
composition (the converged fixpoint). -/
theorem tclose_ind {x y : Attr} (hxy : x ≠ y) (hxz : x ≠ "_Z")
    (hyz : y ≠ "_Z") :
    ∀ (n : ℕ) (q s : Relation) (mq : MatB),
    q.heading = [x, y] → q.cdefs = defaultCdefs → q.body = RBody.mat mq →
    WFm q.heading mq → TypedRows mq.rows →
    TCLOSE n q = .ok (some s) →
    ∃ ms, s.heading = [x, y] ∧ s.cdefs = defaultCdefs ∧
      s.body = RBody.mat ms ∧ WFm s.heading ms ∧ TypedRows ms.rows ∧
      ∀ a b c, [a, b] ∈ ms.rows → [b, c] ∈ ms.rows → [a, c] ∈ ms.rows := by
  intro n
  induction n with
  | zero =>
    intro q s mq _ _ _ _ _ h
    exact absurd h (by simp [TCLOSE])
  | succ n ih =>
    intro q s mq hh hc hb hw ht h
    obtain ⟨r2v, cv, c2v, TTT, mT, bv, h1, h2, h3, h4, h5, hhT, hcT, hbT,
      hwT, htT, hmem, hbiff⟩ := tcStep hxy hxz hyz hh hc hb hw ht
    simp only [TCLOSE, hh] at h
    rw [h1] at h
    simp only [excBind_ok_eq] at h
    rw [h2] at h
    simp only [excBind_ok_eq] at h
    rw [h3] at h
    simp only [excBind_ok_eq] at h
    rw [h4] at h
    simp only [excBind_ok_eq] at h
    rw [h5] at h
    simp only [excBind_ok_eq] at h
    rcases hbv : bv with _ | _
    · rw [hbv] at h
      rw [if_neg (by simp)] at h
      exact ih TTT s mT hhT hcT hbT hwT htT h
    · rw [hbv] at h
      rw [if_pos rfl] at h
      have hs : s = TTT := by
        have h6 : Except.ok (some TTT) = Except.ok (some s) := h
        injection h6 with h6
        injection h6 with h6
        exact h6.symm
      subst hs
      refine ⟨mT, hhT, hcT, hbT, hwT, htT, ?_⟩
      intro a b c hab hbc
      have hset := hbiff.mp hbv
      exact (hmem _).mpr
        (Or.inr ⟨a, b, c, rfl, (hset _).mp hab, (hset _).mp hbc⟩)

/-- C7: on a well-formed binary materialized relation on which the
convergence-bounded recursion reaches its fixpoint `s`, running TCLOSE
again on `s` converges in one iteration to a relation equal to `s`
(`TCLOSE(TCLOSE(r)) == TCLOSE(r)`); and TCLOSE on a relation whose
heading is not exactly two attributes raises the Invalid-Operation
error. -/
theorem C7_tclose :
    (∀ (n : ℕ) (r s : Relation) (x y : Attr) (m : MatB),
      r.heading = [x, y] → x ≠ y → x ≠ "_Z" → y ≠ "_Z" →
      r.cdefs = defaultCdefs → r.body = RBody.mat m →
      WFm r.heading m → TypedRows m.rows →
      TCLOSE n r = .ok (some s) →
      ∃ s2, TCLOSE 1 s = .ok (some s2) ∧ REq s2 s) ∧
    (∀ (n : ℕ) (r : Relation), (∀ x y, r.heading ≠ [x, y]) →
      TCLOSE (n + 1) r =
        .error (.invalidOp "TCLOSE expects a binary relation")) := by
  constructor
  · intro n r s x y m hh hxy hxz hyz hc hb hw ht hfix
    obtain ⟨ms, hhs, hcs, hbs, hws, hts, hclosed⟩ :=
      tclose_ind hxy hxz hyz n r s m hh hc hb hw ht hfix
    obtain ⟨r2v, cv, c2v, TTT, mT, bv, h1, h2, h3, h4, h5, hhT, hcT, hbT,
      hwT, htT, hmem, hbiff⟩ := tcStep hxy hxz hyz hhs hcs hbs hws hts
    have hset : ∀ w, w ∈ mT.rows ↔ w ∈ ms.rows := by
      intro w
      rw [hmem w]
      constructor
      · rintro (hw2 | ⟨a, b, c, rfl, hab, hbc⟩)
        · exact hw2
        · exact hclosed a b c hab hbc
      · exact fun hw2 => Or.inl hw2
    have hbv : bv = true := hbiff.mpr hset
    have hrun : TCLOSE 1 s = .ok (some TTT) := by
      show TCLOSE (Nat.succ 0) s = .ok (some TTT)
      simp only [TCLOSE, hhs]
      rw [h1]
      simp only [excBind_ok_eq]
      rw [h2]
      simp only [excBind_ok_eq]
      rw [h3]
      simp only [excBind_ok_eq]
      rw [h4]
      simp only [excBind_ok_eq]
      rw [h5]
      simp only [excBind_ok_eq]
      rw [hbv]
      rw [if_pos rfl]
      rfl
    refine ⟨TTT, hrun, ?_⟩
    show relEq TTT s = .ok true
    rw [← hbv]
    exact h5
  · intro n r hne
    rcases hhr : r.heading with _ | ⟨a, _ | ⟨b, _ | ⟨c, l⟩⟩⟩
    · simp [TCLOSE, hhr]
    · simp [TCLOSE, hhr]
    · exact absurd hhr (hne a b)
    · simp [TCLOSE, hhr]

def c7m : MatB :=
  (addLoopS ["a", "b"] { rows := [], idx := emptyIdx } [[vInt 1, vInt 2]]).1

def c7r : Relation :=
  { heading := ["a", "b"], body := RBody.mat c7m,
    cdefs := defaultCdefs, mapToOrig := [] }

def c7s : Relation := ((TCLOSE 1 c7r).toOption.getD none).getD c7r

theorem C7_witness :
    TCLOSE 1 c7r = .ok (some c7s) ∧
    ∃ s2, TCLOSE 1 c7s = .ok (some s2) ∧ REq s2 c7s := by
  have hfix : TCLOSE 1 c7r = .ok (some c7s) := by rfl
  refine ⟨hfix, ?_⟩
  exact C7_tclose.1 1 c7r c7s "a" "b" c7m rfl (by decide) (by decide)
    (by decide) rfl rfl
    (wf_addLoopS [[vInt 1, vInt 2]] { rows := [], idx := emptyIdx }
      (wfm_empty (by decide)) (by decide))
    (by unfold TypedRows; decide) hfix
